import Mathlib

/-!
Verification development for the mark-and-sweep garbage collector in
`src/core/gc.c` (dst runtime).  The heap is embedded shallowly: the global
allocation list `dst_vm_blocks` becomes a `List Block` (list order = `next`
pointer order), block addresses become `Nat` ids, and every GC routine of the
source file becomes an executable Lean function over that representation.
Recursive marking is made total with a fuel parameter: `none` means the C code
would not have returned normally (exhausted recursion, or a dereference that is
undefined behavior in C).  The sweep additionally returns the trace of the
operations the C loop performs (deinit, free, flag writes), so ordering claims
about finalization are provable.
-/

set_option maxHeartbeats 1000000

namespace DstGC

/-- Memory type tag stored in a block's flags word (the DST_MEMORY_* constants
used by the `dst_deinit_block` switch).  Symbols are allocated as string memory
(the deinit switch in src only has a STRING case, and `dst_mark` sends both
DST_STRING and DST_SYMBOL to `dst_mark_string`).  `none` stands for non-GC
memory types, which hit the `default:` arms of the switches. -/
inductive MemType where
  | none
  | string
  | array
  | tuple
  | table
  | struct
  | fiber
  | buffer
  | function
  | userdata
  | funcenv
  | funcdef
deriving DecidableEq

/-- Value type tag (the DST_* constants dispatched on by `dst_mark`).  Only the
heap kinds are traced; nil, boolean, number fall into `default:`. -/
inductive DstType where
  | nil
  | boolean
  | number
  | string
  | symbol
  | function
  | array
  | table
  | struct
  | tuple
  | buffer
  | fiber
  | userdata
deriving DecidableEq

/-- A tagged value (struct DstValue).  `ptr` is the pointer member of the C
union `as`, given as a block id; for scalar values it is junk bits that the GC
never dereferences (except for boolean-tagged funcdef constants, which is
exactly the convention `dst_mark_funcdef` exploits). -/
structure DstValue where
  type : DstType
  ptr : Nat := 0
deriving DecidableEq

/-- One slot of a fiber's data array: either an ordinary value slot, or one of
the slots occupied by an in-line DstStackFrame header, carrying the fields
`dst_mark_fiber` reads from it (`func`, `prevframe`). -/
inductive FiberSlot where
  | value (v : DstValue)
  | frameInfo (func : Option Nat) (prevframe : Nat)
deriving DecidableEq

/-- The body of a heap block, by kind, holding exactly the fields that
`dst_mark_*` and `dst_deinit_block` read.  `raw` stands for a body the GC never
interprets (fresh allocations, whose bodies `dst_alloc` leaves uninitialized,
and non-GC memory types). -/
inductive DstObject where
  | raw
  | string
  | buffer
  | userdata (hasFinalizer : Bool)
  | array (data : List DstValue)
  | table (data : List DstValue)
  | struct (data : List DstValue)
  | tuple (data : List DstValue)
  | funcenv (offset : Nat) (fiberRef : Nat) (values : List DstValue)
  | funcdef (constants : Option (List DstValue)) (environmentsLength : Nat)
  | function (fdef : Nat) (envs : Option (List (Option Nat)))
  | fiber (frame : Nat) (frametop : Nat) (data : List FiberSlot)
      (parent : Option Nat) (ret : DstValue)
deriving DecidableEq

/-- Header flags: the type tag together with the DST_MEM_REACHABLE and
DST_MEM_DISABLED bits of the flags word. -/
structure Flags where
  typeTag : MemType
  reachable : Bool
  disabled : Bool
deriving DecidableEq

/-- A heap block: header (id = the block's address, flags) plus body.  The
global list `dst_vm_blocks` is modelled as `List Block`, where list order is
`next`-pointer order. -/
structure Block where
  id : Nat
  flags : Flags
  obj : DstObject
deriving DecidableEq

/-- Look a block up by id on the global list (pointer dereference). -/
def findBlock (h : List Block) (id : Nat) : Option Block :=
  h.find? (fun b => b.id == id)

/-- Read a block's body by id. -/
def getObj (h : List Block) (id : Nat) : Option DstObject :=
  (findBlock h id).map (fun b => b.obj)

/-- Set the reachable bit of the block with the given id. -/
def setMark (h : List Block) (id : Nat) : List Block :=
  h.map (fun b =>
    if b.id == id then { b with flags := { b.flags with reachable := true } } else b)

/-- Modelled from the spec: the `dst_gc_reachable` header macro (not in src)
reads the DST_MEM_REACHABLE bit of a block's flags; `none` when the pointer
does not refer to a live block (undefined behavior in C). -/
def dst_gc_reachable (h : List Block) (id : Nat) : Option Bool :=
  (findBlock h id).map (fun b => b.flags.reachable)

/-- Modelled from the spec: the `dst_gc_mark` header macro (not in src) sets
the DST_MEM_REACHABLE bit in the block's header; `none` when the pointer does
not refer to a live block (undefined behavior in C). -/
def dst_gc_mark (h : List Block) (id : Nat) : Option (List Block) :=
  match findBlock h id with
  | some _ => some (setMark h id)
  | Option.none => Option.none

/-- Mark a string or symbol: `dst_gc_mark(dst_string_raw(str))`; the raw-header
translation is the identity in the id model. -/
def dst_mark_string (h : List Block) (str : Nat) : Option (List Block) :=
  dst_gc_mark h str

/-- Mark a buffer: `dst_gc_mark(buffer)`. -/
def dst_mark_buffer (h : List Block) (buffer : Nat) : Option (List Block) :=
  dst_gc_mark h buffer

/-- Mark a userdata: `dst_gc_mark(dst_userdata_header(udata))`. -/
def dst_mark_udata (h : List Block) (udata : Nat) : Option (List Block) :=
  dst_gc_mark h udata

/-- Modelled from the spec: DST_FRAME_SIZE, the size of a DstStackFrame in
fiber slots; a layout constant defined outside src.  We fix one slot. -/
def DST_FRAME_SIZE : Nat := 1

/-- Read the value slots `fiber->data + i ..< j` that
`dst_mark_many(fiber->data + i, j - i)` traverses.  `none` when the range is
invalid or a slot is actually frame-header memory (both undefined behavior
in C: `j - i` underflows as uint32, or a DstStackFrame is reinterpreted as a
value). -/
def readValues (data : List FiberSlot) (i j : Nat) : Option (List DstValue) :=
  if i ≤ j ∧ j ≤ data.length then
    ((data.drop i).take (j - i)).mapM (fun s =>
      match s with
      | .value v => some v
      | _ => Option.none)
  else Option.none

/-- The heap pointer a value carries when its type is one of the heap kinds
`dst_mark` dispatches on; `none` for nil, boolean, number (the `default:`
case). -/
def valPointee (v : DstValue) : Option Nat :=
  match v.type with
  | .string => some v.ptr
  | .symbol => some v.ptr
  | .function => some v.ptr
  | .array => some v.ptr
  | .table => some v.ptr
  | .struct => some v.ptr
  | .tuple => some v.ptr
  | .buffer => some v.ptr
  | .fiber => some v.ptr
  | .userdata => some v.ptr
  | _ => Option.none

/-- A pending call of the marking machinery: one constructor per routine (or
per in-routine loop) of the mutually recursive mark family in `gc.c`.  The
family is implemented as the single fuel-indexed interpreter `markGo` so that
it is structurally recursive and evaluates definitionally; the functions of
the source keep their names as wrappers below. -/
inductive MarkCall where
  | val (v : DstValue)
  | many (vs : List DstValue)
  | array (id : Nat)
  | table (id : Nat)
  | struct (id : Nat)
  | tuple (id : Nat)
  | funcenv (id : Nat)
  | funcdef (id : Nat)
  | constants (vs : List DstValue)
  | function (id : Nat)
  | envs (l : List (Option Nat)) (k : Nat)
  | fiber (id : Nat)
  | frames (data : List FiberSlot) (i j : Nat)
deriving DecidableEq

/-- Interpreter for the mutually recursive mark family of `gc.c`.  Fuel
decreases on every call; `none` means the fuel ran out (the bound below proves
enough fuel always exists on well-formed heaps) or C undefined behavior was
reached. -/
def markGo : Nat → List Block → MarkCall → Option (List Block)
  | 0, _, _ => Option.none
  | n + 1, h, c =>
    match c with
    | .val x =>
      match x.type with
      | .string => dst_mark_string h x.ptr
      | .symbol => dst_mark_string h x.ptr
      | .function => markGo n h (.function x.ptr)
      | .array => markGo n h (.array x.ptr)
      | .table => markGo n h (.table x.ptr)
      | .struct => markGo n h (.struct x.ptr)
      | .tuple => markGo n h (.tuple x.ptr)
      | .buffer => dst_mark_buffer h x.ptr
      | .fiber => markGo n h (.fiber x.ptr)
      | .userdata => dst_mark_udata h x.ptr
      | _ => some h
    | .many vs =>
      match vs with
      | [] => some h
      | v :: rest =>
        match markGo n h (.val v) with
        | some h1 => markGo n h1 (.many rest)
        | Option.none => Option.none
    | .array id =>
      match dst_gc_reachable h id with
      | some true => some h
      | some false =>
        match getObj h id with
        | some (.array data) => markGo n (setMark h id) (.many data)
        | _ => Option.none
      | Option.none => Option.none
    | .table id =>
      match dst_gc_reachable h id with
      | some true => some h
      | some false =>
        match getObj h id with
        | some (.table data) => markGo n (setMark h id) (.many data)
        | _ => Option.none
      | Option.none => Option.none
    | .struct id =>
      match dst_gc_reachable h id with
      | some true => some h
      | some false =>
        match getObj h id with
        | some (.struct data) => markGo n (setMark h id) (.many data)
        | _ => Option.none
      | Option.none => Option.none
    | .tuple id =>
      match dst_gc_reachable h id with
      | some true => some h
      | some false =>
        match getObj h id with
        | some (.tuple data) => markGo n (setMark h id) (.many data)
        | _ => Option.none
      | Option.none => Option.none
    | .funcenv id =>
      match dst_gc_reachable h id with
      | some true => some h
      | some false =>
        match getObj h id with
        | some (.funcenv offset fiberRef values) =>
          if offset ≠ 0 then markGo n (setMark h id) (.fiber fiberRef)
          else markGo n (setMark h id) (.many values)
        | _ => Option.none
      | Option.none => Option.none
    | .funcdef id =>
      match dst_gc_reachable h id with
      | some true => some h
      | some false =>
        match getObj h id with
        | some (.funcdef constants _) =>
          match constants with
          | some cs => markGo n (setMark h id) (.constants cs)
          | Option.none => some (setMark h id)
        | _ => Option.none
      | Option.none => Option.none
    | .constants vs =>
      match vs with
      | [] => some h
      | v :: rest =>
        match (if v.type == DstType.boolean then markGo n h (.funcdef v.ptr)
               else markGo n h (.val v)) with
        | some h1 => markGo n h1 (.constants rest)
        | Option.none => Option.none
    | .function id =>
      match dst_gc_reachable h id with
      | some true => some h
      | some false =>
        match getObj h id with
        | some (.function fdef envs) =>
          match getObj h fdef with
          | some (.funcdef _ numenvs) =>
            match (match envs with
                   | some l => markGo n (setMark h id) (.envs l numenvs)
                   | Option.none => some (setMark h id)) with
            | some h1 => markGo n h1 (.funcdef fdef)
            | Option.none => Option.none
          | _ => Option.none
        | _ => Option.none
      | Option.none => Option.none
    | .envs l k =>
      match l, k with
      | _, 0 => some h
      | [], _ + 1 => Option.none
      | e :: rest, k + 1 =>
        match e with
        | some envId =>
          match markGo n h (.funcenv envId) with
          | some h1 => markGo n h1 (.envs rest k)
          | Option.none => Option.none
        | Option.none => markGo n h (.envs rest k)
    | .fiber id =>
      match dst_gc_reachable h id with
      | some true => some h
      | some false =>
        match getObj h id with
        | some (.fiber frame frametop data parent ret) =>
          match markGo n (setMark h id) (.frames data frame frametop) with
          | some h1 =>
            match (match parent with
                   | some p => markGo n h1 (.fiber p)
                   | Option.none => some h1) with
            | some h2 => markGo n h2 (.val ret)
            | Option.none => Option.none
          | Option.none => Option.none
        | _ => Option.none
      | Option.none => Option.none
    | .frames data i j =>
      match i with
      | 0 => some h
      | i + 1 =>
        match data.get? (i + 1 - DST_FRAME_SIZE) with
        | some (.frameInfo funcId prevframe) =>
          match (match funcId with
                 | some f => markGo n h (.function f)
                 | Option.none => some h) with
          | some h1 =>
            match readValues data (i + 1) j with
            | some vs =>
              match markGo n h1 (.many vs) with
              | some h2 => markGo n h2 (.frames data prevframe (i + 1 - DST_FRAME_SIZE))
              | Option.none => Option.none
            | Option.none => Option.none
          | Option.none => Option.none
        | _ => Option.none

/-- `dst_mark`: dispatch on the value's type tag. -/
def dst_mark (n : Nat) (h : List Block) (x : DstValue) : Option (List Block) :=
  markGo n h (.val x)

/-- `dst_mark_many`: mark a contiguous run of values. -/
def dst_mark_many (n : Nat) (h : List Block) (vs : List DstValue) : Option (List Block) :=
  markGo n h (.many vs)

/-- `dst_mark_array`: guard on the reachable bit, mark, then mark
`data[0..count]`. -/
def dst_mark_array (n : Nat) (h : List Block) (id : Nat) : Option (List Block) :=
  markGo n h (.array id)

/-- `dst_mark_table`: guard, mark, then mark `data[0..capacity]`. -/
def dst_mark_table (n : Nat) (h : List Block) (id : Nat) : Option (List Block) :=
  markGo n h (.table id)

/-- `dst_mark_struct`: guard, mark, then mark `st[0..capacity]`. -/
def dst_mark_struct (n : Nat) (h : List Block) (id : Nat) : Option (List Block) :=
  markGo n h (.struct id)

/-- `dst_mark_tuple`: guard, mark, then mark `tuple[0..length]`. -/
def dst_mark_tuple (n : Nat) (h : List Block) (id : Nat) : Option (List Block) :=
  markGo n h (.tuple id)

/-- `dst_mark_funcenv`: guard, mark, then either mark the owning fiber
(`offset` nonzero, on stack) or the closed value array. -/
def dst_mark_funcenv (n : Nat) (h : List Block) (id : Nat) : Option (List Block) :=
  markGo n h (.funcenv id)

/-- `dst_mark_funcdef`: guard, mark, then walk the constants when the
`constants` pointer is non-null; boolean-tagged constants hold nested
funcdefs. -/
def dst_mark_funcdef (n : Nat) (h : List Block) (id : Nat) : Option (List Block) :=
  markGo n h (.funcdef id)

/-- The constants loop of `dst_mark_funcdef`. -/
def dst_mark_constants (n : Nat) (h : List Block) (vs : List DstValue) : Option (List Block) :=
  markGo n h (.constants vs)

/-- `dst_mark_function`: guard, mark, read `func->def->environments_length`
(an unconditional dereference of `def`), walk the env array when non-null,
then mark the funcdef. -/
def dst_mark_function (n : Nat) (h : List Block) (id : Nat) : Option (List Block) :=
  markGo n h (.function id)

/-- The env loop of `dst_mark_function`: visit `numenvs` entries of the env
array, marking the non-null ones. -/
def dst_mark_envs (n : Nat) (h : List Block) (l : List (Option Nat)) (k : Nat) :
    Option (List Block) :=
  markGo n h (.envs l k)

/-- `dst_mark_fiber`: guard, mark, walk the frame chain, mark the parent when
non-null, then mark the return value. -/
def dst_mark_fiber (n : Nat) (h : List Block) (id : Nat) : Option (List Block) :=
  markGo n h (.fiber id)

/-- The frame-chain loop of `dst_mark_fiber`: while `i != 0`, read the frame
header at `data + i - DST_FRAME_SIZE`, mark its function when non-null, mark
the value slots `[i, j)`, then continue at `(prevframe, i - DST_FRAME_SIZE)`. -/
def dst_mark_frames (n : Nat) (h : List Block) (data : List FiberSlot) (i j : Nat) :
    Option (List Block) :=
  markGo n h (.frames data i j)

/-- The secondary deallocations and cache notifications `dst_deinit_block`
performs, as observable events; every event names the block whose deinit
emitted it. -/
inductive DeinitEffect where
  | cacheRemove (id : Nat)
  | freeArrayData (id : Nat)
  | freeTableData (id : Nat)
  | freeFiberData (id : Nat)
  | freeBufferData (id : Nat)
  | freeFunctionEnvs (id : Nat)
  | finalizeUserdata (id : Nat)
  | freeEnvValues (id : Nat)
  | freeDefArrays (id : Nat)
deriving DecidableEq

/-- `dst_deinit_block`: dispatch on `block->flags & DST_MEM_TYPEBITS` and
release the block's secondary allocations.  The switch reads body fields
through the type the tag announces, so the model matches on the tag and the
body together; the catch-all covers both the C `default:` arm (non-GC memory
types) and tag/body mismatches, which well-formed heaps exclude. -/
def dst_deinit_block (b : Block) : List DeinitEffect :=
  match b.flags.typeTag, b.obj with
  | .string, .string => [.cacheRemove b.id]
  | .array, .array _ => [.freeArrayData b.id]
  | .tuple, .tuple _ => [.cacheRemove b.id]
  | .table, .table _ => [.freeTableData b.id]
  | .struct, .struct _ => [.cacheRemove b.id]
  | .fiber, .fiber _ _ _ _ _ => [.freeFiberData b.id]
  | .buffer, .buffer => [.freeBufferData b.id]
  | .function, .function _ _ => [.freeFunctionEnvs b.id]
  | .userdata, .userdata hasFinalizer =>
      if hasFinalizer then [.finalizeUserdata b.id] else []
  | .funcenv, .funcenv offset _ _ =>
      if offset == 0 then [.freeEnvValues b.id] else []
  | .funcdef, .funcdef _ _ => [.freeDefArrays b.id]
  | _, _ => []

/-- One operation of the sweep loop, in the order the C code performs them:
`deinit` (with the effects that call emitted), the `free` of the block itself,
and the `clearFlags` write `current->flags &= ~DST_MEM_REACHABLE`. -/
inductive SweepAction where
  | deinit (id : Nat) (effects : List DeinitEffect)
  | free (id : Nat)
  | clearFlags (id : Nat)
deriving DecidableEq

/-- The survival test of the sweep loop:
`current->flags & (DST_MEM_REACHABLE | DST_MEM_DISABLED)`. -/
def keepBlock (b : Block) : Bool :=
  b.flags.reachable || b.flags.disabled

/-- Clear the reachable bit of one block header. -/
def clearReach (b : Block) : Block :=
  { b with flags := { b.flags with reachable := false } }

/-- `dst_sweep`: one pass over the global list.  Returns the list the loop
leaves behind (reachable-or-disabled blocks with the reachable bit cleared;
unreachable blocks unlinked) together with the trace of operations performed.
Note the C loop executes `current->flags &= ~DST_MEM_REACHABLE` in both
branches, i.e. also on a block it has just freed; the heap no longer contains
that block, but the write is recorded in the trace. -/
def dst_sweep : List Block → List Block × List SweepAction
  | [] => ([], [])
  | b :: rest =>
    let r := dst_sweep rest
    if keepBlock b then
      (clearReach b :: r.1, SweepAction.clearFlags b.id :: r.2)
    else
      (r.1, SweepAction.deinit b.id (dst_deinit_block b) ::
            SweepAction.free b.id ::
            SweepAction.clearFlags b.id :: r.2)

/-- All deinit effects of a sweep trace, in order. -/
def traceEffects (tr : List SweepAction) : List DeinitEffect :=
  tr.flatMap (fun a =>
    match a with
    | .deinit _ effects => effects
    | _ => [])

/-- The process-wide GC state: `dst_vm_blocks` and `dst_vm_next_collection`
(a uint32), plus whether `dst_vm_cache` has been initialized (the lazy-init
check of `dst_alloc`). -/
structure VM where
  dst_vm_blocks : List Block
  dst_vm_next_collection : Nat
  cacheInited : Bool
deriving DecidableEq

/-- Fatal error conditions of `dst_alloc` (DST_PLEASE_INIT,
DST_OUT_OF_MEMORY). -/
inductive AllocError where
  | notInited
  | outOfMemory
deriving DecidableEq

/-- Modelled from the spec: `sizeof(DstGCMemoryHeader)` (next pointer plus
flags word), a layout constant defined outside src. -/
def sizeofDstGCMemoryHeader : Nat := 16

/-- Modulus of the uint32 counter `dst_vm_next_collection`. -/
def UINT32_MOD : Nat := 2 ^ 32

/-- `dst_alloc`: allocate `size + sizeof(DstGCMemoryHeader)` bytes through the
ambient allocator (`malloc`, supplied as an oracle from total sizes to
addresses), initialize the header flags to the bare type tag, prepend the
block to the global list, add `size` to the collection counter, and return the
address just past the header.  On failure the VM is returned unchanged
together with the fatal error. -/
def dst_alloc (vm : VM) (ty : MemType) (size : Nat) (malloc : Nat → Option Nat) :
    VM × Except AllocError Nat :=
  let total := size + sizeofDstGCMemoryHeader
  if !vm.cacheInited then (vm, .error .notInited)
  else
    match malloc total with
    | Option.none => (vm, .error .outOfMemory)
    | some mem =>
      let mdata : Block :=
        { id := mem,
          flags := { typeTag := ty, reachable := false, disabled := false },
          obj := .raw }
      ({ vm with
          dst_vm_next_collection := (vm.dst_vm_next_collection + size) % UINT32_MOD,
          dst_vm_blocks := mdata :: vm.dst_vm_blocks },
       .ok (mem + sizeofDstGCMemoryHeader))

/-- `dst_collect`: mark from the active fiber when one is registered, sweep,
and reset the collection counter.  `none` when marking hit exhaustion or
undefined behavior. -/
def dst_collect (n : Nat) (dst_vm_fiber : Option Nat) (vm : VM) :
    Option (VM × List SweepAction) :=
  match (match dst_vm_fiber with
         | some f => dst_mark_fiber n vm.dst_vm_blocks f
         | Option.none => some vm.dst_vm_blocks) with
  | some h =>
    let r := dst_sweep h
    some ({ vm with dst_vm_blocks := r.1, dst_vm_next_collection := 0 }, r.2)
  | Option.none => Option.none

/-- Whether the id refers to a live block whose body is a fiber. -/
def isFiberAt (h : List Block) (id : Nat) : Bool :=
  match getObj h id with
  | some (.fiber _ _ _ _ _) => true
  | _ => false

/-- Whether the id refers to a live block whose body is a function. -/
def isFunctionAt (h : List Block) (id : Nat) : Bool :=
  match getObj h id with
  | some (.function _ _) => true
  | _ => false

/-- Whether the id refers to a live block whose body is a funcdef. -/
def isFuncdefAt (h : List Block) (id : Nat) : Bool :=
  match getObj h id with
  | some (.funcdef _ _) => true
  | _ => false

/-- Whether the id refers to a live block whose body is a funcenv. -/
def isFuncenvAt (h : List Block) (id : Nat) : Bool :=
  match getObj h id with
  | some (.funcenv _ _ _) => true
  | _ => false

/-- Whether the id refers to a live block whose body is an array. -/
def isArrayAt (h : List Block) (id : Nat) : Bool :=
  match getObj h id with
  | some (.array _) => true
  | _ => false

/-- Whether the id refers to a live block whose body is a table. -/
def isTableAt (h : List Block) (id : Nat) : Bool :=
  match getObj h id with
  | some (.table _) => true
  | _ => false

/-- Whether the id refers to a live block whose body is a struct. -/
def isStructAt (h : List Block) (id : Nat) : Bool :=
  match getObj h id with
  | some (.struct _) => true
  | _ => false

/-- Whether the id refers to a live block whose body is a tuple. -/
def isTupleAt (h : List Block) (id : Nat) : Bool :=
  match getObj h id with
  | some (.tuple _) => true
  | _ => false

/-- Whether a block body has the kind a value's type tag announces for its
pointee. -/
def kindMatchesB : DstType → DstObject → Bool
  | .string, .string => true
  | .symbol, .string => true
  | .function, .function _ _ => true
  | .array, .array _ => true
  | .table, .table _ => true
  | .struct, .struct _ => true
  | .tuple, .tuple _ => true
  | .buffer, .buffer => true
  | .fiber, .fiber _ _ _ _ _ => true
  | .userdata, .userdata _ => true
  | _, _ => false

/-- Whether the value's pointer payload, if it is a heap value, refers to a
live block of the right kind. -/
def valWFb (h : List Block) (v : DstValue) : Bool :=
  match valPointee v with
  | Option.none => true
  | some p =>
    match getObj h p with
    | some o => kindMatchesB v.type o
    | Option.none => false

/-- Well-formedness of a fiber's frame chain, with fuel: every visited frame
base `i` carries a frame header at `i - DST_FRAME_SIZE`, a strictly smaller
`prevframe` (frames grow upward, so the walk moves strictly down the stack),
a valid value range `[i, j)`, and a valid function reference.  Fuel `i`
suffices because the base strictly decreases. -/
def chainWFb (h : List Block) (data : List FiberSlot) : Nat → Nat → Nat → Bool
  | _, 0, _ => true
  | 0, _ + 1, _ => false
  | fuel + 1, i + 1, j =>
    match data.get? (i + 1 - DST_FRAME_SIZE) with
    | some (.frameInfo funcId prevframe) =>
      (match funcId with
       | some f => isFunctionAt h f
       | Option.none => true) &&
      (match readValues data (i + 1) j with
       | some vs => vs.all (valWFb h)
       | Option.none => false) &&
      decide (prevframe < i + 1) &&
      chainWFb h data fuel prevframe (i + 1 - DST_FRAME_SIZE)
    | _ => false

/-- Well-formedness of one block body with respect to the heap: every
reference the tracer follows exists and has the kind the tracer casts it to. -/
def objWFb (h : List Block) : DstObject → Bool
  | .raw => true
  | .string => true
  | .buffer => true
  | .userdata _ => true
  | .array data => data.all (valWFb h)
  | .table data => data.all (valWFb h)
  | .struct data => data.all (valWFb h)
  | .tuple data => data.all (valWFb h)
  | .funcenv offset fiberRef values =>
    if offset ≠ 0 then isFiberAt h fiberRef else values.all (valWFb h)
  | .funcdef constants _ =>
    match constants with
    | some cs =>
      cs.all (fun v =>
        if v.type == DstType.boolean then isFuncdefAt h v.ptr else valWFb h v)
    | Option.none => true
  | .function fdef envs =>
    match getObj h fdef with
    | some (.funcdef _ numenvs) =>
      match envs with
      | some l =>
        decide (numenvs ≤ l.length) &&
        l.all (fun e =>
          match e with
          | some envId => isFuncenvAt h envId
          | Option.none => true)
      | Option.none => true
    | _ => false
  | .fiber frame frametop data parent ret =>
    chainWFb h data frame frame frametop &&
    (match parent with
     | some p => isFiberAt h p
     | Option.none => true) &&
    valWFb h ret

/-- Consistency of a block's memory type tag with its body. -/
def memTagOk (t : MemType) (o : DstObject) : Bool :=
  match t, o with
  | .none, .raw => true
  | .string, .string => true
  | .array, .array _ => true
  | .tuple, .tuple _ => true
  | .table, .table _ => true
  | .struct, .struct _ => true
  | .fiber, .fiber _ _ _ _ _ => true
  | .buffer, .buffer => true
  | .function, .function _ _ => true
  | .userdata, .userdata _ => true
  | .funcenv, .funcenv _ _ _ => true
  | .funcdef, .funcdef _ _ => true
  | _, _ => false

/-- Well-formedness of one block: consistent tag and well-formed body. -/
def blockWFb (h : List Block) (b : Block) : Bool :=
  memTagOk b.flags.typeTag b.obj && objWFb h b.obj

/-- Well-formedness of a heap: distinct block addresses and every block
well-formed.  Cycles and sharing between blocks are unrestricted. -/
def heapWFb (h : List Block) : Bool :=
  decide (h.map (fun b => b.id)).Nodup && h.all (blockWFb h)

/-- Whether every block currently has its reachable bit clear (the resting
state between collections). -/
def allClear (h : List Block) : Bool :=
  h.all (fun b => !b.flags.reachable)

/-- Number of blocks whose reachable bit is clear. -/
def unmarkedCount (h : List Block) : Nat :=
  (h.filter (fun b => !b.flags.reachable)).length

/-- One reference followed by the frame-chain walk of `dst_mark_fiber`,
starting from frame state `(i, j)`: the frame's function, a heap value in the
slot range `[i, j)`, or a reference of a later (lower) frame. -/
inductive FrameEdge (data : List FiberSlot) : Nat → Nat → Nat → Prop where
  | func {i j f prevframe} : i ≠ 0 →
      data.get? (i - DST_FRAME_SIZE) = some (.frameInfo (some f) prevframe) →
      FrameEdge data i j f
  | slot {i j funcId prevframe vs v t} : i ≠ 0 →
      data.get? (i - DST_FRAME_SIZE) = some (.frameInfo funcId prevframe) →
      readValues data i j = some vs → v ∈ vs → valPointee v = some t →
      FrameEdge data i j t
  | prev {i j funcId prevframe t} : i ≠ 0 →
      data.get? (i - DST_FRAME_SIZE) = some (.frameInfo funcId prevframe) →
      FrameEdge data prevframe (i - DST_FRAME_SIZE) t →
      FrameEdge data i j t

/-- One tracing step of the per-kind mark routines: block `a` holds a
reference that the tracer follows to block `t`. -/
inductive Edge (h : List Block) : Nat → Nat → Prop where
  | arrayE {a data v t} : getObj h a = some (.array data) →
      v ∈ data → valPointee v = some t → Edge h a t
  | tableE {a data v t} : getObj h a = some (.table data) →
      v ∈ data → valPointee v = some t → Edge h a t
  | structE {a data v t} : getObj h a = some (.struct data) →
      v ∈ data → valPointee v = some t → Edge h a t
  | tupleE {a data v t} : getObj h a = some (.tuple data) →
      v ∈ data → valPointee v = some t → Edge h a t
  | funcenvFiber {a offset fiberRef values} :
      getObj h a = some (.funcenv offset fiberRef values) → offset ≠ 0 →
      Edge h a fiberRef
  | funcenvVal {a fiberRef values v t} :
      getObj h a = some (.funcenv 0 fiberRef values) →
      v ∈ values → valPointee v = some t → Edge h a t
  | funcdefB {a cs el v} : getObj h a = some (.funcdef (some cs) el) →
      v ∈ cs → v.type = DstType.boolean → Edge h a v.ptr
  | funcdefV {a cs el v t} : getObj h a = some (.funcdef (some cs) el) →
      v ∈ cs → v.type ≠ DstType.boolean → valPointee v = some t → Edge h a t
  | functionDef {a fdef envs} : getObj h a = some (.function fdef envs) →
      Edge h a fdef
  | functionEnv {a fdef l cs numenvs t} :
      getObj h a = some (.function fdef (some l)) →
      getObj h fdef = some (.funcdef cs numenvs) →
      some t ∈ l.take numenvs → Edge h a t
  | fiberFrame {a frame frametop data parent ret t} :
      getObj h a = some (.fiber frame frametop data parent ret) →
      FrameEdge data frame frametop t → Edge h a t
  | fiberParent {a frame frametop data p ret} :
      getObj h a = some (.fiber frame frametop data (some p) ret) →
      Edge h a p
  | fiberRet {a frame frametop data parent ret t} :
      getObj h a = some (.fiber frame frametop data parent ret) →
      valPointee ret = some t → Edge h a t

/-- Reachability along tracer edges. -/
def Reaches (h : List Block) : Nat → Nat → Prop :=
  Relation.ReflTransGen (Edge h)

/-- Header evolution during marking: same id, body, type tag and pin bit; the
reachable bit only ever goes from clear to set. -/
def BlockLe (b b' : Block) : Prop :=
  b'.id = b.id ∧ b'.obj = b.obj ∧ b'.flags.typeTag = b.flags.typeTag ∧
  b'.flags.disabled = b.flags.disabled ∧
  (b.flags.reachable = true → b'.flags.reachable = true)

/-- Heap evolution during marking: the same list of blocks, with headers
evolving pointwise. -/
def Extends (h h' : List Block) : Prop :=
  List.Forall₂ BlockLe h h'

/-- What one marking call guarantees about the heap it leaves behind: only
reachable bits were gained, and every block whose bit was gained has all of
its outgoing tracer edges marked. -/
def MarkPost (h h' : List Block) : Prop :=
  Extends h h' ∧
  ∀ id, dst_gc_reachable h' id = some true →
    dst_gc_reachable h id = some true ∨
    ∀ t, Edge h id t → dst_gc_reachable h' t = some true

/-- The blocks one marking call certainly leaves marked: the entry block for
the per-kind routines, the pointees for the value walks, the visited
references for the in-routine loops. -/
def MarkTargets (h : List Block) : MarkCall → List Block → Prop
  | .val v => fun h' => ∀ t, valPointee v = some t →
      dst_gc_reachable h' t = some true
  | .many vs => fun h' => ∀ v ∈ vs, ∀ t, valPointee v = some t →
      dst_gc_reachable h' t = some true
  | .array id => fun h' => dst_gc_reachable h' id = some true
  | .table id => fun h' => dst_gc_reachable h' id = some true
  | .struct id => fun h' => dst_gc_reachable h' id = some true
  | .tuple id => fun h' => dst_gc_reachable h' id = some true
  | .funcenv id => fun h' => dst_gc_reachable h' id = some true
  | .funcdef id => fun h' => dst_gc_reachable h' id = some true
  | .constants vs => fun h' => ∀ v ∈ vs, ∀ t,
      (if v.type = DstType.boolean then some v.ptr else valPointee v) = some t →
      dst_gc_reachable h' t = some true
  | .function id => fun h' => dst_gc_reachable h' id = some true
  | .envs l k => fun h' => ∀ t, some t ∈ l.take k →
      dst_gc_reachable h' t = some true
  | .fiber id => fun h' => dst_gc_reachable h' id = some true
  | .frames data i j => fun h' => ∀ t, FrameEdge data i j t →
      dst_gc_reachable h' t = some true

/-- Precondition of a marking call needed for edge coverage: the raw values a
call walks must point at blocks of the kind their tag announces (for the
kinds `dst_mark` marks without reading the body, a mistyped pointee would be
marked without its edges being traced). -/
def CallPre (h : List Block) : MarkCall → Prop
  | .val v => valWFb h v = true
  | .many vs => ∀ v ∈ vs, valWFb h v = true
  | .constants vs => ∀ v ∈ vs, v.type ≠ DstType.boolean → valWFb h v = true
  | .frames data i j => ∃ cf, chainWFb h data cf i j = true
  | _ => True

/-- Precondition of a marking call needed for termination: every pointer the
call dereferences refers to a live block of the expected kind. -/
def CallPreT (h : List Block) : MarkCall → Prop
  | .val v => valWFb h v = true
  | .many vs => ∀ v ∈ vs, valWFb h v = true
  | .array id => isArrayAt h id = true
  | .table id => isTableAt h id = true
  | .struct id => isStructAt h id = true
  | .tuple id => isTupleAt h id = true
  | .funcenv id => isFuncenvAt h id = true
  | .funcdef id => isFuncdefAt h id = true
  | .constants vs => ∀ v ∈ vs,
      (v.type = DstType.boolean → isFuncdefAt h v.ptr = true) ∧
      (v.type ≠ DstType.boolean → valWFb h v = true)
  | .function id => isFunctionAt h id = true
  | .envs l k => k ≤ l.length ∧
      ∀ e ∈ l, ∀ eid, e = some eid → isFuncenvAt h eid = true
  | .fiber id => isFiberAt h id = true
  | .frames data i j => ∃ cf, chainWFb h data cf i j = true

/-- The actions the sweep loop performs for one block, in program order. -/
def sweepActionsOf (b : Block) : List SweepAction :=
  if keepBlock b then [SweepAction.clearFlags b.id]
  else [SweepAction.deinit b.id (dst_deinit_block b), SweepAction.free b.id,
        SweepAction.clearFlags b.id]

/-- Test for a deinit action of the given block id. -/
def isDeinitOf (id : Nat) : SweepAction → Bool
  | .deinit i _ => i == id
  | _ => false

/-- Test for a free action of the given block id. -/
def isFreeOf (id : Nat) : SweepAction → Bool
  | .free i => i == id
  | _ => false

/-- The id of the block a deinit effect was emitted for. -/
def effectId : DeinitEffect → Nat
  | .cacheRemove i => i
  | .freeArrayData i => i
  | .freeTableData i => i
  | .freeFiberData i => i
  | .freeBufferData i => i
  | .freeFunctionEnvs i => i
  | .finalizeUserdata i => i
  | .freeEnvValues i => i
  | .freeDefArrays i => i

/-- A malloc oracle that always fails. -/
def mallocFail : Nat → Option Nat := fun _ => Option.none

/-- A malloc oracle that returns the fixed address `a`. -/
def mallocAt (a : Nat) : Nat → Option Nat := fun _ => some a

/-- Example: an unreachable, unpinned array block. -/
def blkC2 : Block :=
  { id := 0, flags := { typeTag := MemType.array, reachable := false, disabled := false },
    obj := DstObject.array [] }

/-- Example: a pinned buffer block whose reachable bit is set. -/
def blkW9 : Block :=
  { id := 0, flags := { typeTag := MemType.buffer, reachable := true, disabled := true },
    obj := DstObject.buffer }

/-- Example VM holding `blkW9`. -/
def vmW9 : VM :=
  { dst_vm_blocks := [blkW9], dst_vm_next_collection := 7, cacheInited := true }

/-- The VM `dst_collect` leaves behind from `vmW9`. -/
def vmW9post : VM :=
  { dst_vm_blocks :=
      [{ id := 0, flags := { typeTag := MemType.buffer, reachable := false, disabled := true },
         obj := DstObject.buffer }],
    dst_vm_next_collection := 0, cacheInited := true }

/-- Example: a pinned buffer block (survivor for the sweep claims). -/
def blkC3a : Block :=
  { id := 0, flags := { typeTag := MemType.buffer, reachable := false, disabled := true },
    obj := DstObject.buffer }

/-- Example: an unreachable, unpinned table block. -/
def blkC3b : Block :=
  { id := 1, flags := { typeTag := MemType.table, reachable := false, disabled := false },
    obj := DstObject.table [] }

/-- Example: an unreachable fiber block with an empty stack. -/
def blkC8fiber : Block :=
  { id := 5, flags := { typeTag := MemType.fiber, reachable := false, disabled := false },
    obj := DstObject.fiber 0 0 [] Option.none { type := DstType.nil, ptr := 0 } }

/-- Example: an unreachable stack-borrowing funcenv owned by `blkC8fiber`. -/
def blkC8env : Block :=
  { id := 6, flags := { typeTag := MemType.funcenv, reachable := false, disabled := false },
    obj := DstObject.funcenv 3 5 [] }

/-- Example VM with empty heap and a nonzero counter. -/
def vmA : VM :=
  { dst_vm_blocks := [], dst_vm_next_collection := 7, cacheInited := true }

/-- Example: a pinned table holding a reference to block 1. -/
def blkC1p : Block :=
  { id := 0, flags := { typeTag := MemType.table, reachable := false, disabled := true },
    obj := DstObject.table [{ type := DstType.array, ptr := 1 }] }

/-- Example: an unpinned empty array, referenced only by the pinned table. -/
def blkC1a : Block :=
  { id := 1, flags := { typeTag := MemType.array, reachable := false, disabled := false },
    obj := DstObject.array [] }

/-- Example VM for the pinned-rooting counterexample. -/
def vmC1 : VM :=
  { dst_vm_blocks := [blkC1p, blkC1a], dst_vm_next_collection := 0,
    cacheInited := true }

/-- Example: an active fiber whose return value references table 0. -/
def blkW1f : Block :=
  { id := 10, flags := { typeTag := MemType.fiber, reachable := false, disabled := false },
    obj := DstObject.fiber 0 0 [] Option.none { type := DstType.table, ptr := 0 } }

/-- Example: a table referencing array 1. -/
def blkW1t : Block :=
  { id := 0, flags := { typeTag := MemType.table, reachable := false, disabled := false },
    obj := DstObject.table [{ type := DstType.array, ptr := 1 }] }

/-- Example: an empty array. -/
def blkW1a : Block :=
  { id := 1, flags := { typeTag := MemType.array, reachable := false, disabled := false },
    obj := DstObject.array [] }

/-- Example: a pinned buffer. -/
def blkW1p : Block :=
  { id := 5, flags := { typeTag := MemType.buffer, reachable := false, disabled := true },
    obj := DstObject.buffer }

/-- Example VM rooted in fiber 10. -/
def vmW1 : VM :=
  { dst_vm_blocks := [blkW1f, blkW1t, blkW1a, blkW1p],
    dst_vm_next_collection := 3, cacheInited := true }

/-- The VM a collection leaves behind from `vmW1`. -/
def vmW1post : VM :=
  { dst_vm_blocks := [blkW1f, blkW1t, blkW1a, blkW1p],
    dst_vm_next_collection := 0, cacheInited := true }

/-- Sweep trace of the collection of `vmW1`. -/
def trW1 : List SweepAction :=
  [SweepAction.clearFlags 10, SweepAction.clearFlags 0,
   SweepAction.clearFlags 1, SweepAction.clearFlags 5]

/-- Example: cyclic heap (self-referencing table that also references a fiber
whose parent is itself and whose return value is the table). -/
def hC4 : List Block :=
  [{ id := 0, flags := { typeTag := MemType.table, reachable := false, disabled := false },
     obj := DstObject.table
       [{ type := DstType.table, ptr := 0 }, { type := DstType.fiber, ptr := 1 }] },
   { id := 1, flags := { typeTag := MemType.fiber, reachable := false, disabled := false },
     obj := DstObject.fiber 0 0 [] (some 1) { type := DstType.table, ptr := 0 } }]

/-- Example constants: a boolean-tagged nested funcdef, a scalar, and a table. -/
def csC7 : List DstValue :=
  [{ type := DstType.boolean, ptr := 1 }, { type := DstType.number, ptr := 0 },
   { type := DstType.table, ptr := 2 }]

/-- Example heap for the funcdef-marking claim. -/
def hC7 : List Block :=
  [{ id := 0, flags := { typeTag := MemType.funcdef, reachable := false, disabled := false },
     obj := DstObject.funcdef (some csC7) 0 },
   { id := 1, flags := { typeTag := MemType.funcdef, reachable := false, disabled := false },
     obj := DstObject.funcdef Option.none 0 },
   { id := 2, flags := { typeTag := MemType.table, reachable := false, disabled := false },
     obj := DstObject.table [] }]

/-- The heap `dst_mark_funcdef` leaves from `hC7` block 0. -/
def hC7post : List Block :=
  [{ id := 0, flags := { typeTag := MemType.funcdef, reachable := true, disabled := false },
     obj := DstObject.funcdef (some csC7) 0 },
   { id := 1, flags := { typeTag := MemType.funcdef, reachable := true, disabled := false },
     obj := DstObject.funcdef Option.none 0 },
   { id := 2, flags := { typeTag := MemType.table, reachable := true, disabled := false },
     obj := DstObject.table [] }]

/-- Example heap for the function-marking claim: a function with null envs and
a valid funcdef, and a function whose def pointer dangles. -/
def hC10 : List Block :=
  [{ id := 0, flags := { typeTag := MemType.function, reachable := false, disabled := false },
     obj := DstObject.function 1 Option.none },
   { id := 1, flags := { typeTag := MemType.funcdef, reachable := false, disabled := false },
     obj := DstObject.funcdef Option.none 0 },
   { id := 2, flags := { typeTag := MemType.function, reachable := false, disabled := false },
     obj := DstObject.function 99 Option.none }]

section SweepLemmas

/-- The blocks the sweep loop leaves on the list are exactly the
reachable-or-disabled ones, with the reachable bit cleared. -/
lemma dst_sweep_fst (h : List Block) :
    (dst_sweep h).1 = (h.filter keepBlock).map clearReach := by
  induction h with
  | nil => rfl
  | cons b rest ih =>
    cases hk : keepBlock b <;> simp [dst_sweep, hk, ih, List.filter_cons]

/-- The sweep trace is the per-block actions, in list order. -/
lemma dst_sweep_snd (h : List Block) :
    (dst_sweep h).2 = h.flatMap sweepActionsOf := by
  induction h with
  | nil => rfl
  | cons b rest ih =>
    cases hk : keepBlock b <;> simp [dst_sweep, hk, ih, sweepActionsOf]

/-- Survivors come from kept blocks. -/
lemma mem_dst_sweep_fst {h : List Block} {b' : Block} (hb : b' ∈ (dst_sweep h).1) :
    ∃ b ∈ h, keepBlock b = true ∧ b' = clearReach b := by
  rw [dst_sweep_fst] at hb
  simp only [List.mem_map, List.mem_filter] at hb
  obtain ⟨b, ⟨hbm, hk⟩, rfl⟩ := hb
  exact ⟨b, hbm, hk, rfl⟩

/-- Kept blocks survive (with the reachable bit cleared). -/
lemma keep_mem_dst_sweep_fst {h : List Block} {b : Block} (hb : b ∈ h)
    (hk : keepBlock b = true) : clearReach b ∈ (dst_sweep h).1 := by
  rw [dst_sweep_fst]
  exact List.mem_map_of_mem clearReach (List.mem_filter.2 ⟨hb, hk⟩)

/-- A block id different from `i` contributes no deinit action for `i`. -/
lemma countP_isDeinitOf_sweepActionsOf {b : Block} {i : Nat} (hne : b.id ≠ i) :
    (sweepActionsOf b).countP (isDeinitOf i) = 0 := by
  have hbeq : (b.id == i) = false := by simpa using hne
  cases hk : keepBlock b <;>
    simp [sweepActionsOf, hk, isDeinitOf, List.countP_cons, hbeq]

/-- A block id different from `i` contributes no free action for `i`. -/
lemma countP_isFreeOf_sweepActionsOf {b : Block} {i : Nat} (hne : b.id ≠ i) :
    (sweepActionsOf b).countP (isFreeOf i) = 0 := by
  have hbeq : (b.id == i) = false := by simpa using hne
  cases hk : keepBlock b <;>
    simp [sweepActionsOf, hk, isFreeOf, List.countP_cons, hbeq]

/-- countP of a flatMap vanishes when it vanishes on every piece. -/
lemma countP_flatMap_zero {α β : Type} (f : α → List β) (l : List α) (p : β → Bool)
    (h0 : ∀ a ∈ l, (f a).countP p = 0) : (l.flatMap f).countP p = 0 := by
  induction l with
  | nil => rfl
  | cons a rest ih =>
    simp only [List.flatMap_cons, List.countP_append]
    rw [h0 a (List.mem_cons_self a rest), ih (fun x hx => h0 x (List.mem_cons_of_mem _ hx))]

/-- Every deinit effect names the block whose deinit emitted it. -/
lemma effectId_deinit {b : Block} {e : DeinitEffect} (he : e ∈ dst_deinit_block b) :
    effectId e = b.id := by
  rcases b with ⟨id, ⟨tag, rb, db⟩, obj⟩
  cases tag <;> cases obj <;> simp_all [dst_deinit_block, effectId]

/-- traceEffects distributes over cons. -/
lemma traceEffects_cons (a : SweepAction) (l : List SweepAction) :
    traceEffects (a :: l) =
      (match a with
       | .deinit _ effects => effects
       | _ => []) ++ traceEffects l := by
  simp [traceEffects]

/-- The deinit effects of a full sweep, block by block. -/
lemma traceEffects_sweep (h : List Block) :
    traceEffects (dst_sweep h).2 =
      h.flatMap (fun b => if keepBlock b then [] else dst_deinit_block b) := by
  induction h with
  | nil => rfl
  | cons b rest ih =>
    cases hk : keepBlock b <;>
      simp [dst_sweep, hk, traceEffects_cons, ih, List.flatMap_cons]

/-- No other block's sweep can emit an effect that names `i`. -/
lemma count_effect_elsewhere {h : List Block} {i : Nat}
    (hni : ∀ b ∈ h, b.id ≠ i) (e : DeinitEffect) (he : effectId e = i) :
    (h.flatMap (fun b => if keepBlock b then [] else dst_deinit_block b)).count e = 0 := by
  rw [List.count_eq_zero]
  intro hmem
  rw [List.mem_flatMap] at hmem
  obtain ⟨b, hb, hmem⟩ := hmem
  cases hk : keepBlock b
  · simp only [hk] at hmem
    simp only [Bool.false_eq_true, if_false] at hmem
    exact hni b hb (by rw [← effectId_deinit hmem, he])
  · simp [hk] at hmem

/-- Splitting a list at a block with a fresh id: no other element shares it. -/
lemma nodup_split_ids {l1 l2 : List Block} {b : Block}
    (nd : ((l1 ++ b :: l2).map (fun x => x.id)).Nodup) :
    (∀ x ∈ l1, x.id ≠ b.id) ∧ (∀ x ∈ l2, x.id ≠ b.id) := by
  simp only [List.map_append, List.map_cons] at nd
  obtain ⟨nd1, nd2, disj⟩ := List.nodup_append.1 nd
  refine ⟨fun x hx heq => ?_, fun x hx heq => ?_⟩
  · exact disj (List.mem_map_of_mem _ hx) (by simp [heq])
  · exact (List.nodup_cons.1 nd2).1 (List.mem_map.2 ⟨x, hx, heq⟩)

end SweepLemmas

/-- C2 (evidence): on a heap holding a single unreachable, unpinned block, the
sweep loop deinitializes and frees the block and then still executes the
flags write `current->flags &= ~DST_MEM_REACHABLE` on it: the `clearFlags 0`
operation appears in the trace after `free 0`.  The sweep loop of the source
performs this write on freed blocks, while §4.4 of the spec clears the
reachable bit only on survivors. -/
theorem sweep_writes_flags_after_free :
    dst_sweep [blkC2] =
      ([], [SweepAction.deinit 0 [DeinitEffect.freeArrayData 0],
            SweepAction.free 0, SweepAction.clearFlags 0]) := by
  decide

/-- C9: after any `dst_collect` that returns, every block remaining on the
global list has its reachable bit clear. -/
theorem dst_collect_clears_reachable {n : Nat} {vmf : Option Nat} {vm vm' : VM}
    {tr : List SweepAction} (hc : dst_collect n vmf vm = some (vm', tr)) :
    ∀ b ∈ vm'.dst_vm_blocks, b.flags.reachable = false := by
  intro b hb
  unfold dst_collect at hc
  cases hm : (match vmf with
      | some f => dst_mark_fiber n vm.dst_vm_blocks f
      | Option.none => some vm.dst_vm_blocks) with
  | none => rw [hm] at hc; cases hc
  | some h2 =>
    rw [hm] at hc
    simp only [Option.some.injEq, Prod.mk.injEq] at hc
    obtain ⟨hvm, htr⟩ := hc
    rw [← hvm] at hb
    simp only at hb
    obtain ⟨b2, _, _, rfl⟩ := mem_dst_sweep_fst hb
    simp [clearReach]

/-- C9 witness: a pinned block with the reachable bit set survives a concrete
collection with the bit cleared. -/
theorem dst_collect_clears_reachable_witness :
    dst_collect 1 Option.none vmW9 = some (vmW9post, [SweepAction.clearFlags 0]) ∧
    ∀ b ∈ vmW9post.dst_vm_blocks, b.flags.reachable = false :=
  ⟨by decide, fun b hb =>
    @dst_collect_clears_reachable 1 Option.none vmW9 vmW9post
      [SweepAction.clearFlags 0] (by decide) b hb⟩

/-- C3: a block on the list at the start of sweep is unlinked and freed iff
both its reachable and its disabled bit are clear, and on every freed block
`dst_deinit_block` runs exactly once, immediately before the `free` of the
block itself. -/
theorem dst_sweep_frees_iff_unreachable_unpinned_deinit_once
    {h : List Block} (nd : (h.map (fun b => b.id)).Nodup) :
    ∀ b ∈ h,
      ((b.flags.reachable = false ∧ b.flags.disabled = false) ↔
        ∀ b' ∈ (dst_sweep h).1, b'.id ≠ b.id) ∧
      ((b.flags.reachable = false ∧ b.flags.disabled = false) →
        (dst_sweep h).2.countP (isDeinitOf b.id) = 1 ∧
        (dst_sweep h).2.countP (isFreeOf b.id) = 1 ∧
        ∃ pre post,
          (dst_sweep h).2 =
            pre ++ SweepAction.deinit b.id (dst_deinit_block b) ::
                   SweepAction.free b.id :: post) := by
  intro b hb
  have hkeep : keepBlock b = false ↔
      (b.flags.reachable = false ∧ b.flags.disabled = false) := by
    simp [keepBlock]
  constructor
  · constructor
    · intro hbits b' hb' heq
      obtain ⟨b2, hb2, hk2, rfl⟩ := mem_dst_sweep_fst hb'
      have hb2b : b2 = b :=
        List.inj_on_of_nodup_map nd hb2 hb (by simpa [clearReach] using heq)
      subst hb2b
      rw [hkeep.2 hbits] at hk2
      cases hk2
    · intro hall
      by_contra hbits
      have hk : keepBlock b = true := by
        cases hkb : keepBlock b
        · exact absurd (hkeep.1 hkb) hbits
        · rfl
      exact hall (clearReach b) (keep_mem_dst_sweep_fst hb hk) rfl
  · intro hbits
    have hk : keepBlock b = false := hkeep.2 hbits
    obtain ⟨l1, l2, hsplit⟩ := List.append_of_mem hb
    subst hsplit
    obtain ⟨h1, h2⟩ := nodup_split_ids nd
    have htr : (dst_sweep (l1 ++ b :: l2)).2 =
        l1.flatMap sweepActionsOf ++
          (sweepActionsOf b ++ l2.flatMap sweepActionsOf) := by
      rw [dst_sweep_snd, List.flatMap_append, List.flatMap_cons]
    have hacts : sweepActionsOf b =
        [SweepAction.deinit b.id (dst_deinit_block b), SweepAction.free b.id,
         SweepAction.clearFlags b.id] := by
      simp [sweepActionsOf, hk]
    have cd1 : (l1.flatMap sweepActionsOf).countP (isDeinitOf b.id) = 0 :=
      countP_flatMap_zero _ _ _
        (fun a ha => countP_isDeinitOf_sweepActionsOf (h1 a ha))
    have cd2 : (l2.flatMap sweepActionsOf).countP (isDeinitOf b.id) = 0 :=
      countP_flatMap_zero _ _ _
        (fun a ha => countP_isDeinitOf_sweepActionsOf (h2 a ha))
    have cf1 : (l1.flatMap sweepActionsOf).countP (isFreeOf b.id) = 0 :=
      countP_flatMap_zero _ _ _
        (fun a ha => countP_isFreeOf_sweepActionsOf (h1 a ha))
    have cf2 : (l2.flatMap sweepActionsOf).countP (isFreeOf b.id) = 0 :=
      countP_flatMap_zero _ _ _
        (fun a ha => countP_isFreeOf_sweepActionsOf (h2 a ha))
    refine ⟨?_, ?_, l1.flatMap sweepActionsOf,
        SweepAction.clearFlags b.id :: l2.flatMap sweepActionsOf, ?_⟩
    · rw [htr, List.countP_append, List.countP_append, cd1, cd2, hacts]
      simp [isDeinitOf, List.countP_cons]
    · rw [htr, List.countP_append, List.countP_append, cf1, cf2, hacts]
      simp [isFreeOf, List.countP_cons]
    · rw [htr, hacts]
      simp

/-- C3 witness: concrete two-block heap, applied at the freed block. -/
theorem dst_sweep_frees_iff_witness :
    ((blkC3b.flags.reachable = false ∧ blkC3b.flags.disabled = false) ↔
      ∀ b' ∈ (dst_sweep [blkC3a, blkC3b]).1, b'.id ≠ blkC3b.id) ∧
    ((blkC3b.flags.reachable = false ∧ blkC3b.flags.disabled = false) →
      (dst_sweep [blkC3a, blkC3b]).2.countP (isDeinitOf blkC3b.id) = 1 ∧
      (dst_sweep [blkC3a, blkC3b]).2.countP (isFreeOf blkC3b.id) = 1 ∧
      ∃ pre post,
        (dst_sweep [blkC3a, blkC3b]).2 =
          pre ++ SweepAction.deinit blkC3b.id (dst_deinit_block blkC3b) ::
                 SweepAction.free blkC3b.id :: post) :=
  dst_sweep_frees_iff_unreachable_unpinned_deinit_once (by decide) blkC3b (by decide)

/-- C8: `dst_deinit_block` on a funcenv frees the closed value array iff
`offset == 0`, and a stack-borrowing funcenv contributes no deallocation, so
when a fiber block is swept its stack buffer is freed exactly once across the
whole sweep (no funcenv can double-free it). -/
theorem funcenv_deinit_iff_closed_no_double_free :
    (∀ (b : Block) (offset fiberRef : Nat) (values : List DstValue),
        b.flags.typeTag = MemType.funcenv →
        b.obj = DstObject.funcenv offset fiberRef values →
        dst_deinit_block b =
          if offset = 0 then [DeinitEffect.freeEnvValues b.id] else []) ∧
    (∀ (h : List Block), (h.map (fun b => b.id)).Nodup →
      ∀ b ∈ h, b.flags.typeTag = MemType.fiber →
      (∃ frame frametop data parent ret,
          b.obj = DstObject.fiber frame frametop data parent ret) →
      keepBlock b = false →
      (traceEffects (dst_sweep h).2).count (DeinitEffect.freeFiberData b.id) = 1) := by
  constructor
  · intro b offset fiberRef values ht hobj
    unfold dst_deinit_block
    rw [ht, hobj]
    by_cases ho : offset = 0 <;> simp [ho]
  · intro h nd b hb ht hobj hk
    obtain ⟨fr, ft, d, p, r, hobj⟩ := hobj
    rw [traceEffects_sweep]
    obtain ⟨l1, l2, hsplit⟩ := List.append_of_mem hb
    subst hsplit
    obtain ⟨h1, h2⟩ := nodup_split_ids nd
    rw [List.flatMap_append, List.flatMap_cons, List.count_append, List.count_append]
    have c1 : (l1.flatMap fun x =>
        if keepBlock x then [] else dst_deinit_block x).count
        (DeinitEffect.freeFiberData b.id) = 0 :=
      count_effect_elsewhere h1 _ rfl
    have c2 : (l2.flatMap fun x =>
        if keepBlock x then [] else dst_deinit_block x).count
        (DeinitEffect.freeFiberData b.id) = 0 :=
      count_effect_elsewhere h2 _ rfl
    have cb : (if keepBlock b then [] else dst_deinit_block b).count
        (DeinitEffect.freeFiberData b.id) = 1 := by
      simp only [hk, Bool.false_eq_true, if_false]
      unfold dst_deinit_block
      rw [ht, hobj]
      simp
    rw [c1, c2, cb]

/-- C8 witness: a swept fiber plus a stack-borrowing funcenv on a concrete
heap; the funcenv frees nothing and the fiber's stack buffer is freed once. -/
theorem funcenv_deinit_witness :
    dst_deinit_block blkC8env =
      (if 3 = 0 then [DeinitEffect.freeEnvValues blkC8env.id] else []) ∧
    (traceEffects (dst_sweep [blkC8fiber, blkC8env]).2).count
      (DeinitEffect.freeFiberData blkC8fiber.id) = 1 :=
  ⟨funcenv_deinit_iff_closed_no_double_free.1 blkC8env 3 5 [] rfl rfl,
   funcenv_deinit_iff_closed_no_double_free.2 [blkC8fiber, blkC8env] (by decide)
     blkC8fiber (by decide) rfl
     ⟨0, 0, [], Option.none, { type := DstType.nil, ptr := 0 }, rfl⟩ (by decide)⟩

/-- C5: when the underlying allocator returns null, `dst_alloc` fails with
OutOfMemory and leaves no partial state: the VM is unchanged; in particular
no block was linked and the counter did not move. -/
theorem dst_alloc_oom_no_partial_state (vm : VM) (ty : MemType) (size : Nat)
    (malloc : Nat → Option Nat) (hinit : vm.cacheInited = true)
    (hm : malloc (size + sizeofDstGCMemoryHeader) = Option.none) :
    dst_alloc vm ty size malloc = (vm, Except.error AllocError.outOfMemory) ∧
    (dst_alloc vm ty size malloc).1.dst_vm_blocks = vm.dst_vm_blocks ∧
    (dst_alloc vm ty size malloc).1.dst_vm_next_collection =
      vm.dst_vm_next_collection := by
  refine ⟨?_, ?_, ?_⟩ <;> simp [dst_alloc, hinit, hm]

/-- C5 witness: concrete failing allocation. -/
theorem dst_alloc_oom_witness :
    dst_alloc vmA MemType.array 10 mallocFail =
      (vmA, Except.error AllocError.outOfMemory) ∧
    (dst_alloc vmA MemType.array 10 mallocFail).1.dst_vm_blocks =
      vmA.dst_vm_blocks ∧
    (dst_alloc vmA MemType.array 10 mallocFail).1.dst_vm_next_collection =
      vmA.dst_vm_next_collection :=
  dst_alloc_oom_no_partial_state vmA MemType.array 10 mallocFail rfl rfl

/-- C6: a successful `dst_alloc` returns the address just past the header,
links the new block (flags = bare type tag) at the head of the global list,
and advances the uint32 counter by `size` (not `size` plus the header). -/
theorem dst_alloc_success_spec (vm : VM) (ty : MemType) (size : Nat)
    (malloc : Nat → Option Nat) (mem : Nat) (hinit : vm.cacheInited = true)
    (hm : malloc (size + sizeofDstGCMemoryHeader) = some mem) :
    (dst_alloc vm ty size malloc).2 =
      Except.ok (mem + sizeofDstGCMemoryHeader) ∧
    (dst_alloc vm ty size malloc).1.dst_vm_blocks =
      { id := mem, flags := { typeTag := ty, reachable := false, disabled := false },
        obj := DstObject.raw } :: vm.dst_vm_blocks ∧
    (dst_alloc vm ty size malloc).1.dst_vm_next_collection =
      (vm.dst_vm_next_collection + size) % UINT32_MOD := by
  refine ⟨?_, ?_, ?_⟩ <;> simp [dst_alloc, hinit, hm]

/-- C6 witness: concrete successful allocation. -/
theorem dst_alloc_success_witness :
    (dst_alloc vmA MemType.table 24 (mallocAt 1000)).2 =
      Except.ok (1000 + sizeofDstGCMemoryHeader) ∧
    (dst_alloc vmA MemType.table 24 (mallocAt 1000)).1.dst_vm_blocks =
      { id := 1000,
        flags := { typeTag := MemType.table, reachable := false, disabled := false },
        obj := DstObject.raw } :: vmA.dst_vm_blocks ∧
    (dst_alloc vmA MemType.table 24 (mallocAt 1000)).1.dst_vm_next_collection =
      (vmA.dst_vm_next_collection + 24) % UINT32_MOD :=
  dst_alloc_success_spec vmA MemType.table 24 (mallocAt 1000) 1000 rfl rfl

section ExtendsLemmas

/-- BlockLe is reflexive. -/
lemma blockLe_refl (b : Block) : BlockLe b b :=
  ⟨rfl, rfl, rfl, rfl, fun hx => hx⟩

/-- BlockLe is transitive. -/
lemma blockLe_trans {a b c : Block} (h1 : BlockLe a b) (h2 : BlockLe b c) :
    BlockLe a c := by
  obtain ⟨i1, o1, t1, d1, r1⟩ := h1
  obtain ⟨i2, o2, t2, d2, r2⟩ := h2
  exact ⟨i2.trans i1, o2.trans o1, t2.trans t1, d2.trans d1, fun hr => r2 (r1 hr)⟩

/-- Extends is reflexive. -/
lemma extends_refl (h : List Block) : Extends h h := by
  induction h with
  | nil => exact List.Forall₂.nil
  | cons b t ih => exact List.Forall₂.cons (blockLe_refl b) ih

/-- Extends is transitive. -/
lemma extends_trans {h1 h2 h3 : List Block} (e1 : Extends h1 h2)
    (e2 : Extends h2 h3) : Extends h1 h3 := by
  induction e1 generalizing h3 with
  | nil => cases e2; exact List.Forall₂.nil
  | cons hab htail ih =>
    cases e2 with
    | cons hbc htail2 => exact List.Forall₂.cons (blockLe_trans hab hbc) (ih htail2)

/-- Setting a reachable bit is a heap evolution. -/
lemma extends_setMark (h : List Block) (id : Nat) : Extends h (setMark h id) := by
  unfold setMark
  induction h with
  | nil => exact List.Forall₂.nil
  | cons b t ih =>
    rw [List.map_cons]
    refine List.Forall₂.cons ?_ ih
    cases hb : (b.id == id) <;> simp only [hb]
    · simp only [Bool.false_eq_true, if_false]
      exact blockLe_refl b
    · simp only [if_true]
      exact ⟨rfl, rfl, rfl, rfl, fun _ => rfl⟩

/-- Lookup transports along a heap evolution. -/
lemma findBlock_extends {h h' : List Block} (he : Extends h h') (id : Nat) :
    (findBlock h id = Option.none → findBlock h' id = Option.none) ∧
    (∀ b, findBlock h id = some b →
      ∃ b', findBlock h' id = some b' ∧ BlockLe b b') := by
  induction he with
  | nil => simp [findBlock]
  | @cons a b l1 l2 hab htail ih =>
    have hid : (b.id == id) = (a.id == id) := by rw [hab.1]
    constructor
    · intro hf
      simp only [findBlock, List.find?_cons] at hf ⊢
      rw [hid]
      cases hc : (a.id == id)
      · rw [hc] at hf
        exact ih.1 hf
      · rw [hc] at hf
        cases hf
    · intro bb hf
      simp only [findBlock, List.find?_cons] at hf ⊢
      rw [hid]
      cases hc : (a.id == id)
      · rw [hc] at hf
        exact ih.2 bb hf
      · rw [hc] at hf
        cases hf
        exact ⟨b, rfl, hab⟩

/-- Bodies are unchanged by marking. -/
lemma getObj_extends {h h' : List Block} (he : Extends h h') (id : Nat) :
    getObj h' id = getObj h id := by
  unfold getObj
  cases hf : findBlock h id with
  | none => rw [(findBlock_extends he id).1 hf]
  | some b =>
    obtain ⟨b', hb', hle⟩ := (findBlock_extends he id).2 b hf
    rw [hb']
    simp [hle.2.1]

/-- A set reachable bit stays set. -/
lemma reachable_extends {h h' : List Block} (he : Extends h h') {id : Nat}
    (hr : dst_gc_reachable h id = some true) :
    dst_gc_reachable h' id = some true := by
  unfold dst_gc_reachable at hr ⊢
  cases hf : findBlock h id with
  | none => rw [hf] at hr; cases hr
  | some b =>
    rw [hf] at hr
    simp at hr
    obtain ⟨b', hb', hle⟩ := (findBlock_extends he id).2 b hf
    rw [hb']
    simp [hle.2.2.2.2 hr]

/-- A missing block stays missing. -/
lemma reachable_none_extends {h h' : List Block} (he : Extends h h') {id : Nat}
    (hr : dst_gc_reachable h id = Option.none) :
    dst_gc_reachable h' id = Option.none := by
  unfold dst_gc_reachable at hr ⊢
  cases hf : findBlock h id with
  | none => rw [(findBlock_extends he id).1 hf]; rfl
  | some b => rw [hf] at hr; cases hr

/-- Membership transports forward along a heap evolution. -/
lemma mem_extends {h h' : List Block} (he : Extends h h') {b : Block}
    (hb : b ∈ h) : ∃ b' ∈ h', BlockLe b b' := by
  induction he with
  | nil => cases hb
  | @cons a b2 l1 l2 hab htail ih =>
    rcases List.mem_cons.1 hb with rfl | hbt
    · exact ⟨b2, List.mem_cons_self _ _, hab⟩
    · obtain ⟨b', hb', hle⟩ := ih hbt
      exact ⟨b', List.mem_cons_of_mem _ hb', hle⟩

/-- Membership transports backward along a heap evolution. -/
lemma mem_extends_rev {h h' : List Block} (he : Extends h h') {b' : Block}
    (hb : b' ∈ h') : ∃ b ∈ h, BlockLe b b' := by
  induction he with
  | nil => cases hb
  | @cons a b2 l1 l2 hab htail ih =>
    rcases List.mem_cons.1 hb with rfl | hbt
    · exact ⟨a, List.mem_cons_self _ _, hab⟩
    · obtain ⟨b, hbm, hle⟩ := ih hbt
      exact ⟨b, List.mem_cons_of_mem _ hbm, hle⟩

/-- The address list is unchanged by marking. -/
lemma ids_extends {h h' : List Block} (he : Extends h h') :
    h'.map (fun b => b.id) = h.map (fun b => b.id) := by
  induction he with
  | nil => rfl
  | @cons a b2 l1 l2 hab htail ih => simp [hab.1, ih]

/-- Marking never increases the number of unmarked blocks. -/
lemma unmarkedCount_extends {h h' : List Block} (he : Extends h h') :
    unmarkedCount h' ≤ unmarkedCount h := by
  unfold unmarkedCount
  induction he with
  | nil => simp
  | @cons a b2 l1 l2 hab htail ih =>
    simp only [List.filter_cons]
    cases hb : b2.flags.reachable
    · have ha : a.flags.reachable = false := by
        cases hc : a.flags.reachable
        · rfl
        · rw [hab.2.2.2.2 hc] at hb; cases hb
      simp only [ha, hb, Bool.not_false, if_true, List.length_cons]
      omega
    · cases hc : a.flags.reachable <;>
        simp only [hb, hc, Bool.not_false, Bool.not_true, if_true, if_false,
          Bool.false_eq_true, List.length_cons] <;> omega

/-- Unmarked count of a cons cell. -/
lemma unmarkedCount_cons (b : Block) (t : List Block) :
    unmarkedCount (b :: t) =
      (if b.flags.reachable then 0 else 1) + unmarkedCount t := by
  unfold unmarkedCount
  cases hb : b.flags.reachable <;> simp [List.filter_cons, hb, Nat.add_comm]

/-- setMark over a cons cell. -/
lemma setMark_cons (a : Block) (t : List Block) (id : Nat) :
    setMark (a :: t) id =
      (if (a.id == id) = true then
        { a with flags := { a.flags with reachable := true } } else a) ::
      setMark t id := rfl

/-- Marking an unmarked live block strictly decreases the unmarked count. -/
lemma unmarkedCount_setMark_lt {h : List Block} {id : Nat} {b : Block}
    (hf : findBlock h id = some b) (hr : b.flags.reachable = false) :
    unmarkedCount (setMark h id) < unmarkedCount h := by
  induction h with
  | nil => simp [findBlock] at hf
  | cons a t ih =>
    simp only [findBlock, List.find?_cons] at hf
    cases hc : (a.id == id)
    · rw [hc] at hf
      have hlt := ih hf
      rw [setMark_cons, hc]
      simp only [Bool.false_eq_true, if_false]
      rw [unmarkedCount_cons, unmarkedCount_cons]
      omega
    · rw [hc] at hf
      injection hf with hf
      subst hf
      have hle : unmarkedCount (setMark t id) ≤ unmarkedCount t :=
        unmarkedCount_extends (extends_setMark t id)
      rw [setMark_cons, hc]
      simp only [if_true]
      rw [unmarkedCount_cons, unmarkedCount_cons]
      simp only [hr]
      simp only [Bool.false_eq_true, if_false, if_true]
      omega

end ExtendsLemmas

section MarkExtends

/-- A successful dst_gc_mark only sets one reachable bit. -/
lemma dst_gc_mark_extends {h h' : List Block} {id : Nat}
    (hc : dst_gc_mark h id = some h') : Extends h h' := by
  unfold dst_gc_mark at hc
  cases hf : findBlock h id with
  | none => rw [hf] at hc; cases hc
  | some b =>
    rw [hf] at hc
    injection hc with hc
    subst hc
    exact extends_setMark h id

/-- Marking only sets reachable bits: any successful call extends the heap. -/
theorem markGo_extends :
    ∀ (n : Nat) (h : List Block) (c : MarkCall) (h' : List Block),
      markGo n h c = some h' → Extends h h' := by
  intro n
  induction n with
  | zero => intro h c h' hc; simp [markGo] at hc
  | succ n ih =>
    intro h c h' hc
    cases c with
    | val v =>
      simp only [markGo] at hc
      cases hv : v.type <;> simp only [hv] at hc <;>
        first
          | (cases hc; exact extends_refl _)
          | exact ih _ _ _ hc
          | exact dst_gc_mark_extends hc
    | many vs =>
      cases vs with
      | nil => simp only [markGo] at hc; cases hc; exact extends_refl _
      | cons v rest =>
        simp only [markGo] at hc
        cases hm : markGo n h (.val v) with
        | none => simp only [hm] at hc; cases hc
        | some h1 =>
          simp only [hm] at hc
          exact extends_trans (ih _ _ _ hm) (ih _ _ _ hc)
    | array id =>
      simp only [markGo] at hc
      cases hr : dst_gc_reachable h id with
      | none => simp only [hr] at hc; cases hc
      | some bb =>
        simp only [hr] at hc
        cases bb
        · cases hg : getObj h id with
          | none => simp only [hg] at hc; cases hc
          | some o =>
            simp only [hg] at hc
            cases o <;> first
              | exact extends_trans (extends_setMark h id) (ih _ _ _ hc)
              | cases hc
        · cases hc; exact extends_refl _
    | table id =>
      simp only [markGo] at hc
      cases hr : dst_gc_reachable h id with
      | none => simp only [hr] at hc; cases hc
      | some bb =>
        simp only [hr] at hc
        cases bb
        · cases hg : getObj h id with
          | none => simp only [hg] at hc; cases hc
          | some o =>
            simp only [hg] at hc
            cases o <;> first
              | exact extends_trans (extends_setMark h id) (ih _ _ _ hc)
              | cases hc
        · cases hc; exact extends_refl _
    | struct id =>
      simp only [markGo] at hc
      cases hr : dst_gc_reachable h id with
      | none => simp only [hr] at hc; cases hc
      | some bb =>
        simp only [hr] at hc
        cases bb
        · cases hg : getObj h id with
          | none => simp only [hg] at hc; cases hc
          | some o =>
            simp only [hg] at hc
            cases o <;> first
              | exact extends_trans (extends_setMark h id) (ih _ _ _ hc)
              | cases hc
        · cases hc; exact extends_refl _
    | tuple id =>
      simp only [markGo] at hc
      cases hr : dst_gc_reachable h id with
      | none => simp only [hr] at hc; cases hc
      | some bb =>
        simp only [hr] at hc
        cases bb
        · cases hg : getObj h id with
          | none => simp only [hg] at hc; cases hc
          | some o =>
            simp only [hg] at hc
            cases o <;> first
              | exact extends_trans (extends_setMark h id) (ih _ _ _ hc)
              | cases hc
        · cases hc; exact extends_refl _
    | funcenv id =>
      simp only [markGo] at hc
      cases hr : dst_gc_reachable h id with
      | none => simp only [hr] at hc; cases hc
      | some bb =>
        simp only [hr] at hc
        cases bb
        · cases hg : getObj h id with
          | none => simp only [hg] at hc; cases hc
          | some o =>
            simp only [hg] at hc
            cases o <;> try (cases hc; done)
            case funcenv offset fiberRef values =>
              have hc2 : (if offset ≠ 0 then
                  markGo n (setMark h id) (MarkCall.fiber fiberRef)
                else markGo n (setMark h id) (MarkCall.many values)) = some h' := hc
              by_cases ho : offset = 0
              · rw [if_neg (by simp [ho])] at hc2
                exact extends_trans (extends_setMark h id) (ih _ _ _ hc2)
              · rw [if_pos ho] at hc2
                exact extends_trans (extends_setMark h id) (ih _ _ _ hc2)
        · cases hc; exact extends_refl _
    | funcdef id =>
      simp only [markGo] at hc
      cases hr : dst_gc_reachable h id with
      | none => simp only [hr] at hc; cases hc
      | some bb =>
        simp only [hr] at hc
        cases bb
        · cases hg : getObj h id with
          | none => simp only [hg] at hc; cases hc
          | some o =>
            simp only [hg] at hc
            cases o with
            | funcdef constants el =>
              cases constants with
              | none => cases hc; exact extends_setMark h id
              | some cs =>
                exact extends_trans (extends_setMark h id) (ih _ _ _ hc)
            | _ => cases hc
        · cases hc; exact extends_refl _
    | constants vs =>
      cases vs with
      | nil => simp only [markGo] at hc; cases hc; exact extends_refl _
      | cons v rest =>
        simp only [markGo] at hc
        cases hb : (v.type == DstType.boolean) <;> simp only [hb] at hc
        · cases hm : markGo n h (.val v) with
          | none => simp only [hm] at hc; cases hc
          | some h1 =>
            simp only [hm] at hc
            exact extends_trans (ih _ _ _ hm) (ih _ _ _ hc)
        · cases hm : markGo n h (.funcdef v.ptr) with
          | none => simp only [hm] at hc; cases hc
          | some h1 =>
            simp only [hm] at hc
            exact extends_trans (ih _ _ _ hm) (ih _ _ _ hc)
    | function id =>
      simp only [markGo] at hc
      cases hr : dst_gc_reachable h id with
      | none => simp only [hr] at hc; cases hc
      | some bb =>
        simp only [hr] at hc
        cases bb
        · cases hg : getObj h id with
          | none => simp only [hg] at hc; cases hc
          | some o =>
            simp only [hg] at hc
            cases o with
            | function fdef envs =>
              cases hg2 : getObj h fdef with
              | none => simp only [hg2] at hc; cases hc
              | some o2 =>
                simp only [hg2] at hc
                cases o2 <;> try cases hc
                case funcdef cs numenvs =>
                  cases envs with
                  | none =>
                    exact extends_trans (extends_setMark h id) (ih _ _ _ hc)
                  | some l =>
                    cases hm : markGo n (setMark h id) (.envs l numenvs) with
                    | none => simp only [hm] at hc; cases hc
                    | some h1 =>
                      simp only [hm] at hc
                      exact extends_trans (extends_setMark h id)
                        (extends_trans (ih _ _ _ hm) (ih _ _ _ hc))
            | _ => cases hc
        · cases hc; exact extends_refl _
    | envs l k =>
      cases l with
      | nil =>
        cases k with
        | zero => simp only [markGo] at hc; cases hc; exact extends_refl _
        | succ k => simp only [markGo] at hc; cases hc
      | cons e rest =>
        cases k with
        | zero => simp only [markGo] at hc; cases hc; exact extends_refl _
        | succ k =>
          simp only [markGo] at hc
          cases e with
          | none => exact ih _ _ _ hc
          | some envId =>
            cases hm : markGo n h (.funcenv envId) with
            | none => simp only [hm] at hc; cases hc
            | some h1 =>
              simp only [hm] at hc
              exact extends_trans (ih _ _ _ hm) (ih _ _ _ hc)
    | fiber id =>
      simp only [markGo] at hc
      cases hr : dst_gc_reachable h id with
      | none => simp only [hr] at hc; cases hc
      | some bb =>
        simp only [hr] at hc
        cases bb
        · cases hg : getObj h id with
          | none => simp only [hg] at hc; cases hc
          | some o =>
            simp only [hg] at hc
            cases o <;> try cases hc
            case fiber frame frametop data parent ret =>
              cases hm : markGo n (setMark h id) (.frames data frame frametop) with
              | none => simp only [hm] at hc; cases hc
              | some h1 =>
                simp only [hm] at hc
                cases parent with
                | none =>
                  exact extends_trans (extends_setMark h id)
                    (extends_trans (ih _ _ _ hm) (ih _ _ _ hc))
                | some p =>
                  cases hp : markGo n h1 (.fiber p) with
                  | none => simp only [hp] at hc; cases hc
                  | some h2 =>
                    simp only [hp] at hc
                    exact extends_trans (extends_setMark h id)
                      (extends_trans (ih _ _ _ hm)
                        (extends_trans (ih _ _ _ hp) (ih _ _ _ hc)))
        · cases hc; exact extends_refl _
    | frames data i j =>
      cases i with
      | zero => simp only [markGo] at hc; cases hc; exact extends_refl _
      | succ i =>
        simp only [markGo] at hc
        cases hs : data.get? (i + 1 - DST_FRAME_SIZE) with
        | none => simp only [hs] at hc; cases hc
        | some s =>
          simp only [hs] at hc
          cases s with
          | value v => cases hc
          | frameInfo funcId prevframe =>
            have hnext : ∀ h0 h1 : List Block,
                Extends h0 h1 →
                (match readValues data (i + 1) j with
                 | some vs =>
                   match markGo n h1 (.many vs) with
                   | some h2 =>
                     markGo n h2 (.frames data prevframe (i + 1 - DST_FRAME_SIZE))
                   | Option.none => Option.none
                 | Option.none => Option.none) = some h' →
                Extends h0 h' := by
              intro h0 h1 hex hcc
              cases hv : readValues data (i + 1) j with
              | none => simp only [hv] at hcc; cases hcc
              | some vs =>
                simp only [hv] at hcc
                cases hm : markGo n h1 (.many vs) with
                | none => simp only [hm] at hcc; cases hcc
                | some h2 =>
                  simp only [hm] at hcc
                  exact extends_trans hex
                    (extends_trans (ih _ _ _ hm) (ih _ _ _ hcc))
            cases funcId with
            | none => exact hnext h h (extends_refl h) hc
            | some f =>
              cases hm : markGo n h (.function f) with
              | none => simp only [hm] at hc; cases hc
              | some h1 =>
                simp only [hm] at hc
                exact hnext h h1 (ih _ _ _ hm) hc

end MarkExtends

section MarkMono

/-- More fuel never changes a successful marking run. -/
theorem markGo_mono :
    ∀ (n : Nat) (h : List Block) (c : MarkCall) (h' : List Block),
      markGo n h c = some h' → markGo (n + 1) h c = some h' := by
  intro n
  induction n with
  | zero => intro h c h' hc; simp [markGo] at hc
  | succ n ih =>
    intro h c h' hc
    generalize hn : n + 1 = m
    have ihm : ∀ (h : List Block) (c : MarkCall) (h' : List Block),
        markGo n h c = some h' → markGo m h c = some h' := by
      intro h c h' hx
      rw [← hn]
      exact ih h c h' hx
    cases c with
    | val v =>
      simp only [markGo] at hc ⊢
      cases hv : v.type <;> simp only [hv] at hc ⊢ <;>
        first
          | exact hc
          | exact ihm _ _ _ hc
    | many vs =>
      cases vs with
      | nil => simp only [markGo] at hc ⊢; exact hc
      | cons v rest =>
        simp only [markGo] at hc ⊢
        cases hm : markGo n h (.val v) with
        | none => simp only [hm] at hc; cases hc
        | some h1 =>
          simp only [hm] at hc
          simp only [ihm _ _ _ hm]
          exact ihm _ _ _ hc
    | array id =>
      simp only [markGo] at hc ⊢
      cases hr : dst_gc_reachable h id with
      | none => simp only [hr] at hc; cases hc
      | some bb =>
        simp only [hr] at hc ⊢
        cases bb
        · cases hg : getObj h id with
          | none => simp only [hg] at hc; cases hc
          | some o =>
            simp only [hg] at hc ⊢
            cases o <;> try (cases hc; done)
            case array data => exact ihm _ _ _ hc
        · exact hc
    | table id =>
      simp only [markGo] at hc ⊢
      cases hr : dst_gc_reachable h id with
      | none => simp only [hr] at hc; cases hc
      | some bb =>
        simp only [hr] at hc ⊢
        cases bb
        · cases hg : getObj h id with
          | none => simp only [hg] at hc; cases hc
          | some o =>
            simp only [hg] at hc ⊢
            cases o <;> try (cases hc; done)
            case table data => exact ihm _ _ _ hc
        · exact hc
    | struct id =>
      simp only [markGo] at hc ⊢
      cases hr : dst_gc_reachable h id with
      | none => simp only [hr] at hc; cases hc
      | some bb =>
        simp only [hr] at hc ⊢
        cases bb
        · cases hg : getObj h id with
          | none => simp only [hg] at hc; cases hc
          | some o =>
            simp only [hg] at hc ⊢
            cases o <;> try (cases hc; done)
            case struct data => exact ihm _ _ _ hc
        · exact hc
    | tuple id =>
      simp only [markGo] at hc ⊢
      cases hr : dst_gc_reachable h id with
      | none => simp only [hr] at hc; cases hc
      | some bb =>
        simp only [hr] at hc ⊢
        cases bb
        · cases hg : getObj h id with
          | none => simp only [hg] at hc; cases hc
          | some o =>
            simp only [hg] at hc ⊢
            cases o <;> try (cases hc; done)
            case tuple data => exact ihm _ _ _ hc
        · exact hc
    | funcenv id =>
      simp only [markGo] at hc ⊢
      cases hr : dst_gc_reachable h id with
      | none => simp only [hr] at hc; cases hc
      | some bb =>
        simp only [hr] at hc ⊢
        cases bb
        · cases hg : getObj h id with
          | none => simp only [hg] at hc; cases hc
          | some o =>
            simp only [hg] at hc ⊢
            cases o <;> try (cases hc; done)
            case funcenv offset fiberRef values =>
              have hc2 : (if offset ≠ 0 then
                  markGo n (setMark h id) (MarkCall.fiber fiberRef)
                else markGo n (setMark h id) (MarkCall.many values)) = some h' := hc
              show (if offset ≠ 0 then
                  markGo m (setMark h id) (MarkCall.fiber fiberRef)
                else markGo m (setMark h id) (MarkCall.many values)) = some h'
              by_cases ho : offset = 0
              · rw [if_neg (by simp [ho])] at hc2 ⊢
                exact ihm _ _ _ hc2
              · rw [if_pos ho] at hc2 ⊢
                exact ihm _ _ _ hc2
        · exact hc
    | funcdef id =>
      simp only [markGo] at hc ⊢
      cases hr : dst_gc_reachable h id with
      | none => simp only [hr] at hc; cases hc
      | some bb =>
        simp only [hr] at hc ⊢
        cases bb
        · cases hg : getObj h id with
          | none => simp only [hg] at hc; cases hc
          | some o =>
            simp only [hg] at hc ⊢
            cases o <;> try (cases hc; done)
            case funcdef constants el =>
              cases constants with
              | none => exact hc
              | some cs => exact ihm _ _ _ hc
        · exact hc
    | constants vs =>
      cases vs with
      | nil => simp only [markGo] at hc ⊢; exact hc
      | cons v rest =>
        simp only [markGo] at hc ⊢
        cases hb : (v.type == DstType.boolean) <;> simp only [hb] at hc ⊢
        · cases hm : markGo n h (.val v) with
          | none => simp only [hm] at hc; cases hc
          | some h1 =>
            simp only [hm] at hc
            simp only [ihm _ _ _ hm]
            exact ihm _ _ _ hc
        · cases hm : markGo n h (.funcdef v.ptr) with
          | none => simp only [hm] at hc; cases hc
          | some h1 =>
            simp only [hm] at hc
            simp only [ihm _ _ _ hm]
            exact ihm _ _ _ hc
    | function id =>
      simp only [markGo] at hc ⊢
      cases hr : dst_gc_reachable h id with
      | none => simp only [hr] at hc; cases hc
      | some bb =>
        simp only [hr] at hc ⊢
        cases bb
        · cases hg : getObj h id with
          | none => simp only [hg] at hc; cases hc
          | some o =>
            simp only [hg] at hc ⊢
            cases o <;> try (cases hc; done)
            case function fdef envs =>
              cases hg2 : getObj h fdef with
              | none => simp only [hg2] at hc; cases hc
              | some o2 =>
                simp only [hg2] at hc ⊢
                cases o2 <;> try (cases hc; done)
                case funcdef cs numenvs =>
                  cases envs with
                  | none => exact ihm _ _ _ hc
                  | some l =>
                    cases hm : markGo n (setMark h id) (.envs l numenvs) with
                    | none => simp only [hm] at hc; cases hc
                    | some h1 =>
                      simp only [hm] at hc
                      simp only [ihm _ _ _ hm]
                      exact ihm _ _ _ hc
        · exact hc
    | envs l k =>
      cases l with
      | nil =>
        cases k with
        | zero => simp only [markGo] at hc ⊢; exact hc
        | succ k => simp only [markGo] at hc; cases hc
      | cons e rest =>
        cases k with
        | zero => simp only [markGo] at hc ⊢; exact hc
        | succ k =>
          simp only [markGo] at hc ⊢
          cases e with
          | none => exact ihm _ _ _ hc
          | some envId =>
            cases hm : markGo n h (.funcenv envId) with
            | none => simp only [hm] at hc; cases hc
            | some h1 =>
              simp only [hm] at hc
              simp only [ihm _ _ _ hm]
              exact ihm _ _ _ hc
    | fiber id =>
      simp only [markGo] at hc ⊢
      cases hr : dst_gc_reachable h id with
      | none => simp only [hr] at hc; cases hc
      | some bb =>
        simp only [hr] at hc ⊢
        cases bb
        · cases hg : getObj h id with
          | none => simp only [hg] at hc; cases hc
          | some o =>
            simp only [hg] at hc ⊢
            cases o <;> try (cases hc; done)
            case fiber frame frametop data parent ret =>
              cases hm : markGo n (setMark h id) (.frames data frame frametop) with
              | none => simp only [hm] at hc; cases hc
              | some h1 =>
                simp only [hm] at hc
                simp only [ihm _ _ _ hm]
                cases parent with
                | none => exact ihm _ _ _ hc
                | some p =>
                  cases hp : markGo n h1 (.fiber p) with
                  | none => simp only [hp] at hc; cases hc
                  | some h2 =>
                    simp only [hp] at hc
                    simp only [ihm _ _ _ hp]
                    exact ihm _ _ _ hc
        · exact hc
    | frames data i j =>
      cases i with
      | zero => simp only [markGo] at hc ⊢; exact hc
      | succ i =>
        simp only [markGo] at hc ⊢
        cases hs : data.get? (i + 1 - DST_FRAME_SIZE) with
        | none => simp only [hs] at hc; cases hc
        | some s =>
          simp only [hs] at hc ⊢
          cases s with
          | value v => cases hc
          | frameInfo funcId prevframe =>
            cases funcId with
            | none =>
              cases hv : readValues data (i + 1) j with
              | none => simp only [hv] at hc; cases hc
              | some vs =>
                simp only [hv] at hc ⊢
                cases hm : markGo n h (.many vs) with
                | none => simp only [hm] at hc; cases hc
                | some h2 =>
                  simp only [hm] at hc
                  simp only [ihm _ _ _ hm]
                  exact ihm _ _ _ hc
            | some f =>
              cases hm : markGo n h (.function f) with
              | none => simp only [hm] at hc; cases hc
              | some h1 =>
                simp only [hm] at hc
                simp only [ihm _ _ _ hm]
                cases hv : readValues data (i + 1) j with
                | none => simp only [hv] at hc; cases hc
                | some vs =>
                  simp only [hv] at hc ⊢
                  cases hm2 : markGo n h1 (.many vs) with
                  | none => simp only [hm2] at hc; cases hc
                  | some h2 =>
                    simp only [hm2] at hc
                    simp only [ihm _ _ _ hm2]
                    exact ihm _ _ _ hc

/-- More fuel never changes a successful marking run (order form). -/
lemma markGo_mono_le {n m : Nat} {h : List Block} {c : MarkCall}
    {h' : List Block} (hle : n ≤ m) (hc : markGo n h c = some h') :
    markGo m h c = some h' := by
  induction hle with
  | refl => exact hc
  | step _ ih => exact markGo_mono _ _ _ _ ih

end MarkMono

section SetMarkLemmas

/-- setMark updates exactly the addressed block. -/
lemma findBlock_setMark_self (h : List Block) (id : Nat) :
    findBlock (setMark h id) id =
      (findBlock h id).map
        (fun b => { b with flags := { b.flags with reachable := true } }) := by
  induction h with
  | nil => rfl
  | cons a t ih =>
    rw [setMark_cons]
    cases hc : (a.id == id)
    · simp only [hc, Bool.false_eq_true, if_false]
      simp only [findBlock, List.find?_cons, hc] at ih ⊢
      exact ih
    · simp only [hc, if_true]
      simp only [findBlock, List.find?_cons, hc]
      rfl

/-- setMark leaves other lookups unchanged. -/
lemma findBlock_setMark_ne {h : List Block} {id id2 : Nat} (hne : id2 ≠ id) :
    findBlock (setMark h id) id2 = findBlock h id2 := by
  induction h with
  | nil => rfl
  | cons a t ih =>
    rw [setMark_cons]
    cases hc : (a.id == id)
    · simp only [hc, Bool.false_eq_true, if_false]
      simp only [findBlock, List.find?_cons] at ih ⊢
      cases hc2 : (a.id == id2)
      · exact ih
      · rfl
    · simp only [hc, if_true]
      have ha : a.id = id := by simpa using hc
      have hc2 : (a.id == id2) = false := by
        rw [ha]
        exact beq_eq_false_iff_ne.2 (fun hx => hne hx.symm)
      simp only [findBlock, List.find?_cons, hc2] at ih ⊢
      exact ih

/-- After setMark the addressed live block is reachable. -/
lemma reachable_setMark_self {h : List Block} {id : Nat} {b : Block}
    (hf : findBlock h id = some b) :
    dst_gc_reachable (setMark h id) id = some true := by
  unfold dst_gc_reachable
  rw [findBlock_setMark_self, hf]
  rfl

/-- setMark marks nothing but the addressed block. -/
lemma reachable_setMark_inv {h : List Block} {id p : Nat}
    (hr : dst_gc_reachable (setMark h p) id = some true) :
    id = p ∨ dst_gc_reachable h id = some true := by
  by_cases he : id = p
  · exact Or.inl he
  · right
    unfold dst_gc_reachable at hr ⊢
    rw [findBlock_setMark_ne he] at hr
    exact hr

/-- A successful dst_gc_mark marks its argument. -/
lemma dst_gc_mark_marks {h h' : List Block} {p : Nat}
    (hc : dst_gc_mark h p = some h') : dst_gc_reachable h' p = some true := by
  unfold dst_gc_mark at hc
  cases hf : findBlock h p with
  | none => rw [hf] at hc; cases hc
  | some b =>
    rw [hf] at hc
    injection hc with hc
    subst hc
    exact reachable_setMark_self hf

/-- An unreachable answer comes from a live, unmarked block. -/
lemma reachable_false_findBlock {h : List Block} {id : Nat}
    (hr : dst_gc_reachable h id = some false) :
    ∃ b, findBlock h id = some b ∧ b.flags.reachable = false := by
  unfold dst_gc_reachable at hr
  cases hf : findBlock h id with
  | none => rw [hf] at hr; cases hr
  | some b =>
    rw [hf] at hr
    simp at hr
    exact ⟨b, rfl, hr⟩

end SetMarkLemmas

section CongrLemmas

variable {h h' : List Block}

/-- all is determined by the function's values on the members. -/
lemma all_congr_mem {α : Type} {l : List α} {f g : α → Bool}
    (hfg : ∀ a ∈ l, f a = g a) : l.all f = l.all g := by
  induction l with
  | nil => rfl
  | cons a t ih =>
    simp only [List.all_cons]
    rw [hfg a (List.mem_cons_self a t),
      ih (fun x hx => hfg x (List.mem_cons_of_mem _ hx))]

/-- valWFb only reads bodies. -/
lemma valWFb_congr (hg : ∀ p, getObj h' p = getObj h p) (v : DstValue) :
    valWFb h' v = valWFb h v := by
  cases hp : valPointee v with
  | none => simp only [valWFb, hp]
  | some p => simp only [valWFb, hp, hg p]

/-- isFiberAt only reads bodies. -/
lemma isFiberAt_congr (hg : ∀ p, getObj h' p = getObj h p) (id : Nat) :
    isFiberAt h' id = isFiberAt h id := by
  unfold isFiberAt; rw [hg]

/-- isFunctionAt only reads bodies. -/
lemma isFunctionAt_congr (hg : ∀ p, getObj h' p = getObj h p) (id : Nat) :
    isFunctionAt h' id = isFunctionAt h id := by
  unfold isFunctionAt; rw [hg]

/-- isFuncdefAt only reads bodies. -/
lemma isFuncdefAt_congr (hg : ∀ p, getObj h' p = getObj h p) (id : Nat) :
    isFuncdefAt h' id = isFuncdefAt h id := by
  unfold isFuncdefAt; rw [hg]

/-- isFuncenvAt only reads bodies. -/
lemma isFuncenvAt_congr (hg : ∀ p, getObj h' p = getObj h p) (id : Nat) :
    isFuncenvAt h' id = isFuncenvAt h id := by
  unfold isFuncenvAt; rw [hg]

/-- isArrayAt only reads bodies. -/
lemma isArrayAt_congr (hg : ∀ p, getObj h' p = getObj h p) (id : Nat) :
    isArrayAt h' id = isArrayAt h id := by
  unfold isArrayAt; rw [hg]

/-- isTableAt only reads bodies. -/
lemma isTableAt_congr (hg : ∀ p, getObj h' p = getObj h p) (id : Nat) :
    isTableAt h' id = isTableAt h id := by
  unfold isTableAt; rw [hg]

/-- isStructAt only reads bodies. -/
lemma isStructAt_congr (hg : ∀ p, getObj h' p = getObj h p) (id : Nat) :
    isStructAt h' id = isStructAt h id := by
  unfold isStructAt; rw [hg]

/-- isTupleAt only reads bodies. -/
lemma isTupleAt_congr (hg : ∀ p, getObj h' p = getObj h p) (id : Nat) :
    isTupleAt h' id = isTupleAt h id := by
  unfold isTupleAt; rw [hg]

/-- chainWFb only reads bodies. -/
lemma chainWFb_congr (hg : ∀ p, getObj h' p = getObj h p) (data : List FiberSlot) :
    ∀ cf i j, chainWFb h' data cf i j = chainWFb h data cf i j := by
  intro cf
  induction cf with
  | zero => intro i j; cases i <;> rfl
  | succ cf ih =>
    intro i j
    cases i with
    | zero => rfl
    | succ i =>
      cases hs : data.get? (i + 1 - DST_FRAME_SIZE) with
      | none => simp only [chainWFb, hs]
      | some s =>
        cases s with
        | value v => simp only [chainWFb, hs]
        | frameInfo funcId prevframe =>
          simp only [chainWFb, hs]
          have h2 : (match readValues data (i + 1) j with
              | some vs => vs.all (valWFb h')
              | Option.none => false) =
              (match readValues data (i + 1) j with
              | some vs => vs.all (valWFb h)
              | Option.none => false) := by
            cases hv : readValues data (i + 1) j with
            | none => rfl
            | some vs => exact all_congr_mem (fun a _ => valWFb_congr hg a)
          rw [h2, ih prevframe (i + 1 - DST_FRAME_SIZE)]
          cases funcId with
          | none => rfl
          | some f => simp only [isFunctionAt_congr hg f]

/-- objWFb only reads bodies. -/
lemma objWFb_congr (hg : ∀ p, getObj h' p = getObj h p) (o : DstObject) :
    objWFb h' o = objWFb h o := by
  cases o with
  | raw => rfl
  | string => rfl
  | buffer => rfl
  | userdata b => rfl
  | array data =>
    simp only [objWFb]
    exact all_congr_mem (fun a _ => valWFb_congr hg a)
  | table data =>
    simp only [objWFb]
    exact all_congr_mem (fun a _ => valWFb_congr hg a)
  | struct data =>
    simp only [objWFb]
    exact all_congr_mem (fun a _ => valWFb_congr hg a)
  | tuple data =>
    simp only [objWFb]
    exact all_congr_mem (fun a _ => valWFb_congr hg a)
  | funcenv offset fiberRef values =>
    simp only [objWFb]
    by_cases ho : offset ≠ 0
    · rw [if_pos ho, if_pos ho, isFiberAt_congr hg]
    · rw [if_neg ho, if_neg ho]
      exact all_congr_mem (fun a _ => valWFb_congr hg a)
  | funcdef constants el =>
    simp only [objWFb]
    cases constants with
    | none => rfl
    | some cs =>
      refine all_congr_mem (fun a _ => ?_)
      cases hb : (a.type == DstType.boolean) <;>
        simp only [hb, Bool.false_eq_true, if_false, if_true]
      · exact valWFb_congr hg a
      · exact isFuncdefAt_congr hg a.ptr
  | function fdef envs =>
    cases hgf : getObj h fdef with
    | none => simp only [objWFb, hg fdef, hgf]
    | some o2 =>
      cases o2 with
      | funcdef cs numenvs =>
        cases envs with
        | none => simp only [objWFb, hg fdef, hgf]
        | some l =>
          simp only [objWFb, hg fdef, hgf]
          have hall : (l.all fun e =>
              match e with
              | some envId => isFuncenvAt h' envId
              | Option.none => true) =
              (l.all fun e =>
              match e with
              | some envId => isFuncenvAt h envId
              | Option.none => true) := by
            refine all_congr_mem (fun e _ => ?_)
            cases e with
            | none => rfl
            | some envId => exact isFuncenvAt_congr hg envId
          rw [hall]
      | raw => simp only [objWFb, hg fdef, hgf]
      | string => simp only [objWFb, hg fdef, hgf]
      | buffer => simp only [objWFb, hg fdef, hgf]
      | userdata b => simp only [objWFb, hg fdef, hgf]
      | array d => simp only [objWFb, hg fdef, hgf]
      | table d => simp only [objWFb, hg fdef, hgf]
      | struct d => simp only [objWFb, hg fdef, hgf]
      | tuple d => simp only [objWFb, hg fdef, hgf]
      | funcenv a b c => simp only [objWFb, hg fdef, hgf]
      | function a b => simp only [objWFb, hg fdef, hgf]
      | fiber a b c d e => simp only [objWFb, hg fdef, hgf]
  | fiber fr ft data par ret =>
    simp only [objWFb]
    rw [chainWFb_congr hg data, valWFb_congr hg ret]
    have : (match par with
        | some p => isFiberAt h' p
        | Option.none => true) =
        (match par with
        | some p => isFiberAt h p
        | Option.none => true) := by
      cases par with
      | none => rfl
      | some p => exact isFiberAt_congr hg p
    rw [this]

/-- Well-formedness survives marking. -/
lemma heapWFb_extends (he : Extends h h') (hw : heapWFb h = true) :
    heapWFb h' = true := by
  have hg := getObj_extends he
  unfold heapWFb at hw ⊢
  rw [Bool.and_eq_true] at hw ⊢
  obtain ⟨hnd, hall⟩ := hw
  refine ⟨by rw [ids_extends he]; exact hnd, ?_⟩
  rw [List.all_eq_true] at hall ⊢
  intro b' hb'
  obtain ⟨b, hb, hle⟩ := mem_extends_rev he hb'
  have hwb := hall b hb
  unfold blockWFb at hwb ⊢
  rw [hle.2.2.1, hle.2.1, objWFb_congr hg]
  exact hwb

/-- A looked-up body is well-formed on a well-formed heap. -/
lemma getObj_some_objWFb {h2 : List Block} {id : Nat} {o : DstObject}
    (hw : heapWFb h2 = true) (hg : getObj h2 id = some o) :
    objWFb h2 o = true := by
  unfold getObj at hg
  cases hf : findBlock h2 id with
  | none => rw [hf] at hg; cases hg
  | some b =>
    rw [hf] at hg
    injection hg with hg
    subst hg
    have hb : b ∈ h2 := List.mem_of_find?_eq_some hf
    unfold heapWFb at hw
    rw [Bool.and_eq_true, List.all_eq_true] at hw
    have hwb := hw.2 b hb
    unfold blockWFb at hwb
    rw [Bool.and_eq_true] at hwb
    exact hwb.2

/-- A well-formed heap value's pointee exists and has the matching kind. -/
lemma valWFb_obj {h2 : List Block} {v : DstValue} {p : Nat}
    (hp : valPointee v = some p) (hw : valWFb h2 v = true) :
    ∃ o, getObj h2 p = some o ∧ kindMatchesB v.type o = true := by
  simp only [valWFb, hp] at hw
  cases hg : getObj h2 p with
  | none => simp only [hg] at hw; cases hw
  | some o => simp only [hg] at hw; exact ⟨o, rfl, hw⟩

/-- Edges only read bodies. -/
lemma edge_of_getObj_eq (hg : ∀ p, getObj h' p = getObj h p) {a t : Nat}
    (he : Edge h a t) : Edge h' a t := by
  cases he with
  | arrayE hobj hv hp => exact Edge.arrayE (by rw [hg a]; exact hobj) hv hp
  | tableE hobj hv hp => exact Edge.tableE (by rw [hg a]; exact hobj) hv hp
  | structE hobj hv hp => exact Edge.structE (by rw [hg a]; exact hobj) hv hp
  | tupleE hobj hv hp => exact Edge.tupleE (by rw [hg a]; exact hobj) hv hp
  | funcenvFiber hobj hoff =>
    exact Edge.funcenvFiber (by rw [hg a]; exact hobj) hoff
  | funcenvVal hobj hv hp =>
    exact Edge.funcenvVal (by rw [hg a]; exact hobj) hv hp
  | funcdefB hobj hv hb => exact Edge.funcdefB (by rw [hg a]; exact hobj) hv hb
  | funcdefV hobj hv hb hp =>
    exact Edge.funcdefV (by rw [hg a]; exact hobj) hv hb hp
  | functionDef hobj => exact Edge.functionDef (by rw [hg a]; exact hobj)
  | functionEnv hobj hobj2 hmem =>
    exact Edge.functionEnv (by rw [hg a]; exact hobj)
      (by rw [hg]; exact hobj2) hmem
  | fiberFrame hobj hf => exact Edge.fiberFrame (by rw [hg a]; exact hobj) hf
  | fiberParent hobj => exact Edge.fiberParent (by rw [hg a]; exact hobj)
  | fiberRet hobj hp => exact Edge.fiberRet (by rw [hg a]; exact hobj) hp

/-- CallPre only reads bodies. -/
lemma callPre_congr (hg : ∀ p, getObj h' p = getObj h p) {c : MarkCall}
    (hp : CallPre h c) : CallPre h' c := by
  cases c <;> simp only [CallPre] at hp ⊢ <;> try trivial
  case val v => rw [valWFb_congr hg]; exact hp
  case many vs => intro v hv; rw [valWFb_congr hg]; exact hp v hv
  case constants vs => intro v hv hb; rw [valWFb_congr hg]; exact hp v hv hb
  case frames data i j =>
    obtain ⟨cf, hcf⟩ := hp
    exact ⟨cf, by rw [chainWFb_congr hg]; exact hcf⟩

/-- CallPreT only reads bodies. -/
lemma callPreT_congr (hg : ∀ p, getObj h' p = getObj h p) {c : MarkCall}
    (hp : CallPreT h c) : CallPreT h' c := by
  cases c <;> simp only [CallPreT] at hp ⊢
  case val v => rw [valWFb_congr hg]; exact hp
  case many vs => intro v hv; rw [valWFb_congr hg]; exact hp v hv
  case array id => rw [isArrayAt_congr hg]; exact hp
  case table id => rw [isTableAt_congr hg]; exact hp
  case struct id => rw [isStructAt_congr hg]; exact hp
  case tuple id => rw [isTupleAt_congr hg]; exact hp
  case funcenv id => rw [isFuncenvAt_congr hg]; exact hp
  case funcdef id => rw [isFuncdefAt_congr hg]; exact hp
  case constants vs =>
    intro v hv
    refine ⟨fun hb => ?_, fun hb => ?_⟩
    · rw [isFuncdefAt_congr hg]; exact (hp v hv).1 hb
    · rw [valWFb_congr hg]; exact (hp v hv).2 hb
  case function id => rw [isFunctionAt_congr hg]; exact hp
  case envs l k =>
    refine ⟨hp.1, fun e he eid heq => ?_⟩
    rw [isFuncenvAt_congr hg]
    exact hp.2 e he eid heq
  case fiber id => rw [isFiberAt_congr hg]; exact hp
  case frames data i j =>
    obtain ⟨cf, hcf⟩ := hp
    exact ⟨cf, by rw [chainWFb_congr hg]; exact hcf⟩

end CongrLemmas

section MarkPostLemmas

/-- The trivial marking postcondition. -/
lemma markPost_refl (h : List Block) : MarkPost h h :=
  ⟨extends_refl h, fun _ hid => Or.inl hid⟩

/-- Marking postconditions compose. -/
lemma markPost_trans {h h1 h2 : List Block} (p1 : MarkPost h h1)
    (p2 : MarkPost h1 h2) : MarkPost h h2 := by
  obtain ⟨e1, m1⟩ := p1
  obtain ⟨e2, m2⟩ := p2
  refine ⟨extends_trans e1 e2, fun id hid => ?_⟩
  rcases m2 id hid with h1id | hsucc
  · rcases m1 id h1id with hid0 | hsucc1
    · exact Or.inl hid0
    · exact Or.inr (fun t ht => reachable_extends e2 (hsucc1 t ht))
  · exact Or.inr (fun t ht =>
      hsucc t (edge_of_getObj_eq (getObj_extends e1) ht))

/-- A block with an edge-free body can be marked bare. -/
lemma no_edge_of_obj {h : List Block} {a : Nat} {o : DstObject}
    (hg : getObj h a = some o)
    (ho : o = DstObject.string ∨ o = DstObject.buffer ∨
      (∃ bf, o = DstObject.userdata bf) ∨ o = DstObject.raw) :
    ∀ t, Edge h a t → False := by
  intro t ht
  rcases ho with rfl | rfl | ⟨bf, rfl⟩ | rfl <;> cases ht <;> simp_all

/-- dst_gc_mark on an edge-free block satisfies the marking postcondition. -/
lemma gc_mark_leaf_post {h : List Block} {p : Nat}
    (hnoedge : ∀ t, Edge h p t → False)
    {h' : List Block} (hc : dst_gc_mark h p = some h') : MarkPost h h' := by
  unfold dst_gc_mark at hc
  cases hf : findBlock h p with
  | none => rw [hf] at hc; cases hc
  | some b =>
    rw [hf] at hc
    injection hc with hc
    subst hc
    refine ⟨extends_setMark h p, fun id hid => ?_⟩
    rcases reachable_setMark_inv hid with rfl | hprev
    · exact Or.inr (fun t ht => absurd ht (hnoedge t))
    · exact Or.inl hprev

end MarkPostLemmas

section EdgeInv

/-- Edges of an array block come from its data. -/
lemma edge_array_inv {h : List Block} {a t : Nat} {data : List DstValue}
    (hgobj : getObj h a = some (DstObject.array data)) (ht : Edge h a t) :
    ∃ v ∈ data, valPointee v = some t := by
  cases ht with
  | arrayE hobj hv hp =>
    rw [hgobj] at hobj; injection hobj with hobj; cases hobj; exact ⟨_, hv, hp⟩
  | tableE hobj hv hp => rw [hgobj] at hobj; injection hobj with hobj; cases hobj
  | structE hobj hv hp => rw [hgobj] at hobj; injection hobj with hobj; cases hobj
  | tupleE hobj hv hp => rw [hgobj] at hobj; injection hobj with hobj; cases hobj
  | funcenvFiber hobj hoff =>
    rw [hgobj] at hobj; injection hobj with hobj; cases hobj
  | funcenvVal hobj hv hp =>
    rw [hgobj] at hobj; injection hobj with hobj; cases hobj
  | funcdefB hobj hv hb => rw [hgobj] at hobj; injection hobj with hobj; cases hobj
  | funcdefV hobj hv hb hp =>
    rw [hgobj] at hobj; injection hobj with hobj; cases hobj
  | functionDef hobj => rw [hgobj] at hobj; injection hobj with hobj; cases hobj
  | functionEnv hobj hobj2 hmem =>
    rw [hgobj] at hobj; injection hobj with hobj; cases hobj
  | fiberFrame hobj hf => rw [hgobj] at hobj; injection hobj with hobj; cases hobj
  | fiberParent hobj => rw [hgobj] at hobj; injection hobj with hobj; cases hobj
  | fiberRet hobj hp => rw [hgobj] at hobj; injection hobj with hobj; cases hobj

/-- Edges of a table block come from its data. -/
lemma edge_table_inv {h : List Block} {a t : Nat} {data : List DstValue}
    (hgobj : getObj h a = some (DstObject.table data)) (ht : Edge h a t) :
    ∃ v ∈ data, valPointee v = some t := by
  cases ht with
  | tableE hobj hv hp =>
    rw [hgobj] at hobj; injection hobj with hobj; cases hobj; exact ⟨_, hv, hp⟩
  | arrayE hobj hv hp => rw [hgobj] at hobj; injection hobj with hobj; cases hobj
  | structE hobj hv hp => rw [hgobj] at hobj; injection hobj with hobj; cases hobj
  | tupleE hobj hv hp => rw [hgobj] at hobj; injection hobj with hobj; cases hobj
  | funcenvFiber hobj hoff =>
    rw [hgobj] at hobj; injection hobj with hobj; cases hobj
  | funcenvVal hobj hv hp =>
    rw [hgobj] at hobj; injection hobj with hobj; cases hobj
  | funcdefB hobj hv hb => rw [hgobj] at hobj; injection hobj with hobj; cases hobj
  | funcdefV hobj hv hb hp =>
    rw [hgobj] at hobj; injection hobj with hobj; cases hobj
  | functionDef hobj => rw [hgobj] at hobj; injection hobj with hobj; cases hobj
  | functionEnv hobj hobj2 hmem =>
    rw [hgobj] at hobj; injection hobj with hobj; cases hobj
  | fiberFrame hobj hf => rw [hgobj] at hobj; injection hobj with hobj; cases hobj
  | fiberParent hobj => rw [hgobj] at hobj; injection hobj with hobj; cases hobj
  | fiberRet hobj hp => rw [hgobj] at hobj; injection hobj with hobj; cases hobj

/-- Edges of a struct block come from its data. -/
lemma edge_struct_inv {h : List Block} {a t : Nat} {data : List DstValue}
    (hgobj : getObj h a = some (DstObject.struct data)) (ht : Edge h a t) :
    ∃ v ∈ data, valPointee v = some t := by
  cases ht with
  | structE hobj hv hp =>
    rw [hgobj] at hobj; injection hobj with hobj; cases hobj; exact ⟨_, hv, hp⟩
  | arrayE hobj hv hp => rw [hgobj] at hobj; injection hobj with hobj; cases hobj
  | tableE hobj hv hp => rw [hgobj] at hobj; injection hobj with hobj; cases hobj
  | tupleE hobj hv hp => rw [hgobj] at hobj; injection hobj with hobj; cases hobj
  | funcenvFiber hobj hoff =>
    rw [hgobj] at hobj; injection hobj with hobj; cases hobj
  | funcenvVal hobj hv hp =>
    rw [hgobj] at hobj; injection hobj with hobj; cases hobj
  | funcdefB hobj hv hb => rw [hgobj] at hobj; injection hobj with hobj; cases hobj
  | funcdefV hobj hv hb hp =>
    rw [hgobj] at hobj; injection hobj with hobj; cases hobj
  | functionDef hobj => rw [hgobj] at hobj; injection hobj with hobj; cases hobj
  | functionEnv hobj hobj2 hmem =>
    rw [hgobj] at hobj; injection hobj with hobj; cases hobj
  | fiberFrame hobj hf => rw [hgobj] at hobj; injection hobj with hobj; cases hobj
  | fiberParent hobj => rw [hgobj] at hobj; injection hobj with hobj; cases hobj
  | fiberRet hobj hp => rw [hgobj] at hobj; injection hobj with hobj; cases hobj

/-- Edges of a tuple block come from its data. -/
lemma edge_tuple_inv {h : List Block} {a t : Nat} {data : List DstValue}
    (hgobj : getObj h a = some (DstObject.tuple data)) (ht : Edge h a t) :
    ∃ v ∈ data, valPointee v = some t := by
  cases ht with
  | tupleE hobj hv hp =>
    rw [hgobj] at hobj; injection hobj with hobj; cases hobj; exact ⟨_, hv, hp⟩
  | arrayE hobj hv hp => rw [hgobj] at hobj; injection hobj with hobj; cases hobj
  | tableE hobj hv hp => rw [hgobj] at hobj; injection hobj with hobj; cases hobj
  | structE hobj hv hp => rw [hgobj] at hobj; injection hobj with hobj; cases hobj
  | funcenvFiber hobj hoff =>
    rw [hgobj] at hobj; injection hobj with hobj; cases hobj
  | funcenvVal hobj hv hp =>
    rw [hgobj] at hobj; injection hobj with hobj; cases hobj
  | funcdefB hobj hv hb => rw [hgobj] at hobj; injection hobj with hobj; cases hobj
  | funcdefV hobj hv hb hp =>
    rw [hgobj] at hobj; injection hobj with hobj; cases hobj
  | functionDef hobj => rw [hgobj] at hobj; injection hobj with hobj; cases hobj
  | functionEnv hobj hobj2 hmem =>
    rw [hgobj] at hobj; injection hobj with hobj; cases hobj
  | fiberFrame hobj hf => rw [hgobj] at hobj; injection hobj with hobj; cases hobj
  | fiberParent hobj => rw [hgobj] at hobj; injection hobj with hobj; cases hobj
  | fiberRet hobj hp => rw [hgobj] at hobj; injection hobj with hobj; cases hobj

/-- Edges of a funcenv block: the owning fiber when on stack, the closed
values otherwise. -/
lemma edge_funcenv_inv {h : List Block} {a t offset fiberRef : Nat}
    {values : List DstValue}
    (hgobj : getObj h a = some (DstObject.funcenv offset fiberRef values))
    (ht : Edge h a t) :
    (offset ≠ 0 ∧ t = fiberRef) ∨
      (offset = 0 ∧ ∃ v ∈ values, valPointee v = some t) := by
  cases ht with
  | funcenvFiber hobj hoff =>
    rw [hgobj] at hobj; injection hobj with hobj; cases hobj
    exact Or.inl ⟨hoff, rfl⟩
  | funcenvVal hobj hv hp =>
    rw [hgobj] at hobj; injection hobj with hobj; cases hobj
    exact Or.inr ⟨rfl, _, hv, hp⟩
  | arrayE hobj hv hp => rw [hgobj] at hobj; injection hobj with hobj; cases hobj
  | tableE hobj hv hp => rw [hgobj] at hobj; injection hobj with hobj; cases hobj
  | structE hobj hv hp => rw [hgobj] at hobj; injection hobj with hobj; cases hobj
  | tupleE hobj hv hp => rw [hgobj] at hobj; injection hobj with hobj; cases hobj
  | funcdefB hobj hv hb => rw [hgobj] at hobj; injection hobj with hobj; cases hobj
  | funcdefV hobj hv hb hp =>
    rw [hgobj] at hobj; injection hobj with hobj; cases hobj
  | functionDef hobj => rw [hgobj] at hobj; injection hobj with hobj; cases hobj
  | functionEnv hobj hobj2 hmem =>
    rw [hgobj] at hobj; injection hobj with hobj; cases hobj
  | fiberFrame hobj hf => rw [hgobj] at hobj; injection hobj with hobj; cases hobj
  | fiberParent hobj => rw [hgobj] at hobj; injection hobj with hobj; cases hobj
  | fiberRet hobj hp => rw [hgobj] at hobj; injection hobj with hobj; cases hobj

/-- Edges of a funcdef block come from its constants. -/
lemma edge_funcdef_inv {h : List Block} {a t el : Nat}
    {copt : Option (List DstValue)}
    (hgobj : getObj h a = some (DstObject.funcdef copt el)) (ht : Edge h a t) :
    ∃ cs, copt = some cs ∧ ∃ v ∈ cs,
      (if v.type = DstType.boolean then some v.ptr else valPointee v) = some t := by
  cases ht with
  | funcdefB hobj hv hb =>
    rw [hgobj] at hobj; injection hobj with hobj; cases hobj
    exact ⟨_, rfl, _, hv, by rw [if_pos hb]⟩
  | funcdefV hobj hv hb hp =>
    rw [hgobj] at hobj; injection hobj with hobj; cases hobj
    exact ⟨_, rfl, _, hv, by rw [if_neg hb]; exact hp⟩
  | arrayE hobj hv hp => rw [hgobj] at hobj; injection hobj with hobj; cases hobj
  | tableE hobj hv hp => rw [hgobj] at hobj; injection hobj with hobj; cases hobj
  | structE hobj hv hp => rw [hgobj] at hobj; injection hobj with hobj; cases hobj
  | tupleE hobj hv hp => rw [hgobj] at hobj; injection hobj with hobj; cases hobj
  | funcenvFiber hobj hoff =>
    rw [hgobj] at hobj; injection hobj with hobj; cases hobj
  | funcenvVal hobj hv hp =>
    rw [hgobj] at hobj; injection hobj with hobj; cases hobj
  | functionDef hobj => rw [hgobj] at hobj; injection hobj with hobj; cases hobj
  | functionEnv hobj hobj2 hmem =>
    rw [hgobj] at hobj; injection hobj with hobj; cases hobj
  | fiberFrame hobj hf => rw [hgobj] at hobj; injection hobj with hobj; cases hobj
  | fiberParent hobj => rw [hgobj] at hobj; injection hobj with hobj; cases hobj
  | fiberRet hobj hp => rw [hgobj] at hobj; injection hobj with hobj; cases hobj

/-- Edges of a function block: its funcdef, or a visited env entry. -/
lemma edge_function_inv {h : List Block} {a t fdef : Nat}
    {envs : Option (List (Option Nat))}
    (hgobj : getObj h a = some (DstObject.function fdef envs)) (ht : Edge h a t) :
    t = fdef ∨ ∃ l cs numenvs, envs = some l ∧
      getObj h fdef = some (DstObject.funcdef cs numenvs) ∧
      some t ∈ l.take numenvs := by
  cases ht with
  | functionDef hobj =>
    rw [hgobj] at hobj; injection hobj with hobj; cases hobj
    exact Or.inl rfl
  | functionEnv hobj hobj2 hmem =>
    rw [hgobj] at hobj; injection hobj with hobj; cases hobj
    exact Or.inr ⟨_, _, _, rfl, hobj2, hmem⟩
  | arrayE hobj hv hp => rw [hgobj] at hobj; injection hobj with hobj; cases hobj
  | tableE hobj hv hp => rw [hgobj] at hobj; injection hobj with hobj; cases hobj
  | structE hobj hv hp => rw [hgobj] at hobj; injection hobj with hobj; cases hobj
  | tupleE hobj hv hp => rw [hgobj] at hobj; injection hobj with hobj; cases hobj
  | funcenvFiber hobj hoff =>
    rw [hgobj] at hobj; injection hobj with hobj; cases hobj
  | funcenvVal hobj hv hp =>
    rw [hgobj] at hobj; injection hobj with hobj; cases hobj
  | funcdefB hobj hv hb => rw [hgobj] at hobj; injection hobj with hobj; cases hobj
  | funcdefV hobj hv hb hp =>
    rw [hgobj] at hobj; injection hobj with hobj; cases hobj
  | fiberFrame hobj hf => rw [hgobj] at hobj; injection hobj with hobj; cases hobj
  | fiberParent hobj => rw [hgobj] at hobj; injection hobj with hobj; cases hobj
  | fiberRet hobj hp => rw [hgobj] at hobj; injection hobj with hobj; cases hobj

/-- Edges of a fiber block: the frame chain, the parent, or the return value. -/
lemma edge_fiber_inv {h : List Block} {a t fr ft : Nat} {data : List FiberSlot}
    {par : Option Nat} {ret : DstValue}
    (hgobj : getObj h a = some (DstObject.fiber fr ft data par ret))
    (ht : Edge h a t) :
    FrameEdge data fr ft t ∨ par = some t ∨ valPointee ret = some t := by
  cases ht with
  | fiberFrame hobj hf =>
    rw [hgobj] at hobj; injection hobj with hobj; cases hobj
    exact Or.inl hf
  | fiberParent hobj =>
    rw [hgobj] at hobj; injection hobj with hobj; cases hobj
    exact Or.inr (Or.inl rfl)
  | fiberRet hobj hp =>
    rw [hgobj] at hobj; injection hobj with hobj; cases hobj
    exact Or.inr (Or.inr hp)
  | arrayE hobj hv hp => rw [hgobj] at hobj; injection hobj with hobj; cases hobj
  | tableE hobj hv hp => rw [hgobj] at hobj; injection hobj with hobj; cases hobj
  | structE hobj hv hp => rw [hgobj] at hobj; injection hobj with hobj; cases hobj
  | tupleE hobj hv hp => rw [hgobj] at hobj; injection hobj with hobj; cases hobj
  | funcenvFiber hobj hoff =>
    rw [hgobj] at hobj; injection hobj with hobj; cases hobj
  | funcenvVal hobj hv hp =>
    rw [hgobj] at hobj; injection hobj with hobj; cases hobj
  | funcdefB hobj hv hb => rw [hgobj] at hobj; injection hobj with hobj; cases hobj
  | funcdefV hobj hv hb hp =>
    rw [hgobj] at hobj; injection hobj with hobj; cases hobj
  | functionDef hobj => rw [hgobj] at hobj; injection hobj with hobj; cases hobj
  | functionEnv hobj hobj2 hmem =>
    rw [hgobj] at hobj; injection hobj with hobj; cases hobj

end EdgeInv

section MarkComplete

/-- Common closing argument for a guarded mark routine: if the body run from
the freshly marked block certainly marked all of the block's edges, the whole
call satisfies the marking postcondition and marks the entry block. -/
lemma guarded_post {h h' : List Block} {id : Nat}
    (hr : dst_gc_reachable h id = some false)
    (hbody : MarkPost (setMark h id) h')
    (hcov : ∀ t, Edge h id t → dst_gc_reachable h' t = some true) :
    MarkPost h h' ∧ dst_gc_reachable h' id = some true := by
  obtain ⟨b, hf, _⟩ := reachable_false_findBlock hr
  have hmark : dst_gc_reachable (setMark h id) id = some true :=
    reachable_setMark_self hf
  have hmark' : dst_gc_reachable h' id = some true :=
    reachable_extends hbody.1 hmark
  refine ⟨⟨extends_trans (extends_setMark h id) hbody.1, ?_⟩, hmark'⟩
  intro id2 hid2
  rcases hbody.2 id2 hid2 with h1id | hsucc
  · rcases reachable_setMark_inv h1id with rfl | hprev
    · exact Or.inr hcov
    · exact Or.inl hprev
  · refine Or.inr (fun t ht => hsucc t ?_)
    exact edge_of_getObj_eq (getObj_extends (extends_setMark h id)) ht

/-- Unfolding one well-formed step of a fiber frame chain. -/
lemma chainWFb_succ_inv {h : List Block} {data : List FiberSlot} {cf i j : Nat}
    {funcId : Option Nat} {prevframe : Nat}
    (hs : data.get? (i + 1 - DST_FRAME_SIZE) =
      some (.frameInfo funcId prevframe))
    (hw : chainWFb h data cf (i + 1) j = true) :
    ∃ cf', cf = cf' + 1 ∧
      (∀ f, funcId = some f → isFunctionAt h f = true) ∧
      (∃ vs, readValues data (i + 1) j = some vs ∧
        ∀ v ∈ vs, valWFb h v = true) ∧
      prevframe < i + 1 ∧
      chainWFb h data cf' prevframe (i + 1 - DST_FRAME_SIZE) = true := by
  cases cf with
  | zero => simp [chainWFb] at hw
  | succ cf' =>
    simp only [chainWFb, hs] at hw
    rw [Bool.and_eq_true, Bool.and_eq_true, Bool.and_eq_true] at hw
    obtain ⟨⟨⟨hfun, hvals⟩, hlt⟩, hchain⟩ := hw
    refine ⟨cf', rfl, ?_, ?_, by simpa using hlt, hchain⟩
    · intro f hf
      simp only [hf] at hfun
      exact hfun
    · cases hrv : readValues data (i + 1) j with
      | none => simp only [hrv] at hvals; cases hvals
      | some vs =>
        simp only [hrv] at hvals
        exact ⟨vs, rfl, List.all_eq_true.1 hvals⟩

/-- Completeness of marking: a successful call satisfies the marking
postcondition and certainly marks its targets. -/
theorem markGo_complete :
    ∀ (n : Nat) (h : List Block) (c : MarkCall) (h' : List Block),
      heapWFb h = true → CallPre h c → markGo n h c = some h' →
      MarkPost h h' ∧ MarkTargets h c h' := by
  intro n
  induction n with
  | zero => intro h c h' _ _ hc; simp [markGo] at hc
  | succ n ih =>
    intro h c h' hw hpre hc
    cases c with
    | val v =>
      simp only [markGo] at hc
      simp only [CallPre] at hpre
      cases hv : v.type <;> simp only [hv] at hc
      case nil | boolean | number =>
        cases hc
        refine ⟨markPost_refl h, ?_⟩
        intro t hp2
        simp [valPointee, hv] at hp2
      case string | symbol =>
        have hp : valPointee v = some v.ptr := by unfold valPointee; rw [hv]
        obtain ⟨o, hg, hk⟩ := valWFb_obj hp hpre
        rw [hv] at hk
        have ho : o = DstObject.string := by cases o <;> simp_all [kindMatchesB]
        subst ho
        refine ⟨gc_mark_leaf_post (no_edge_of_obj hg (Or.inl rfl)) hc, ?_⟩
        intro t hp2
        rw [hp] at hp2
        injection hp2 with hp2
        subst hp2
        exact dst_gc_mark_marks hc
      case buffer =>
        have hp : valPointee v = some v.ptr := by unfold valPointee; rw [hv]
        obtain ⟨o, hg, hk⟩ := valWFb_obj hp hpre
        rw [hv] at hk
        have ho : o = DstObject.buffer := by cases o <;> simp_all [kindMatchesB]
        subst ho
        refine ⟨gc_mark_leaf_post (no_edge_of_obj hg (Or.inr (Or.inl rfl))) hc, ?_⟩
        intro t hp2
        rw [hp] at hp2
        injection hp2 with hp2
        subst hp2
        exact dst_gc_mark_marks hc
      case userdata =>
        have hp : valPointee v = some v.ptr := by unfold valPointee; rw [hv]
        obtain ⟨o, hg, hk⟩ := valWFb_obj hp hpre
        rw [hv] at hk
        have ho : ∃ bf, o = DstObject.userdata bf := by
          cases o <;> simp_all [kindMatchesB]
        obtain ⟨bf, rfl⟩ := ho
        refine ⟨gc_mark_leaf_post
          (no_edge_of_obj hg (Or.inr (Or.inr (Or.inl ⟨bf, rfl⟩)))) hc, ?_⟩
        intro t hp2
        rw [hp] at hp2
        injection hp2 with hp2
        subst hp2
        exact dst_gc_mark_marks hc
      case array =>
        have hp : valPointee v = some v.ptr := by unfold valPointee; rw [hv]
        obtain ⟨post, htarget⟩ := ih h (.array v.ptr) h' hw trivial hc
        refine ⟨post, ?_⟩
        intro t hp2
        rw [hp] at hp2
        injection hp2 with hp2
        subst hp2
        exact htarget
      case table =>
        have hp : valPointee v = some v.ptr := by unfold valPointee; rw [hv]
        obtain ⟨post, htarget⟩ := ih h (.table v.ptr) h' hw trivial hc
        refine ⟨post, ?_⟩
        intro t hp2
        rw [hp] at hp2
        injection hp2 with hp2
        subst hp2
        exact htarget
      case struct =>
        have hp : valPointee v = some v.ptr := by unfold valPointee; rw [hv]
        obtain ⟨post, htarget⟩ := ih h (.struct v.ptr) h' hw trivial hc
        refine ⟨post, ?_⟩
        intro t hp2
        rw [hp] at hp2
        injection hp2 with hp2
        subst hp2
        exact htarget
      case tuple =>
        have hp : valPointee v = some v.ptr := by unfold valPointee; rw [hv]
        obtain ⟨post, htarget⟩ := ih h (.tuple v.ptr) h' hw trivial hc
        refine ⟨post, ?_⟩
        intro t hp2
        rw [hp] at hp2
        injection hp2 with hp2
        subst hp2
        exact htarget
      case function =>
        have hp : valPointee v = some v.ptr := by unfold valPointee; rw [hv]
        obtain ⟨post, htarget⟩ := ih h (.function v.ptr) h' hw trivial hc
        refine ⟨post, ?_⟩
        intro t hp2
        rw [hp] at hp2
        injection hp2 with hp2
        subst hp2
        exact htarget
      case fiber =>
        have hp : valPointee v = some v.ptr := by unfold valPointee; rw [hv]
        obtain ⟨post, htarget⟩ := ih h (.fiber v.ptr) h' hw trivial hc
        refine ⟨post, ?_⟩
        intro t hp2
        rw [hp] at hp2
        injection hp2 with hp2
        subst hp2
        exact htarget
    | many vs =>
      cases vs with
      | nil =>
        simp only [markGo] at hc
        cases hc
        exact ⟨markPost_refl h, fun v hv => absurd hv (List.not_mem_nil v)⟩
      | cons v rest =>
        simp only [markGo] at hc
        simp only [CallPre] at hpre
        cases hm : markGo n h (.val v) with
        | none => simp only [hm] at hc; cases hc
        | some h1 =>
          simp only [hm] at hc
          obtain ⟨p1, t1⟩ := ih h (.val v) h1 hw
            (hpre v (List.mem_cons_self v rest)) hm
          have hg1 := getObj_extends p1.1
          obtain ⟨p2, t2⟩ := ih h1 (.many rest) h' (heapWFb_extends p1.1 hw)
            (fun x hx => by
              rw [valWFb_congr hg1]
              exact hpre x (List.mem_cons_of_mem _ hx)) hc
          refine ⟨markPost_trans p1 p2, ?_⟩
          intro x hx t hp2
          rcases List.mem_cons.1 hx with rfl | hxr
          · exact reachable_extends p2.1 (t1 t hp2)
          · exact t2 x hxr t hp2
    | array id =>
      simp only [markGo] at hc
      cases hr : dst_gc_reachable h id with
      | none => simp only [hr] at hc; cases hc
      | some bb =>
        simp only [hr] at hc
        cases bb
        · cases hg : getObj h id with
          | none => simp only [hg] at hc; cases hc
          | some o =>
            simp only [hg] at hc
            cases o <;> try (cases hc; done)
            case array data =>
              have hdata : ∀ x ∈ data, valWFb h x = true := by
                have := getObj_some_objWFb hw hg
                simp only [objWFb, List.all_eq_true] at this
                exact this
              have hext := extends_setMark h id
              obtain ⟨p2, t2⟩ := ih (setMark h id) (.many data) h'
                (heapWFb_extends hext hw)
                (fun x hx => by
                  rw [valWFb_congr (getObj_extends hext)]
                  exact hdata x hx) hc
              exact guarded_post hr p2 (fun t ht => by
                obtain ⟨x, hx, hp2⟩ := edge_array_inv hg ht
                exact t2 x hx t hp2)
        · cases hc
          exact ⟨markPost_refl h, hr⟩
    | table id =>
      simp only [markGo] at hc
      cases hr : dst_gc_reachable h id with
      | none => simp only [hr] at hc; cases hc
      | some bb =>
        simp only [hr] at hc
        cases bb
        · cases hg : getObj h id with
          | none => simp only [hg] at hc; cases hc
          | some o =>
            simp only [hg] at hc
            cases o <;> try (cases hc; done)
            case table data =>
              have hdata : ∀ x ∈ data, valWFb h x = true := by
                have := getObj_some_objWFb hw hg
                simp only [objWFb, List.all_eq_true] at this
                exact this
              have hext := extends_setMark h id
              obtain ⟨p2, t2⟩ := ih (setMark h id) (.many data) h'
                (heapWFb_extends hext hw)
                (fun x hx => by
                  rw [valWFb_congr (getObj_extends hext)]
                  exact hdata x hx) hc
              exact guarded_post hr p2 (fun t ht => by
                obtain ⟨x, hx, hp2⟩ := edge_table_inv hg ht
                exact t2 x hx t hp2)
        · cases hc
          exact ⟨markPost_refl h, hr⟩
    | struct id =>
      simp only [markGo] at hc
      cases hr : dst_gc_reachable h id with
      | none => simp only [hr] at hc; cases hc
      | some bb =>
        simp only [hr] at hc
        cases bb
        · cases hg : getObj h id with
          | none => simp only [hg] at hc; cases hc
          | some o =>
            simp only [hg] at hc
            cases o <;> try (cases hc; done)
            case struct data =>
              have hdata : ∀ x ∈ data, valWFb h x = true := by
                have := getObj_some_objWFb hw hg
                simp only [objWFb, List.all_eq_true] at this
                exact this
              have hext := extends_setMark h id
              obtain ⟨p2, t2⟩ := ih (setMark h id) (.many data) h'
                (heapWFb_extends hext hw)
                (fun x hx => by
                  rw [valWFb_congr (getObj_extends hext)]
                  exact hdata x hx) hc
              exact guarded_post hr p2 (fun t ht => by
                obtain ⟨x, hx, hp2⟩ := edge_struct_inv hg ht
                exact t2 x hx t hp2)
        · cases hc
          exact ⟨markPost_refl h, hr⟩
    | tuple id =>
      simp only [markGo] at hc
      cases hr : dst_gc_reachable h id with
      | none => simp only [hr] at hc; cases hc
      | some bb =>
        simp only [hr] at hc
        cases bb
        · cases hg : getObj h id with
          | none => simp only [hg] at hc; cases hc
          | some o =>
            simp only [hg] at hc
            cases o <;> try (cases hc; done)
            case tuple data =>
              have hdata : ∀ x ∈ data, valWFb h x = true := by
                have := getObj_some_objWFb hw hg
                simp only [objWFb, List.all_eq_true] at this
                exact this
              have hext := extends_setMark h id
              obtain ⟨p2, t2⟩ := ih (setMark h id) (.many data) h'
                (heapWFb_extends hext hw)
                (fun x hx => by
                  rw [valWFb_congr (getObj_extends hext)]
                  exact hdata x hx) hc
              exact guarded_post hr p2 (fun t ht => by
                obtain ⟨x, hx, hp2⟩ := edge_tuple_inv hg ht
                exact t2 x hx t hp2)
        · cases hc
          exact ⟨markPost_refl h, hr⟩
    | funcenv id =>
      simp only [markGo] at hc
      cases hr : dst_gc_reachable h id with
      | none => simp only [hr] at hc; cases hc
      | some bb =>
        simp only [hr] at hc
        cases bb
        · cases hg : getObj h id with
          | none => simp only [hg] at hc; cases hc
          | some o =>
            simp only [hg] at hc
            cases o <;> try (cases hc; done)
            case funcenv offset fiberRef values =>
              have hc2 : (if offset ≠ 0 then
                  markGo n (setMark h id) (MarkCall.fiber fiberRef)
                else markGo n (setMark h id) (MarkCall.many values)) = some h' := hc
              have hext := extends_setMark h id
              by_cases ho : offset = 0
              · rw [if_neg (by simp [ho])] at hc2
                subst ho
                have hdata : ∀ x ∈ values, valWFb h x = true := by
                  have := getObj_some_objWFb hw hg
                  simp only [objWFb, ne_eq, not_true_eq_false, if_false,
                    List.all_eq_true] at this
                  exact this
                obtain ⟨p2, t2⟩ := ih (setMark h id) (.many values) h'
                  (heapWFb_extends hext hw)
                  (fun x hx => by
                    rw [valWFb_congr (getObj_extends hext)]
                    exact hdata x hx) hc2
                exact guarded_post hr p2 (fun t ht => by
                  rcases edge_funcenv_inv hg ht with ⟨hoff, _⟩ | ⟨_, x, hx, hp2⟩
                  · exact absurd rfl hoff
                  · exact t2 x hx t hp2)
              · rw [if_pos ho] at hc2
                obtain ⟨p2, t2⟩ := ih (setMark h id) (.fiber fiberRef) h'
                  (heapWFb_extends hext hw) trivial hc2
                exact guarded_post hr p2 (fun t ht => by
                  rcases edge_funcenv_inv hg ht with ⟨_, rfl⟩ | ⟨h0, _⟩
                  · exact t2
                  · exact absurd h0 ho)
        · cases hc
          exact ⟨markPost_refl h, hr⟩
    | funcdef id =>
      simp only [markGo] at hc
      cases hr : dst_gc_reachable h id with
      | none => simp only [hr] at hc; cases hc
      | some bb =>
        simp only [hr] at hc
        cases bb
        · cases hg : getObj h id with
          | none => simp only [hg] at hc; cases hc
          | some o =>
            simp only [hg] at hc
            cases o <;> try (cases hc; done)
            case funcdef constants el =>
              cases constants with
              | none =>
                cases hc
                refine guarded_post hr (markPost_refl _) (fun t ht => ?_)
                obtain ⟨cs, hcs, -⟩ := edge_funcdef_inv hg ht
                cases hcs
              | some cs =>
                have hcs : ∀ x ∈ cs, x.type ≠ DstType.boolean →
                    valWFb h x = true := by
                  have := getObj_some_objWFb hw hg
                  simp only [objWFb, List.all_eq_true] at this
                  intro x hx hb
                  have hxx := this x hx
                  rw [if_neg (by simpa using hb)] at hxx
                  exact hxx
                have hext := extends_setMark h id
                obtain ⟨p2, t2⟩ := ih (setMark h id) (.constants cs) h'
                  (heapWFb_extends hext hw)
                  (fun x hx hb => by
                    rw [valWFb_congr (getObj_extends hext)]
                    exact hcs x hx hb) hc
                exact guarded_post hr p2 (fun t ht => by
                  obtain ⟨cs0, hcs0, x, hx, hp2⟩ := edge_funcdef_inv hg ht
                  injection hcs0 with hcs0
                  cases hcs0
                  exact t2 x hx t hp2)
        · cases hc
          exact ⟨markPost_refl h, hr⟩
    | constants vs =>
      cases vs with
      | nil =>
        simp only [markGo] at hc
        cases hc
        exact ⟨markPost_refl h, fun v hv => absurd hv (List.not_mem_nil v)⟩
      | cons v rest =>
        simp only [markGo] at hc
        simp only [CallPre] at hpre
        cases hb : (v.type == DstType.boolean) <;> simp only [hb] at hc
        · cases hm : markGo n h (.val v) with
          | none => simp only [hm] at hc; cases hc
          | some h1 =>
            simp only [hm] at hc
            have hbne : v.type ≠ DstType.boolean := by simpa using hb
            obtain ⟨p1, t1⟩ := ih h (.val v) h1 hw
              (hpre v (List.mem_cons_self v rest) hbne) hm
            obtain ⟨p2, t2⟩ := ih h1 (.constants rest) h'
              (heapWFb_extends p1.1 hw)
              (fun x hx hxb => by
                rw [valWFb_congr (getObj_extends p1.1)]
                exact hpre x (List.mem_cons_of_mem _ hx) hxb) hc
            refine ⟨markPost_trans p1 p2, ?_⟩
            intro x hx t hp2
            rcases List.mem_cons.1 hx with rfl | hxr
            · rw [if_neg hbne] at hp2
              exact reachable_extends p2.1 (t1 t hp2)
            · exact t2 x hxr t hp2
        · cases hm : markGo n h (.funcdef v.ptr) with
          | none => simp only [hm] at hc; cases hc
          | some h1 =>
            simp only [hm] at hc
            have hbeq : v.type = DstType.boolean := by simpa using hb
            obtain ⟨p1, t1⟩ := ih h (.funcdef v.ptr) h1 hw trivial hm
            obtain ⟨p2, t2⟩ := ih h1 (.constants rest) h'
              (heapWFb_extends p1.1 hw)
              (fun x hx hxb => by
                rw [valWFb_congr (getObj_extends p1.1)]
                exact hpre x (List.mem_cons_of_mem _ hx) hxb) hc
            refine ⟨markPost_trans p1 p2, ?_⟩
            intro x hx t hp2
            rcases List.mem_cons.1 hx with rfl | hxr
            · rw [if_pos hbeq] at hp2
              injection hp2 with hp2
              subst hp2
              exact reachable_extends p2.1 t1
            · exact t2 x hxr t hp2
    | function id =>
      simp only [markGo] at hc
      cases hr : dst_gc_reachable h id with
      | none => simp only [hr] at hc; cases hc
      | some bb =>
        simp only [hr] at hc
        cases bb
        · cases hg : getObj h id with
          | none => simp only [hg] at hc; cases hc
          | some o =>
            simp only [hg] at hc
            cases o <;> try (cases hc; done)
            case function fdef envs =>
              cases hg2 : getObj h fdef with
              | none => simp only [hg2] at hc; cases hc
              | some o2 =>
                simp only [hg2] at hc
                cases o2 <;> try (cases hc; done)
                case funcdef cs numenvs =>
                  have hext := extends_setMark h id
                  cases envs with
                  | none =>
                    obtain ⟨p2, t2⟩ := ih (setMark h id) (.funcdef fdef) h'
                      (heapWFb_extends hext hw) trivial hc
                    exact guarded_post hr p2 (fun t ht => by
                      rcases edge_function_inv hg ht with rfl | ⟨l, _, _, hl, _, _⟩
                      · exact t2
                      · cases hl)
                  | some l =>
                    cases hm : markGo n (setMark h id) (.envs l numenvs) with
                    | none => simp only [hm] at hc; cases hc
                    | some h1 =>
                      simp only [hm] at hc
                      obtain ⟨p2, t2⟩ := ih (setMark h id) (.envs l numenvs) h1
                        (heapWFb_extends hext hw) trivial hm
                      obtain ⟨p3, t3⟩ := ih h1 (.funcdef fdef) h'
                        (heapWFb_extends p2.1 (heapWFb_extends hext hw))
                        trivial hc
                      refine guarded_post hr (markPost_trans p2 p3)
                        (fun t ht => ?_)
                      rcases edge_function_inv hg ht with rfl |
                        ⟨l0, cs0, ne0, hl0, hgd0, hmem⟩
                      · exact t3
                      · injection hl0 with hl0
                        cases hl0
                        rw [hg2] at hgd0
                        injection hgd0 with hgd0
                        cases hgd0
                        exact reachable_extends p3.1 (t2 t hmem)
        · cases hc
          exact ⟨markPost_refl h, hr⟩
    | envs l k =>
      cases l with
      | nil =>
        cases k with
        | zero =>
          simp only [markGo] at hc
          cases hc
          refine ⟨markPost_refl h, fun t hmem => ?_⟩
          simp at hmem
        | succ k => simp only [markGo] at hc; cases hc
      | cons e rest =>
        cases k with
        | zero =>
          simp only [markGo] at hc
          cases hc
          refine ⟨markPost_refl h, fun t hmem => ?_⟩
          simp at hmem
        | succ k =>
          simp only [markGo] at hc
          cases e with
          | none =>
            obtain ⟨p2, t2⟩ := ih h (.envs rest k) h' hw trivial hc
            refine ⟨p2, fun t hmem => ?_⟩
            rw [List.take_succ_cons] at hmem
            rcases List.mem_cons.1 hmem with heq | hmem2
            · cases heq
            · exact t2 t hmem2
          | some envId =>
            cases hm : markGo n h (.funcenv envId) with
            | none => simp only [hm] at hc; cases hc
            | some h1 =>
              simp only [hm] at hc
              obtain ⟨p1, t1⟩ := ih h (.funcenv envId) h1 hw trivial hm
              obtain ⟨p2, t2⟩ := ih h1 (.envs rest k) h'
                (heapWFb_extends p1.1 hw) trivial hc
              refine ⟨markPost_trans p1 p2, fun t hmem => ?_⟩
              rw [List.take_succ_cons] at hmem
              rcases List.mem_cons.1 hmem with heq | hmem2
              · injection heq with heq
                subst heq
                exact reachable_extends p2.1 t1
              · exact t2 t hmem2
    | fiber id =>
      simp only [markGo] at hc
      cases hr : dst_gc_reachable h id with
      | none => simp only [hr] at hc; cases hc
      | some bb =>
        simp only [hr] at hc
        cases bb
        · cases hg : getObj h id with
          | none => simp only [hg] at hc; cases hc
          | some o =>
            simp only [hg] at hc
            cases o <;> try (cases hc; done)
            case fiber frame frametop data parent ret =>
              have hobjwf := getObj_some_objWFb hw hg
              simp only [objWFb, Bool.and_eq_true] at hobjwf
              obtain ⟨⟨hchain, hpar⟩, hret⟩ := hobjwf
              have hext := extends_setMark h id
              cases hm : markGo n (setMark h id)
                  (.frames data frame frametop) with
              | none => simp only [hm] at hc; cases hc
              | some h1 =>
                simp only [hm] at hc
                have hpreF : ∃ cf0,
                    chainWFb (setMark h id) data cf0 frame frametop = true := by
                  refine ⟨frame, ?_⟩
                  rw [chainWFb_congr (getObj_extends hext)]
                  exact hchain
                obtain ⟨p2, t2⟩ := ih (setMark h id)
                  (.frames data frame frametop) h1
                  (heapWFb_extends hext hw) hpreF hm
                cases parent with
                | none =>
                  obtain ⟨p4, t4⟩ := ih h1 (.val ret) h'
                    (heapWFb_extends p2.1 (heapWFb_extends hext hw))
                    (by
                      simp only [CallPre]
                      rw [valWFb_congr (getObj_extends
                        (extends_trans hext p2.1))]
                      exact hret) hc
                  refine guarded_post hr (markPost_trans p2 p4)
                    (fun t ht => ?_)
                  rcases edge_fiber_inv hg ht with hf | hp | hp
                  · exact reachable_extends p4.1 (t2 t hf)
                  · cases hp
                  · exact t4 t hp
                | some p =>
                  cases hp2 : markGo n h1 (.fiber p) with
                  | none => simp only [hp2] at hc; cases hc
                  | some h2 =>
                    simp only [hp2] at hc
                    obtain ⟨p3, t3⟩ := ih h1 (.fiber p) h2
                      (heapWFb_extends p2.1 (heapWFb_extends hext hw))
                      trivial hp2
                    obtain ⟨p4, t4⟩ := ih h2 (.val ret) h'
                      (heapWFb_extends p3.1 (heapWFb_extends p2.1
                        (heapWFb_extends hext hw)))
                      (by
                        simp only [CallPre]
                        rw [valWFb_congr (getObj_extends
                          (extends_trans hext
                            (extends_trans p2.1 p3.1)))]
                        exact hret) hc
                    refine guarded_post hr
                      (markPost_trans p2 (markPost_trans p3 p4))
                      (fun t ht => ?_)
                    rcases edge_fiber_inv hg ht with hf | hp | hp
                    · exact reachable_extends p4.1
                        (reachable_extends p3.1 (t2 t hf))
                    · injection hp with hp
                      subst hp
                      exact reachable_extends p4.1 t3
                    · exact t4 t hp
        · cases hc
          exact ⟨markPost_refl h, hr⟩
    | frames data i j =>
      cases i with
      | zero =>
        simp only [markGo] at hc
        cases hc
        refine ⟨markPost_refl h, fun t ht => ?_⟩
        cases ht with
        | func hne _ => exact absurd rfl hne
        | slot hne _ _ _ _ => exact absurd rfl hne
        | prev hne _ _ => exact absurd rfl hne
      | succ i =>
        simp only [markGo] at hc
        obtain ⟨cf, hcf⟩ := hpre
        cases hs : data.get? (i + 1 - DST_FRAME_SIZE) with
        | none => simp only [hs] at hc; cases hc
        | some s =>
          simp only [hs] at hc
          cases s with
          | value v => cases hc
          | frameInfo funcId prevframe =>
            obtain ⟨cf', -, hfun, ⟨vs0, hrv0, hvs0⟩, hlt, hchain'⟩ :=
              chainWFb_succ_inv hs hcf
            cases funcId with
            | none =>
              cases hrv : readValues data (i + 1) j with
              | none => simp only [hrv] at hc; cases hc
              | some vs =>
                simp only [hrv] at hc
                rw [hrv0] at hrv
                injection hrv with hrv
                subst hrv
                cases hm2 : markGo n h (.many vs0) with
                | none => simp only [hm2] at hc; cases hc
                | some h2 =>
                  simp only [hm2] at hc
                  obtain ⟨pm, tm⟩ := ih h (.many vs0) h2 hw hvs0 hm2
                  have hpreR : ∃ cf0, chainWFb h2 data cf0 prevframe
                      (i + 1 - DST_FRAME_SIZE) = true := by
                    refine ⟨cf', ?_⟩
                    rw [chainWFb_congr (getObj_extends pm.1)]
                    exact hchain'
                  obtain ⟨pr, tr⟩ := ih h2
                    (.frames data prevframe (i + 1 - DST_FRAME_SIZE)) h'
                    (heapWFb_extends pm.1 hw) hpreR hc
                  refine ⟨markPost_trans pm pr, fun t ht => ?_⟩
                  cases ht with
                  | func hne hsf =>
                    rw [hs] at hsf
                    injection hsf with hsf
                    cases hsf
                  | slot hne hsf hrv2 hvmem hp =>
                    rw [hs] at hsf
                    injection hsf with hsf
                    injection hsf with hsf1 hsf2
                    rw [hrv0] at hrv2
                    injection hrv2 with hrv2
                    subst hrv2
                    exact reachable_extends pr.1 (tm _ hvmem t hp)
                  | prev hne hsf hrec =>
                    rw [hs] at hsf
                    injection hsf with hsf
                    injection hsf with hsf1 hsf2
                    subst hsf2
                    exact tr t hrec
            | some f =>
              cases hm : markGo n h (.function f) with
              | none => simp only [hm] at hc; cases hc
              | some h1 =>
                simp only [hm] at hc
                obtain ⟨pf, tf⟩ := ih h (.function f) h1 hw trivial hm
                cases hrv : readValues data (i + 1) j with
                | none => simp only [hrv] at hc; cases hc
                | some vs =>
                  simp only [hrv] at hc
                  rw [hrv0] at hrv
                  injection hrv with hrv
                  subst hrv
                  cases hm2 : markGo n h1 (.many vs0) with
                  | none => simp only [hm2] at hc; cases hc
                  | some h2 =>
                    simp only [hm2] at hc
                    obtain ⟨pm, tm⟩ := ih h1 (.many vs0) h2
                      (heapWFb_extends pf.1 hw)
                      (fun x hx => by
                        rw [valWFb_congr (getObj_extends pf.1)]
                        exact hvs0 x hx) hm2
                    have hpreR : ∃ cf0, chainWFb h2 data cf0 prevframe
                        (i + 1 - DST_FRAME_SIZE) = true := by
                      refine ⟨cf', ?_⟩
                      rw [chainWFb_congr (getObj_extends
                        (extends_trans pf.1 pm.1))]
                      exact hchain'
                    obtain ⟨pr, tr⟩ := ih h2
                      (.frames data prevframe (i + 1 - DST_FRAME_SIZE)) h'
                      (heapWFb_extends pm.1 (heapWFb_extends pf.1 hw))
                      hpreR hc
                    refine ⟨markPost_trans pf (markPost_trans pm pr),
                      fun t ht => ?_⟩
                    cases ht with
                    | func hne hsf =>
                      rw [hs] at hsf
                      injection hsf with hsf
                      injection hsf with hsf1 hsf2
                      injection hsf1 with hsf1
                      subst hsf1
                      exact reachable_extends pr.1
                        (reachable_extends pm.1 tf)
                    | slot hne hsf hrv2 hvmem hp =>
                      rw [hs] at hsf
                      injection hsf with hsf
                      injection hsf with hsf1 hsf2
                      rw [hrv0] at hrv2
                      injection hrv2 with hrv2
                      subst hrv2
                      exact reachable_extends pr.1 (tm _ hvmem t hp)
                    | prev hne hsf hrec =>
                      rw [hs] at hsf
                      injection hsf with hsf
                      injection hsf with hsf1 hsf2
                      subst hsf2
                      exact tr t hrec

end MarkComplete

section MarkTermination

/-- Success of marking never increases the unmarked count. -/
lemma markGo_count_le {n : Nat} {h : List Block} {c : MarkCall}
    {h' : List Block} (hc : markGo n h c = some h') :
    unmarkedCount h' ≤ unmarkedCount h :=
  unmarkedCount_extends (markGo_extends n h c h' hc)

/-- Success of marking preserves well-formedness. -/
lemma markGo_wf {n : Nat} {h : List Block} {c : MarkCall} {h' : List Block}
    (hw : heapWFb h = true) (hc : markGo n h c = some h') :
    heapWFb h' = true :=
  heapWFb_extends (markGo_extends n h c h' hc) hw

/-- An array test yields the array body. -/
lemma isArrayAt_obj {h1 : List Block} {id : Nat} (ha : isArrayAt h1 id = true) :
    ∃ data, getObj h1 id = some (DstObject.array data) := by
  cases hg : getObj h1 id with
  | none => simp only [isArrayAt, hg] at ha; cases ha
  | some o =>
    cases o <;> simp only [isArrayAt, hg] at ha <;>
      first
        | exact ⟨_, rfl⟩
        | cases ha

/-- A table test yields the table body. -/
lemma isTableAt_obj {h1 : List Block} {id : Nat} (ha : isTableAt h1 id = true) :
    ∃ data, getObj h1 id = some (DstObject.table data) := by
  cases hg : getObj h1 id with
  | none => simp only [isTableAt, hg] at ha; cases ha
  | some o =>
    cases o <;> simp only [isTableAt, hg] at ha <;>
      first
        | exact ⟨_, rfl⟩
        | cases ha

/-- A struct test yields the struct body. -/
lemma isStructAt_obj {h1 : List Block} {id : Nat}
    (ha : isStructAt h1 id = true) :
    ∃ data, getObj h1 id = some (DstObject.struct data) := by
  cases hg : getObj h1 id with
  | none => simp only [isStructAt, hg] at ha; cases ha
  | some o =>
    cases o <;> simp only [isStructAt, hg] at ha <;>
      first
        | exact ⟨_, rfl⟩
        | cases ha

/-- A tuple test yields the tuple body. -/
lemma isTupleAt_obj {h1 : List Block} {id : Nat} (ha : isTupleAt h1 id = true) :
    ∃ data, getObj h1 id = some (DstObject.tuple data) := by
  cases hg : getObj h1 id with
  | none => simp only [isTupleAt, hg] at ha; cases ha
  | some o =>
    cases o <;> simp only [isTupleAt, hg] at ha <;>
      first
        | exact ⟨_, rfl⟩
        | cases ha

/-- A funcenv test yields the funcenv body. -/
lemma isFuncenvAt_obj {h1 : List Block} {id : Nat}
    (ha : isFuncenvAt h1 id = true) :
    ∃ offset fiberRef values,
      getObj h1 id = some (DstObject.funcenv offset fiberRef values) := by
  cases hg : getObj h1 id with
  | none => simp only [isFuncenvAt, hg] at ha; cases ha
  | some o =>
    cases o <;> simp only [isFuncenvAt, hg] at ha <;>
      first
        | exact ⟨_, _, _, rfl⟩
        | cases ha

/-- A funcdef test yields the funcdef body. -/
lemma isFuncdefAt_obj {h1 : List Block} {id : Nat}
    (ha : isFuncdefAt h1 id = true) :
    ∃ constants el, getObj h1 id = some (DstObject.funcdef constants el) := by
  cases hg : getObj h1 id with
  | none => simp only [isFuncdefAt, hg] at ha; cases ha
  | some o =>
    cases o <;> simp only [isFuncdefAt, hg] at ha <;>
      first
        | exact ⟨_, _, rfl⟩
        | cases ha

/-- A function test yields the function body. -/
lemma isFunctionAt_obj {h1 : List Block} {id : Nat}
    (ha : isFunctionAt h1 id = true) :
    ∃ fdef envs, getObj h1 id = some (DstObject.function fdef envs) := by
  cases hg : getObj h1 id with
  | none => simp only [isFunctionAt, hg] at ha; cases ha
  | some o =>
    cases o <;> simp only [isFunctionAt, hg] at ha <;>
      first
        | exact ⟨_, _, rfl⟩
        | cases ha

/-- A fiber test yields the fiber body. -/
lemma isFiberAt_obj {h1 : List Block} {id : Nat} (ha : isFiberAt h1 id = true) :
    ∃ frame frametop data parent ret,
      getObj h1 id = some (DstObject.fiber frame frametop data parent ret) := by
  cases hg : getObj h1 id with
  | none => simp only [isFiberAt, hg] at ha; cases ha
  | some o =>
    cases o <;> simp only [isFiberAt, hg] at ha <;>
      first
        | exact ⟨_, _, _, _, _, rfl⟩
        | cases ha

/-- A live block has a reachable answer. -/
lemma reachable_of_getObj {h1 : List Block} {id : Nat} {o : DstObject}
    (hg : getObj h1 id = some o) :
    dst_gc_reachable h1 id = some true ∨
      dst_gc_reachable h1 id = some false := by
  unfold getObj at hg
  unfold dst_gc_reachable
  cases hf : findBlock h1 id with
  | none => rw [hf] at hg; cases hg
  | some b =>
    cases hb : b.flags.reachable
    · right; simp [hb]
    · left; simp [hb]

/-- Unfolding one well-formed step of a fiber frame chain, producing the frame
header. -/
lemma chainWFb_succ_inv2 {h : List Block} {data : List FiberSlot}
    {cf' i j : Nat} (hw : chainWFb h data (cf' + 1) (i + 1) j = true) :
    ∃ funcId prevframe,
      data.get? (i + 1 - DST_FRAME_SIZE) =
        some (.frameInfo funcId prevframe) ∧
      (∀ f, funcId = some f → isFunctionAt h f = true) ∧
      (∃ vs, readValues data (i + 1) j = some vs ∧
        ∀ v ∈ vs, valWFb h v = true) ∧
      chainWFb h data cf' prevframe (i + 1 - DST_FRAME_SIZE) = true := by
  cases hs : data.get? (i + 1 - DST_FRAME_SIZE) with
  | none => simp only [chainWFb, hs] at hw; cases hw
  | some s =>
    cases s with
    | value v => simp only [chainWFb, hs] at hw; cases hw
    | frameInfo funcId prevframe =>
      obtain ⟨cf0, hcf0, hfun, hvals, _, hchain⟩ := chainWFb_succ_inv hs hw
      injection hcf0 with hcf0
      subst hcf0
      exact ⟨funcId, prevframe, rfl, hfun, hvals, hchain⟩

/-- Termination of marking: on a well-formed heap, every well-targeted call
has enough fuel to return. -/
theorem markGo_terminates :
    ∀ (k : Nat) (h : List Block), heapWFb h = true → unmarkedCount h ≤ k →
      ∀ c, CallPreT h c → ∃ n h', markGo n h c = some h' := by
  intro k
  induction k using Nat.strong_induction_on with
  | _ k IH =>
    -- Guarded routines: either return at the guard, or mark their block and
    -- run the body on a heap with strictly fewer unmarked blocks.
    have Hbody : ∀ (h1 : List Block), heapWFb h1 = true →
        unmarkedCount h1 ≤ k → ∀ (id : Nat) (o : DstObject),
        getObj h1 id = some o → dst_gc_reachable h1 id = some false →
        ∀ c2, CallPreT (setMark h1 id) c2 →
        ∃ n h', markGo n (setMark h1 id) c2 = some h' := by
      intro h1 hw1 hk1 id o hg hr c2 hpre2
      obtain ⟨b, hf, hb⟩ := reachable_false_findBlock hr
      have hlt : unmarkedCount (setMark h1 id) < unmarkedCount h1 :=
        unmarkedCount_setMark_lt hf hb
      have hwm : heapWFb (setMark h1 id) = true :=
        heapWFb_extends (extends_setMark h1 id) hw1
      exact IH (unmarkedCount (setMark h1 id)) (by omega) (setMark h1 id)
        hwm (Nat.le_refl _) c2 hpre2
    have Harray : ∀ (h1 : List Block), heapWFb h1 = true →
        unmarkedCount h1 ≤ k → ∀ id, isArrayAt h1 id = true →
        ∃ n h', markGo n h1 (.array id) = some h' := by
      intro h1 hw1 hk1 id ha
      obtain ⟨data, hg⟩ := isArrayAt_obj ha
      rcases reachable_of_getObj hg with hr | hr
      · exact ⟨1, h1, by simp only [markGo, hr]⟩
      · have hdata : ∀ x ∈ data, valWFb h1 x = true := by
          have := getObj_some_objWFb hw1 hg
          simp only [objWFb, List.all_eq_true] at this
          exact this
        have hpre2 : CallPreT (setMark h1 id) (.many data) := by
          intro x hx
          rw [valWFb_congr (getObj_extends (extends_setMark h1 id))]
          exact hdata x hx
        obtain ⟨n, h', hn⟩ := Hbody h1 hw1 hk1 id _ hg hr (.many data) hpre2
        exact ⟨n + 1, h', by simp only [markGo, hr, hg]; exact hn⟩
    have Htable : ∀ (h1 : List Block), heapWFb h1 = true →
        unmarkedCount h1 ≤ k → ∀ id, isTableAt h1 id = true →
        ∃ n h', markGo n h1 (.table id) = some h' := by
      intro h1 hw1 hk1 id ha
      obtain ⟨data, hg⟩ := isTableAt_obj ha
      rcases reachable_of_getObj hg with hr | hr
      · exact ⟨1, h1, by simp only [markGo, hr]⟩
      · have hdata : ∀ x ∈ data, valWFb h1 x = true := by
          have := getObj_some_objWFb hw1 hg
          simp only [objWFb, List.all_eq_true] at this
          exact this
        have hpre2 : CallPreT (setMark h1 id) (.many data) := by
          intro x hx
          rw [valWFb_congr (getObj_extends (extends_setMark h1 id))]
          exact hdata x hx
        obtain ⟨n, h', hn⟩ := Hbody h1 hw1 hk1 id _ hg hr (.many data) hpre2
        exact ⟨n + 1, h', by simp only [markGo, hr, hg]; exact hn⟩
    have Hstruct : ∀ (h1 : List Block), heapWFb h1 = true →
        unmarkedCount h1 ≤ k → ∀ id, isStructAt h1 id = true →
        ∃ n h', markGo n h1 (.struct id) = some h' := by
      intro h1 hw1 hk1 id ha
      obtain ⟨data, hg⟩ := isStructAt_obj ha
      rcases reachable_of_getObj hg with hr | hr
      · exact ⟨1, h1, by simp only [markGo, hr]⟩
      · have hdata : ∀ x ∈ data, valWFb h1 x = true := by
          have := getObj_some_objWFb hw1 hg
          simp only [objWFb, List.all_eq_true] at this
          exact this
        have hpre2 : CallPreT (setMark h1 id) (.many data) := by
          intro x hx
          rw [valWFb_congr (getObj_extends (extends_setMark h1 id))]
          exact hdata x hx
        obtain ⟨n, h', hn⟩ := Hbody h1 hw1 hk1 id _ hg hr (.many data) hpre2
        exact ⟨n + 1, h', by simp only [markGo, hr, hg]; exact hn⟩
    have Htuple : ∀ (h1 : List Block), heapWFb h1 = true →
        unmarkedCount h1 ≤ k → ∀ id, isTupleAt h1 id = true →
        ∃ n h', markGo n h1 (.tuple id) = some h' := by
      intro h1 hw1 hk1 id ha
      obtain ⟨data, hg⟩ := isTupleAt_obj ha
      rcases reachable_of_getObj hg with hr | hr
      · exact ⟨1, h1, by simp only [markGo, hr]⟩
      · have hdata : ∀ x ∈ data, valWFb h1 x = true := by
          have := getObj_some_objWFb hw1 hg
          simp only [objWFb, List.all_eq_true] at this
          exact this
        have hpre2 : CallPreT (setMark h1 id) (.many data) := by
          intro x hx
          rw [valWFb_congr (getObj_extends (extends_setMark h1 id))]
          exact hdata x hx
        obtain ⟨n, h', hn⟩ := Hbody h1 hw1 hk1 id _ hg hr (.many data) hpre2
        exact ⟨n + 1, h', by simp only [markGo, hr, hg]; exact hn⟩
    have Hfuncenv : ∀ (h1 : List Block), heapWFb h1 = true →
        unmarkedCount h1 ≤ k → ∀ id, isFuncenvAt h1 id = true →
        ∃ n h', markGo n h1 (.funcenv id) = some h' := by
      intro h1 hw1 hk1 id ha
      obtain ⟨offset, fiberRef, values, hg⟩ := isFuncenvAt_obj ha
      rcases reachable_of_getObj hg with hr | hr
      · exact ⟨1, h1, by simp only [markGo, hr]⟩
      · have hobjwf := getObj_some_objWFb hw1 hg
        by_cases ho : offset = 0
        · subst ho
          have hdata : ∀ x ∈ values, valWFb h1 x = true := by
            simp only [objWFb, ne_eq, not_true_eq_false, if_false,
              List.all_eq_true] at hobjwf
            exact hobjwf
          have hpre2 : CallPreT (setMark h1 id) (.many values) := by
            intro x hx
            rw [valWFb_congr (getObj_extends (extends_setMark h1 id))]
            exact hdata x hx
          obtain ⟨n, h', hn⟩ := Hbody h1 hw1 hk1 id _ hg hr (.many values) hpre2
          refine ⟨n + 1, h', ?_⟩
          simp only [markGo, hr, hg]
          rw [if_neg (by simp)]
          exact hn
        · have hfib : isFiberAt h1 fiberRef = true := by
            simp only [objWFb, if_pos ho] at hobjwf
            exact hobjwf
          have hpre2 : CallPreT (setMark h1 id) (.fiber fiberRef) := by
            simp only [CallPreT]
            rw [isFiberAt_congr (getObj_extends (extends_setMark h1 id))]
            exact hfib
          obtain ⟨n, h', hn⟩ := Hbody h1 hw1 hk1 id _ hg hr (.fiber fiberRef) hpre2
          refine ⟨n + 1, h', ?_⟩
          simp only [markGo, hr, hg]
          rw [if_pos ho]
          exact hn
    have Hfuncdef : ∀ (h1 : List Block), heapWFb h1 = true →
        unmarkedCount h1 ≤ k → ∀ id, isFuncdefAt h1 id = true →
        ∃ n h', markGo n h1 (.funcdef id) = some h' := by
      intro h1 hw1 hk1 id ha
      obtain ⟨constants, el, hg⟩ := isFuncdefAt_obj ha
      rcases reachable_of_getObj hg with hr | hr
      · exact ⟨1, h1, by simp only [markGo, hr]⟩
      · cases constants with
        | none => exact ⟨1, setMark h1 id, by simp only [markGo, hr, hg]⟩
        | some cs =>
          have hcs : ∀ x ∈ cs,
              (x.type = DstType.boolean → isFuncdefAt h1 x.ptr = true) ∧
              (x.type ≠ DstType.boolean → valWFb h1 x = true) := by
            have := getObj_some_objWFb hw1 hg
            simp only [objWFb, List.all_eq_true] at this
            intro x hx
            have hxx := this x hx
            constructor
            · intro hbx
              rw [if_pos (by simpa using hbx)] at hxx
              exact hxx
            · intro hbx
              rw [if_neg (by simpa using hbx)] at hxx
              exact hxx
          have hpre2 : CallPreT (setMark h1 id) (.constants cs) := by
            intro x hx
            have hgx := getObj_extends (extends_setMark h1 id)
            refine ⟨fun hbx => ?_, fun hbx => ?_⟩
            · rw [isFuncdefAt_congr hgx]
              exact (hcs x hx).1 hbx
            · rw [valWFb_congr hgx]
              exact (hcs x hx).2 hbx
          obtain ⟨n, h', hn⟩ := Hbody h1 hw1 hk1 id _ hg hr (.constants cs) hpre2
          exact ⟨n + 1, h', by simp only [markGo, hr, hg]; exact hn⟩
    have Hfunction : ∀ (h1 : List Block), heapWFb h1 = true →
        unmarkedCount h1 ≤ k → ∀ id, isFunctionAt h1 id = true →
        ∃ n h', markGo n h1 (.function id) = some h' := by
      intro h1 hw1 hk1 id ha
      obtain ⟨fdef, envs, hg⟩ := isFunctionAt_obj ha
      rcases reachable_of_getObj hg with hr | hr
      · exact ⟨1, h1, by simp only [markGo, hr]⟩
      · have hobjwf := getObj_some_objWFb hw1 hg
        simp only [objWFb] at hobjwf
        cases hgd : getObj h1 fdef with
        | none => rw [hgd] at hobjwf; cases hobjwf
        | some o2 =>
          rw [hgd] at hobjwf
          cases o2 <;> try (cases hobjwf; done)
          case funcdef cs numenvs =>
            have hext := extends_setMark h1 id
            have hgx := getObj_extends hext
            have hgd1 : getObj (setMark h1 id) fdef =
                some (DstObject.funcdef cs numenvs) := by rw [hgx]; exact hgd
            have hfd1 : isFuncdefAt (setMark h1 id) fdef = true := by
              simp only [isFuncdefAt, hgd1]
            cases envs with
            | none =>
              -- the body is directly the funcdef mark from the marked heap
              obtain ⟨n, h', hn⟩ :=
                Hbody h1 hw1 hk1 id _ hg hr (.funcdef fdef) hfd1
              exact ⟨n + 1, h', by simp only [markGo, hr, hg, hgd]; exact hn⟩
            | some l =>
              have hl : numenvs ≤ l.length ∧ ∀ e ∈ l, ∀ eid, e = some eid →
                  isFuncenvAt h1 eid = true := by
                rw [Bool.and_eq_true] at hobjwf
                refine ⟨by simpa using hobjwf.1, ?_⟩
                have := List.all_eq_true.1 hobjwf.2
                intro e he eid heq
                have hx := this e he
                rw [heq] at hx
                exact hx
              have hpre2 : CallPreT (setMark h1 id) (.envs l numenvs) := by
                refine ⟨hl.1, fun e he eid heq => ?_⟩
                rw [isFuncenvAt_congr hgx]
                exact hl.2 e he eid heq
              obtain ⟨n1, h2, hn1⟩ :=
                Hbody h1 hw1 hk1 id _ hg hr (.envs l numenvs) hpre2
              have hw2 : heapWFb h2 = true :=
                markGo_wf (heapWFb_extends hext hw1) hn1
              have hk2 : unmarkedCount h2 < k := by
                obtain ⟨b, hf, hb⟩ := reachable_false_findBlock hr
                have l1 : unmarkedCount (setMark h1 id) < unmarkedCount h1 :=
                  unmarkedCount_setMark_lt hf hb
                have l2 := markGo_count_le hn1
                omega
              have hfd2 : isFuncdefAt h2 fdef = true := by
                rw [isFuncdefAt_congr (getObj_extends (markGo_extends _ _ _ _ hn1))]
                exact hfd1
              obtain ⟨n2, h', hn2⟩ := IH (unmarkedCount h2) hk2 h2 hw2
                (Nat.le_refl _) (.funcdef fdef) hfd2
              refine ⟨max n1 n2 + 1, h', ?_⟩
              simp only [markGo, hr, hg, hgd]
              rw [markGo_mono_le (Nat.le_max_left n1 n2) hn1]
              exact markGo_mono_le (Nat.le_max_right n1 n2) hn2
    have Hfiber : ∀ (h1 : List Block), heapWFb h1 = true →
        unmarkedCount h1 ≤ k → ∀ id, isFiberAt h1 id = true →
        ∃ n h', markGo n h1 (.fiber id) = some h' := by
      intro h1 hw1 hk1 id ha
      obtain ⟨frame, frametop, data, parent, ret, hg⟩ := isFiberAt_obj ha
      rcases reachable_of_getObj hg with hr | hr
      · exact ⟨1, h1, by simp only [markGo, hr]⟩
      · have hobjwf := getObj_some_objWFb hw1 hg
        simp only [objWFb, Bool.and_eq_true] at hobjwf
        obtain ⟨⟨hchain, hpar⟩, hret⟩ := hobjwf
        have hext := extends_setMark h1 id
        have hgx := getObj_extends hext
        obtain ⟨b, hf, hb⟩ := reachable_false_findBlock hr
        have hcnt1 : unmarkedCount (setMark h1 id) < unmarkedCount h1 :=
          unmarkedCount_setMark_lt hf hb
        have hpre2 : CallPreT (setMark h1 id) (.frames data frame frametop) := by
          refine ⟨frame, ?_⟩
          rw [chainWFb_congr hgx]
          exact hchain
        obtain ⟨n1, h2, hn1⟩ :=
          Hbody h1 hw1 hk1 id _ hg hr (.frames data frame frametop) hpre2
        have hw2 : heapWFb h2 = true :=
          markGo_wf (heapWFb_extends hext hw1) hn1
        have hk2 : unmarkedCount h2 < k := by
          have := markGo_count_le hn1
          omega
        have hext2 : Extends h1 h2 :=
          extends_trans hext (markGo_extends _ _ _ _ hn1)
        cases parent with
        | none =>
          have hpre4 : CallPreT h2 (.val ret) := by
            simp only [CallPreT]
            rw [valWFb_congr (getObj_extends hext2)]
            exact hret
          obtain ⟨n2, h', hn2⟩ := IH (unmarkedCount h2) hk2 h2 hw2
            (Nat.le_refl _) (.val ret) hpre4
          refine ⟨max n1 n2 + 1, h', ?_⟩
          simp only [markGo, hr, hg]
          rw [markGo_mono_le (Nat.le_max_left n1 n2) hn1]
          exact markGo_mono_le (Nat.le_max_right n1 n2) hn2
        | some p =>
          have hfp : isFiberAt h2 p = true := by
            rw [isFiberAt_congr (getObj_extends hext2)]
            simpa using hpar
          obtain ⟨n2, h3, hn2⟩ := IH (unmarkedCount h2) hk2 h2 hw2
            (Nat.le_refl _) (.fiber p) hfp
          have hw3 : heapWFb h3 = true := markGo_wf hw2 hn2
          have hk3 : unmarkedCount h3 < k := by
            have := markGo_count_le hn2
            omega
          have hext3 : Extends h1 h3 :=
            extends_trans hext2 (markGo_extends _ _ _ _ hn2)
          have hpre4 : CallPreT h3 (.val ret) := by
            simp only [CallPreT]
            rw [valWFb_congr (getObj_extends hext3)]
            exact hret
          obtain ⟨n3, h', hn3⟩ := IH (unmarkedCount h3) hk3 h3 hw3
            (Nat.le_refl _) (.val ret) hpre4
          refine ⟨max n1 (max n2 n3) + 1, h', ?_⟩
          simp only [markGo, hr, hg,
            markGo_mono_le (Nat.le_max_left n1 (max n2 n3)) hn1,
            markGo_mono_le (le_trans (Nat.le_max_left n2 n3)
              (Nat.le_max_right n1 (max n2 n3))) hn2]
          exact markGo_mono_le (le_trans (Nat.le_max_right n2 n3)
            (Nat.le_max_right n1 (max n2 n3))) hn3
    -- Value dispatch at the same unmarked bound.
    have Hval : ∀ (h1 : List Block), heapWFb h1 = true →
        unmarkedCount h1 ≤ k → ∀ v, valWFb h1 v = true →
        ∃ n h', markGo n h1 (.val v) = some h' := by
      intro h1 hw1 hk1 v hv
      cases hvt : v.type
      case nil | boolean | number =>
        exact ⟨1, h1, by simp only [markGo, hvt]⟩
      case string | symbol =>
        have hp : valPointee v = some v.ptr := by unfold valPointee; rw [hvt]
        obtain ⟨o, hg, hk⟩ := valWFb_obj hp hv
        refine ⟨1, setMark h1 v.ptr, ?_⟩
        have hf : (findBlock h1 v.ptr).isSome := by
          unfold getObj at hg
          cases hff : findBlock h1 v.ptr
          · rw [hff] at hg; cases hg
          · rfl
        simp only [markGo, hvt, dst_mark_string, dst_gc_mark]
        cases hff : findBlock h1 v.ptr
        · rw [hff] at hf; cases hf
        · rfl
      case buffer =>
        have hp : valPointee v = some v.ptr := by unfold valPointee; rw [hvt]
        obtain ⟨o, hg, hk⟩ := valWFb_obj hp hv
        refine ⟨1, setMark h1 v.ptr, ?_⟩
        have hf : (findBlock h1 v.ptr).isSome := by
          unfold getObj at hg
          cases hff : findBlock h1 v.ptr
          · rw [hff] at hg; cases hg
          · rfl
        simp only [markGo, hvt, dst_mark_buffer, dst_gc_mark]
        cases hff : findBlock h1 v.ptr
        · rw [hff] at hf; cases hf
        · rfl
      case userdata =>
        have hp : valPointee v = some v.ptr := by unfold valPointee; rw [hvt]
        obtain ⟨o, hg, hk⟩ := valWFb_obj hp hv
        refine ⟨1, setMark h1 v.ptr, ?_⟩
        have hf : (findBlock h1 v.ptr).isSome := by
          unfold getObj at hg
          cases hff : findBlock h1 v.ptr
          · rw [hff] at hg; cases hg
          · rfl
        simp only [markGo, hvt, dst_mark_udata, dst_gc_mark]
        cases hff : findBlock h1 v.ptr
        · rw [hff] at hf; cases hf
        · rfl
      case array =>
        have hp : valPointee v = some v.ptr := by unfold valPointee; rw [hvt]
        obtain ⟨o, hg, hk⟩ := valWFb_obj hp hv
        rw [hvt] at hk
        have ha : isArrayAt h1 v.ptr = true := by
          cases o <;> simp_all [kindMatchesB, isArrayAt]
        obtain ⟨n, h', hn⟩ := Harray h1 hw1 hk1 v.ptr ha
        exact ⟨n + 1, h', by simp only [markGo, hvt]; exact hn⟩
      case table =>
        have hp : valPointee v = some v.ptr := by unfold valPointee; rw [hvt]
        obtain ⟨o, hg, hk⟩ := valWFb_obj hp hv
        rw [hvt] at hk
        have ha : isTableAt h1 v.ptr = true := by
          cases o <;> simp_all [kindMatchesB, isTableAt]
        obtain ⟨n, h', hn⟩ := Htable h1 hw1 hk1 v.ptr ha
        exact ⟨n + 1, h', by simp only [markGo, hvt]; exact hn⟩
      case struct =>
        have hp : valPointee v = some v.ptr := by unfold valPointee; rw [hvt]
        obtain ⟨o, hg, hk⟩ := valWFb_obj hp hv
        rw [hvt] at hk
        have ha : isStructAt h1 v.ptr = true := by
          cases o <;> simp_all [kindMatchesB, isStructAt]
        obtain ⟨n, h', hn⟩ := Hstruct h1 hw1 hk1 v.ptr ha
        exact ⟨n + 1, h', by simp only [markGo, hvt]; exact hn⟩
      case tuple =>
        have hp : valPointee v = some v.ptr := by unfold valPointee; rw [hvt]
        obtain ⟨o, hg, hk⟩ := valWFb_obj hp hv
        rw [hvt] at hk
        have ha : isTupleAt h1 v.ptr = true := by
          cases o <;> simp_all [kindMatchesB, isTupleAt]
        obtain ⟨n, h', hn⟩ := Htuple h1 hw1 hk1 v.ptr ha
        exact ⟨n + 1, h', by simp only [markGo, hvt]; exact hn⟩
      case function =>
        have hp : valPointee v = some v.ptr := by unfold valPointee; rw [hvt]
        obtain ⟨o, hg, hk⟩ := valWFb_obj hp hv
        rw [hvt] at hk
        have ha : isFunctionAt h1 v.ptr = true := by
          cases o <;> simp_all [kindMatchesB, isFunctionAt]
        obtain ⟨n, h', hn⟩ := Hfunction h1 hw1 hk1 v.ptr ha
        exact ⟨n + 1, h', by simp only [markGo, hvt]; exact hn⟩
      case fiber =>
        have hp : valPointee v = some v.ptr := by unfold valPointee; rw [hvt]
        obtain ⟨o, hg, hk⟩ := valWFb_obj hp hv
        rw [hvt] at hk
        have ha : isFiberAt h1 v.ptr = true := by
          cases o <;> simp_all [kindMatchesB, isFiberAt]
        obtain ⟨n, h', hn⟩ := Hfiber h1 hw1 hk1 v.ptr ha
        exact ⟨n + 1, h', by simp only [markGo, hvt]; exact hn⟩
    -- The value loop.
    have Hmany : ∀ (vs : List DstValue) (h1 : List Block), heapWFb h1 = true →
        unmarkedCount h1 ≤ k → (∀ v ∈ vs, valWFb h1 v = true) →
        ∃ n h', markGo n h1 (.many vs) = some h' := by
      intro vs
      induction vs with
      | nil => exact fun h1 _ _ _ => ⟨1, h1, by simp only [markGo]⟩
      | cons v rest ihl =>
        intro h1 hw1 hk1 hvs
        obtain ⟨n1, h2, hn1⟩ := Hval h1 hw1 hk1 v
          (hvs v (List.mem_cons_self v rest))
        have hw2 := markGo_wf hw1 hn1
        have hk2 : unmarkedCount h2 ≤ k :=
          le_trans (markGo_count_le hn1) hk1
        obtain ⟨n2, h', hn2⟩ := ihl h2 hw2 hk2 (fun x hx => by
          rw [valWFb_congr (getObj_extends (markGo_extends _ _ _ _ hn1))]
          exact hvs x (List.mem_cons_of_mem _ hx))
        refine ⟨max n1 n2 + 1, h', ?_⟩
        simp only [markGo]
        rw [markGo_mono_le (Nat.le_max_left n1 n2) hn1]
        exact markGo_mono_le (Nat.le_max_right n1 n2) hn2
    -- The constants loop.
    have Hconstants : ∀ (vs : List DstValue) (h1 : List Block),
        heapWFb h1 = true → unmarkedCount h1 ≤ k →
        (∀ v ∈ vs, (v.type = DstType.boolean → isFuncdefAt h1 v.ptr = true) ∧
          (v.type ≠ DstType.boolean → valWFb h1 v = true)) →
        ∃ n h', markGo n h1 (.constants vs) = some h' := by
      intro vs
      induction vs with
      | nil => exact fun h1 _ _ _ => ⟨1, h1, by simp only [markGo]⟩
      | cons v rest ihl =>
        intro h1 hw1 hk1 hvs
        have hstep : ∃ n1 h2,
            (if (v.type == DstType.boolean) = true
             then markGo n1 h1 (.funcdef v.ptr)
             else markGo n1 h1 (.val v)) = some h2 := by
          cases hb : (v.type == DstType.boolean)
          · obtain ⟨n1, h2, hn1⟩ := Hval h1 hw1 hk1 v
              ((hvs v (List.mem_cons_self v rest)).2 (by simpa using hb))
            exact ⟨n1, h2, by rw [if_neg (by simp)]; exact hn1⟩
          · obtain ⟨n1, h2, hn1⟩ := Hfuncdef h1 hw1 hk1 v.ptr
              ((hvs v (List.mem_cons_self v rest)).1 (by simpa using hb))
            exact ⟨n1, h2, by rw [if_pos rfl]; exact hn1⟩
        obtain ⟨n1, h2, hn1⟩ := hstep
        have hext : Extends h1 h2 := by
          cases hb : (v.type == DstType.boolean)
          · rw [hb, if_neg (by simp)] at hn1
            exact markGo_extends _ _ _ _ hn1
          · rw [hb, if_pos rfl] at hn1
            exact markGo_extends _ _ _ _ hn1
        have hw2 : heapWFb h2 = true := heapWFb_extends hext hw1
        have hk2 : unmarkedCount h2 ≤ k :=
          le_trans (unmarkedCount_extends hext) hk1
        obtain ⟨n2, h', hn2⟩ := ihl h2 hw2 hk2 (fun x hx => by
          have hgx := getObj_extends hext
          refine ⟨fun hbx => ?_, fun hbx => ?_⟩
          · rw [isFuncdefAt_congr hgx]
            exact (hvs x (List.mem_cons_of_mem _ hx)).1 hbx
          · rw [valWFb_congr hgx]
            exact (hvs x (List.mem_cons_of_mem _ hx)).2 hbx)
        refine ⟨max n1 n2 + 1, h', ?_⟩
        simp only [markGo]
        have hn1m : (if (v.type == DstType.boolean) = true
            then markGo (max n1 n2) h1 (.funcdef v.ptr)
            else markGo (max n1 n2) h1 (.val v)) = some h2 := by
          cases hb : (v.type == DstType.boolean)
          · rw [hb, if_neg (by simp)] at hn1
            rw [if_neg (by simp)]
            exact markGo_mono_le (Nat.le_max_left n1 n2) hn1
          · rw [hb, if_pos rfl] at hn1
            rw [if_pos rfl]
            exact markGo_mono_le (Nat.le_max_left n1 n2) hn1
        rw [hn1m]
        exact markGo_mono_le (Nat.le_max_right n1 n2) hn2
    -- The env loop.
    have Henvs : ∀ (l : List (Option Nat)) (kk : Nat) (h1 : List Block),
        heapWFb h1 = true → unmarkedCount h1 ≤ k → kk ≤ l.length →
        (∀ e ∈ l, ∀ eid, e = some eid → isFuncenvAt h1 eid = true) →
        ∃ n h', markGo n h1 (.envs l kk) = some h' := by
      intro l
      induction l with
      | nil =>
        intro kk h1 _ _ hkk _
        cases kk with
        | zero => exact ⟨1, h1, by simp only [markGo]⟩
        | succ kk => cases hkk
      | cons e rest ihl =>
        intro kk h1 hw1 hk1 hkk hes
        cases kk with
        | zero => exact ⟨1, h1, by simp only [markGo]⟩
        | succ kk =>
          cases e with
          | none =>
            obtain ⟨n, h', hn⟩ := ihl kk h1 hw1 hk1 (by simpa using hkk)
              (fun e2 he2 eid heq =>
                hes e2 (List.mem_cons_of_mem _ he2) eid heq)
            exact ⟨n + 1, h', by simp only [markGo]; exact hn⟩
          | some envId =>
            obtain ⟨n1, h2, hn1⟩ := Hfuncenv h1 hw1 hk1 envId
              (hes (some envId) (List.mem_cons_self _ _) envId rfl)
            have hw2 := markGo_wf hw1 hn1
            have hk2 : unmarkedCount h2 ≤ k :=
              le_trans (markGo_count_le hn1) hk1
            obtain ⟨n2, h', hn2⟩ := ihl kk h2 hw2 hk2 (by simpa using hkk)
              (fun e2 he2 eid heq => by
                rw [isFuncenvAt_congr
                  (getObj_extends (markGo_extends _ _ _ _ hn1))]
                exact hes e2 (List.mem_cons_of_mem _ he2) eid heq)
            refine ⟨max n1 n2 + 1, h', ?_⟩
            simp only [markGo]
            rw [markGo_mono_le (Nat.le_max_left n1 n2) hn1]
            exact markGo_mono_le (Nat.le_max_right n1 n2) hn2
    -- The frame walk, by induction on the chain certificate.
    have Hframes : ∀ (cf : Nat) (data : List FiberSlot) (i j : Nat)
        (h1 : List Block), heapWFb h1 = true → unmarkedCount h1 ≤ k →
        chainWFb h1 data cf i j = true →
        ∃ n h', markGo n h1 (.frames data i j) = some h' := by
      intro cf
      induction cf with
      | zero =>
        intro data i j h1 _ _ hcf
        cases i with
        | zero => exact ⟨1, h1, by simp only [markGo]⟩
        | succ i => simp [chainWFb] at hcf
      | succ cf ihcf =>
        intro data i j h1 hw1 hk1 hcf
        cases i with
        | zero => exact ⟨1, h1, by simp only [markGo]⟩
        | succ i =>
          obtain ⟨funcId, prevframe, hs, hfun, ⟨vs, hrv, hvs⟩, hchain⟩ :=
            chainWFb_succ_inv2 hcf
          cases funcId with
          | none =>
            obtain ⟨n2, h3, hn2⟩ := Hmany vs h1 hw1 hk1 hvs
            have hext2 : Extends h1 h3 := markGo_extends _ _ _ _ hn2
            have hw3 : heapWFb h3 = true := markGo_wf hw1 hn2
            have hk3 : unmarkedCount h3 ≤ k :=
              le_trans (markGo_count_le hn2) hk1
            obtain ⟨n3, h', hn3⟩ := ihcf data prevframe
              (i + 1 - DST_FRAME_SIZE) h3 hw3 hk3
              (by rw [chainWFb_congr (getObj_extends hext2)]; exact hchain)
            refine ⟨max n2 n3 + 1, h', ?_⟩
            simp only [markGo, hs, hrv,
              markGo_mono_le (Nat.le_max_left n2 n3) hn2]
            exact markGo_mono_le (Nat.le_max_right n2 n3) hn3
          | some f =>
            obtain ⟨n1, h2, hn1⟩ := Hfunction h1 hw1 hk1 f (hfun f rfl)
            have hext1 : Extends h1 h2 := markGo_extends _ _ _ _ hn1
            have hw2 : heapWFb h2 = true := heapWFb_extends hext1 hw1
            have hk2 : unmarkedCount h2 ≤ k :=
              le_trans (unmarkedCount_extends hext1) hk1
            obtain ⟨n2, h3, hn2⟩ := Hmany vs h2 hw2 hk2 (fun x hx => by
              rw [valWFb_congr (getObj_extends hext1)]
              exact hvs x hx)
            have hext2 : Extends h1 h3 :=
              extends_trans hext1 (markGo_extends _ _ _ _ hn2)
            have hw3 : heapWFb h3 = true := markGo_wf hw2 hn2
            have hk3 : unmarkedCount h3 ≤ k :=
              le_trans (markGo_count_le hn2) hk2
            obtain ⟨n3, h', hn3⟩ := ihcf data prevframe
              (i + 1 - DST_FRAME_SIZE) h3 hw3 hk3
              (by rw [chainWFb_congr (getObj_extends hext2)]; exact hchain)
            refine ⟨max n1 (max n2 n3) + 1, h', ?_⟩
            simp only [markGo, hs, hrv,
              markGo_mono_le (Nat.le_max_left n1 (max n2 n3)) hn1,
              markGo_mono_le (le_trans (Nat.le_max_left n2 n3)
                (Nat.le_max_right n1 (max n2 n3))) hn2]
            exact markGo_mono_le (le_trans (Nat.le_max_right n2 n3)
              (Nat.le_max_right n1 (max n2 n3))) hn3
    -- Dispatch.    -- Dispatch.
    intro h hw hcount c hpre
    cases c with
    | val v => exact Hval h hw hcount v hpre
    | many vs => exact Hmany vs h hw hcount hpre
    | array id => exact Harray h hw hcount id hpre
    | table id => exact Htable h hw hcount id hpre
    | struct id => exact Hstruct h hw hcount id hpre
    | tuple id => exact Htuple h hw hcount id hpre
    | funcenv id => exact Hfuncenv h hw hcount id hpre
    | funcdef id => exact Hfuncdef h hw hcount id hpre
    | constants vs => exact Hconstants vs h hw hcount hpre
    | function id => exact Hfunction h hw hcount id hpre
    | envs l kk => exact Henvs l kk h hw hcount hpre.1 hpre.2
    | fiber id => exact Hfiber h hw hcount id hpre
    | frames data i j =>
      obtain ⟨cf, hcf⟩ := hpre
      exact Hframes cf data i j h hw hcount hcf

end MarkTermination

section RootLemmas

/-- A reachable answer comes from a live, marked block. -/
lemma reachable_true_findBlock {h : List Block} {id : Nat}
    (hr : dst_gc_reachable h id = some true) :
    ∃ b, findBlock h id = some b ∧ b.flags.reachable = true := by
  unfold dst_gc_reachable at hr
  cases hf : findBlock h id with
  | none => rw [hf] at hr; cases hr
  | some b =>
    rw [hf] at hr
    simp at hr
    exact ⟨b, rfl, hr⟩

end RootLemmas

/-- C1 (counterexample): pinned blocks are kept by the sweep but are not used
as mark roots — `dst_collect` marks only from the registered fiber.  On the
well-formed, resting heap `vmC1`, block 1 is reachable (by the tracing rules)
from the pinned block 0, yet a collection with no registered fiber deinits
and frees block 1; no block with its id survives on the global list. -/
theorem pinned_blocks_not_mark_roots_cex :
    heapWFb vmC1.dst_vm_blocks = true ∧
    allClear vmC1.dst_vm_blocks = true ∧
    (∃ b ∈ vmC1.dst_vm_blocks, b.id = 0 ∧ b.flags.disabled = true) ∧
    Reaches vmC1.dst_vm_blocks 0 1 ∧
    dst_collect 1 Option.none vmC1 =
      some ({ dst_vm_blocks := [blkC1p], dst_vm_next_collection := 0,
              cacheInited := true },
            [SweepAction.clearFlags 0,
             SweepAction.deinit 1 [DeinitEffect.freeArrayData 1],
             SweepAction.free 1, SweepAction.clearFlags 1]) ∧
    (∀ b ∈ [blkC1p], b.id ≠ 1) :=
  ⟨by decide, by decide, ⟨blkC1p, by decide, by decide, by decide⟩,
   Relation.ReflTransGen.single
     (@Edge.tableE vmC1.dst_vm_blocks 0 [{ type := DstType.array, ptr := 1 }]
       { type := DstType.array, ptr := 1 } 1 (by decide) (by decide) (by decide)),
   by decide, by decide⟩

/-- C1 (amended): after a collection on a well-formed, resting heap, every
block reachable (by the per-kind tracing rules) from the registered active
fiber is still on the global list, and so is every pinned block itself —
but not, in general, blocks merely reachable from a pinned block. -/
theorem dst_collect_preserves_roots {n : Nat} {vmf : Option Nat} {vm vm' : VM}
    {tr : List SweepAction}
    (hw : heapWFb vm.dst_vm_blocks = true)
    (hclear : allClear vm.dst_vm_blocks = true)
    (hc : dst_collect n vmf vm = some (vm', tr)) :
    ∀ id,
      ((∃ r, vmf = some r ∧ Reaches vm.dst_vm_blocks r id) ∨
        (∃ b ∈ vm.dst_vm_blocks, b.id = id ∧ b.flags.disabled = true)) →
      ∃ b' ∈ vm'.dst_vm_blocks, b'.id = id := by
  intro id hroot
  cases vmf with
  | none =>
    simp only [dst_collect] at hc
    rw [Option.some.injEq, Prod.mk.injEq] at hc
    obtain ⟨hv', -⟩ := hc
    subst hv'
    rcases hroot with ⟨r, hr, -⟩ | ⟨b, hb, hid, hdis⟩
    · cases hr
    · have hk : keepBlock b = true := by simp [keepBlock, hdis]
      exact ⟨clearReach b, keep_mem_dst_sweep_fst hb hk, hid⟩
  | some r =>
    simp only [dst_collect] at hc
    cases hm : dst_mark_fiber n vm.dst_vm_blocks r with
    | none => rw [hm] at hc; cases hc
    | some h2 =>
      rw [hm] at hc
      rw [Option.some.injEq, Prod.mk.injEq] at hc
      obtain ⟨hv', -⟩ := hc
      subst hv'
      obtain ⟨post, htgt⟩ :=
        markGo_complete n vm.dst_vm_blocks (.fiber r) h2 hw trivial hm
      unfold allClear at hclear
      have hmarked : ∀ t, Reaches vm.dst_vm_blocks r t →
          dst_gc_reachable h2 t = some true := by
        intro t hrch
        induction hrch with
        | refl => exact htgt
        | tail hab hbc ih =>
          rcases post.2 _ ih with hold | hcov
          · obtain ⟨blk, hf, hbr⟩ := reachable_true_findBlock hold
            have hbm := List.mem_of_find?_eq_some hf
            have h3 := List.all_eq_true.1 hclear blk hbm
            simp [hbr] at h3
          · exact hcov _ hbc
      rcases hroot with ⟨r2, hr2, hrch⟩ | ⟨b, hb, hid, hdis⟩
      · injection hr2 with hr2
        subst hr2
        obtain ⟨blk, hf, hbr⟩ := reachable_true_findBlock (hmarked id hrch)
        have hbm := List.mem_of_find?_eq_some hf
        have hk : keepBlock blk = true := by simp [keepBlock, hbr]
        have hbid : blk.id = id := by simpa using List.find?_some hf
        exact ⟨clearReach blk, keep_mem_dst_sweep_fst hbm hk, hbid⟩
      · obtain ⟨b2, hb2, hle⟩ := mem_extends post.1 hb
        have hk : keepBlock b2 = true := by
          simp [keepBlock, hle.2.2.2.1, hdis]
        exact ⟨clearReach b2, keep_mem_dst_sweep_fst hb2 hk, hle.1.trans hid⟩

/-- C1 (witness for the amended theorem): a collection of `vmW1` — active
fiber 10 whose return value references table 0, which references array 1,
plus the pinned buffer 5 — keeps blocks with ids 1 and 5 on the list. -/
theorem dst_collect_preserves_roots_witness :
    dst_collect 20 (some 10) vmW1 = some (vmW1post, trW1) ∧
    (∃ b ∈ vmW1post.dst_vm_blocks, b.id = 1) ∧
    (∃ b ∈ vmW1post.dst_vm_blocks, b.id = 5) :=
  ⟨by decide,
   @dst_collect_preserves_roots 20 (some 10) vmW1 vmW1post trW1 (by decide)
     (by decide) (by decide) 1
     (Or.inl ⟨10, rfl,
       Relation.ReflTransGen.tail
         (Relation.ReflTransGen.single
           (@Edge.fiberRet vmW1.dst_vm_blocks 10 0 0 ([] : List FiberSlot)
             Option.none { type := DstType.table, ptr := 0 } 0
             (by decide) (by decide)))
         (@Edge.tableE vmW1.dst_vm_blocks 0 [{ type := DstType.array, ptr := 1 }]
           { type := DstType.array, ptr := 1 } 1
           (by decide) (by decide) (by decide))⟩),
   @dst_collect_preserves_roots 20 (some 10) vmW1 vmW1post trW1 (by decide)
     (by decide) (by decide) 5
     (Or.inr ⟨blkW1p, by decide, by decide, by decide⟩)⟩

/-- C4: on every well-formed heap — cycles and sharing allowed — marking any
well-formed value terminates: some fuel makes `dst_mark` return, because
every per-kind routine tests the reachable bit and returns before
recursing. -/
theorem dst_mark_terminates (h : List Block) (x : DstValue)
    (hw : heapWFb h = true) (hv : valWFb h x = true) :
    ∃ n h', dst_mark n h x = some h' :=
  markGo_terminates (unmarkedCount h) h hw (Nat.le_refl _) (.val x) hv

/-- C4 (witness): on the cyclic heap `hC4` — a table containing itself and a
fiber whose parent pointer refers back to the fiber itself — marking the
table terminates. -/
theorem dst_mark_terminates_witness :
    heapWFb hC4 = true ∧
    valWFb hC4 { type := DstType.table, ptr := 0 } = true ∧
    ∃ n h', dst_mark n hC4 { type := DstType.table, ptr := 0 } = some h' :=
  ⟨by decide, by decide,
   dst_mark_terminates hC4 { type := DstType.table, ptr := 0 }
     (by decide) (by decide)⟩

/-- C7: marking an unmarked FUNCDEF whose constants pointer is null marks
only its header and returns without reading any constant; when the constants
pointer is non-null and the call returns on a well-formed heap, every
boolean-tagged constant's pointer payload is marked as a nested funcdef and
every pointee of the other constants is marked as an ordinary value. -/
theorem dst_mark_funcdef_constants_spec :
    (∀ (n : Nat) (h : List Block) (id el : Nat),
      getObj h id = some (DstObject.funcdef Option.none el) →
      dst_gc_reachable h id = some false →
      dst_mark_funcdef (n + 1) h id = some (setMark h id)) ∧
    (∀ (n : Nat) (h : List Block) (id el : Nat) (cs : List DstValue)
        (h' : List Block),
      heapWFb h = true →
      getObj h id = some (DstObject.funcdef (some cs) el) →
      dst_gc_reachable h id = some false →
      dst_mark_funcdef n h id = some h' →
      ∀ v ∈ cs, ∀ t,
        (if v.type = DstType.boolean then some v.ptr else valPointee v) = some t →
        dst_gc_reachable h' t = some true) := by
  constructor
  · intro n h id el hg hr
    simp only [dst_mark_funcdef, markGo, hr, hg]
  · intro n h id el cs h' hw hg hr hc v hv t ht
    obtain ⟨post, htgt⟩ := markGo_complete n h (.funcdef id) h' hw trivial hc
    rcases post.2 id htgt with hold | hcov
    · rw [hr] at hold
      simp at hold
    · by_cases hb : v.type = DstType.boolean
      · rw [if_pos hb] at ht
        injection ht with ht
        subst ht
        exact hcov v.ptr (Edge.funcdefB hg hv hb)
      · rw [if_neg hb] at ht
        exact hcov t (Edge.funcdefV hg hv hb ht)

/-- C7 (witness): on `hC7`, marking the null-constants funcdef 1 marks only
its header; marking funcdef 0 — whose constants hold a boolean-tagged nested
funcdef pointer to 1, a number, and a table pointer to 2 — leaves both the
nested funcdef 1 and the table 2 marked. -/
theorem dst_mark_funcdef_constants_witness :
    dst_mark_funcdef 1 hC7 1 = some (setMark hC7 1) ∧
    dst_gc_reachable hC7post 1 = some true ∧
    dst_gc_reachable hC7post 2 = some true :=
  ⟨dst_mark_funcdef_constants_spec.1 0 hC7 1 0 (by decide) (by decide),
   dst_mark_funcdef_constants_spec.2 9 hC7 0 0 csC7 hC7post (by decide)
     (by decide) (by decide) (by decide)
     { type := DstType.boolean, ptr := 1 } (by decide) 1 (by decide),
   dst_mark_funcdef_constants_spec.2 9 hC7 0 0 csC7 hC7post (by decide)
     (by decide) (by decide) (by decide)
     { type := DstType.table, ptr := 2 } (by decide) 2 (by decide)⟩

/-- C10: marking an unmarked FUNCTION whose envs pointer is null skips the
env loop entirely and proceeds to mark the funcdef — provided the def
pointer refers to a live funcdef, because the routine reads
`func->def->environments_length` unconditionally; with a dangling def the
call is undefined behavior even though envs is null and the loop would not
run. -/
theorem dst_mark_function_null_envs :
    (∀ (n : Nat) (h : List Block) (id fdef : Nat)
        (cs : Option (List DstValue)) (numenvs : Nat),
      getObj h id = some (DstObject.function fdef Option.none) →
      dst_gc_reachable h id = some false →
      getObj h fdef = some (DstObject.funcdef cs numenvs) →
      dst_mark_function (n + 1) h id = dst_mark_funcdef n (setMark h id) fdef) ∧
    (∀ (n : Nat) (h : List Block) (id fdef : Nat)
        (envs : Option (List (Option Nat))),
      getObj h id = some (DstObject.function fdef envs) →
      dst_gc_reachable h id = some false →
      getObj h fdef = Option.none →
      dst_mark_function (n + 1) h id = Option.none) := by
  constructor
  · intro n h id fdef cs numenvs hg hr hgd
    simp only [dst_mark_function, dst_mark_funcdef, markGo, hr, hg, hgd]
  · intro n h id fdef envs hg hr hgd
    simp only [dst_mark_function, markGo, hr, hg, hgd]

/-- C10 (witness): on `hC10`, marking function 0 (null envs, def at the live
funcdef 1) equals marking its header and then the funcdef; marking function
2, whose def pointer 99 dangles, is undefined behavior even though its envs
pointer is also null. -/
theorem dst_mark_function_null_envs_witness :
    dst_mark_function 5 hC10 0 = dst_mark_funcdef 4 (setMark hC10 0) 1 ∧
    dst_mark_function 5 hC10 2 = Option.none :=
  ⟨dst_mark_function_null_envs.1 4 hC10 0 1 Option.none 0
     (by decide) (by decide) (by decide),
   dst_mark_function_null_envs.2 4 hC10 2 99 Option.none
     (by decide) (by decide) (by decide)⟩

end DstGC
